import Mathlib

/-!
# Helion `ObjLoader`: a shallow embedding and its specification

The development embeds `src/heliocentric/ObjLoader.cpp` (tokenizer, numeric
conversion, the three record parsers and `load`) and proves or refutes the
statements of the specification about it.

Conventions of the embedding:

* `std::string` is a `List Char`; a file is the list of lines that successive
  `getline` calls return.
* `float` is IEEE-754 binary32 (`F32`), kept in a canonical
  significand/exponent form so that equality of values is equality of bit
  patterns (NaN payloads apart).
* The C++ `int` counters of `tokenize` and the line counter are unbounded
  naturals: the model is that of the code on lines and files shorter than
  `2^31`.
* A method of `ObjLoader` returns a `Result`: a value with the loader state
  after the call, an exception with the loader state at the throw, or
  undefined behaviour.
-/

namespace Helion

/-! ## binary32 values -/

/-- A binary32 value. `finite neg m e` stands for `(-1)^neg * m * 2^e`; the values
built by `F32.round` are canonical: `m < 2^24`, `-149 ≤ e ≤ 104`, and `2^23 ≤ m`
unless `e = -149`. -/
inductive F32 where
  | finite (neg : Bool) (m : Nat) (e : Int)
  | inf (neg : Bool)
  | nan
  deriving DecidableEq, Repr

namespace F32

/-- Number of binary digits of `n` (`fuel ≥ n` suffices): `n.size`. -/
def bitLength : Nat → Nat → Nat
  | 0, _ => 0
  | fuel + 1, n => if n = 0 then 0 else bitLength fuel (n / 2) + 1

/-- Position of the leading binary digit, `⌊log₂ n⌋` for `n > 0`. -/
def log2 (n : Nat) : Nat := bitLength n n - 1

/-- Round the non-negative rational `n / d` (`d > 0`), with sign `neg`, to the
nearest binary32 value, ties to even; magnitudes that round beyond the largest
finite value give an infinity. -/
def round (neg : Bool) (n d : Nat) : F32 :=
  if n = 0 then finite neg 0 (-149) else
  let k0 : Int := (log2 n : Int) - (log2 d : Int)
  let k : Int := if n * 2 ^ (-k0).toNat < d * 2 ^ k0.toNat then k0 - 1 else k0
  let e : Int := max (k - 23) (-149)
  let num := n * 2 ^ (-e).toNat
  let den := d * 2 ^ e.toNat
  let q := num / den
  let r := num % den
  let m := if den < 2 * r ∨ (2 * r = den ∧ q % 2 = 1) then q + 1 else q
  if m = 2 ^ 24 then (if 104 < e + 1 then inf neg else finite neg (2 ^ 23) (e + 1))
  else if 104 < e then inf neg else finite neg m e

/-- Whether `n / d` is exactly representable with unit `2^e`. -/
def exactAt (n d : Nat) (e : Int) : Bool :=
  (n * 2 ^ (-e).toNat) % (d * 2 ^ e.toNat) = 0

/-- Conversion `int → float`. -/
def ofInt (i : Int) : F32 :=
  round (decide (i < 0)) i.natAbs 1

/-- Signed numerator of a finite value at unit `2^e0`, for `e0 ≤ e`. -/
def scaled (neg : Bool) (m : Nat) (e e0 : Int) : Int :=
  (if neg then -1 else 1) * ((m * 2 ^ (e - e0).toNat : Nat) : Int)

/-- Subtraction `a - b` in binary32, round to nearest even. -/
def sub : F32 → F32 → F32
  | nan, _ => nan
  | _, nan => nan
  | inf s, inf t => if s = t then nan else inf s
  | inf s, finite _ _ _ => inf s
  | finite _ _ _, inf t => inf (!t)
  | finite s m e, finite t n f =>
    let e0 := min e f
    let z : Int := scaled s m e e0 - scaled t n f e0
    if z = 0 then finite (s && !t) 0 (-149)
    else round (decide (z < 0)) (z.natAbs * 2 ^ e0.toNat) (2 ^ (-e0).toNat)

/-- Conversion `float → unsigned int` (32 bits): truncation toward zero; `none`
(undefined behaviour) when the truncated value is not representable. -/
def toUInt : F32 → Option Nat
  | nan => none
  | inf _ => none
  | finite neg m e =>
    let t := m * 2 ^ e.toNat / 2 ^ (-e).toNat
    if t = 0 then some 0
    else if neg then none
    else if t < 2 ^ 32 then some t else none

end F32

/-! ## The library conversions `std::stoi` and `std::stof`

`std::stoi(str)` is `strtol(str, &end, 10)` and `std::stof(str)` is
`strtof(str, &end)`; both throw `invalid_argument` when no conversion could be
performed and `out_of_range` when the library reports a range error. The
position `end` is not looked at by the callers in `ObjLoader.cpp`, so the models
return the converted value of the longest valid prefix only. The C library
modelled is glibc (2.36 on x86-64) in the "C" locale; its range error for tiny
values is `strtofUnderflow`. -/

/-- Outcome of `std::stoi` / `std::stof`. -/
inductive Sto (α : Type) where
  | value (a : α)
  | invalid_argument
  | out_of_range
  deriving DecidableEq, Repr

/-- The `isspace` of the "C" locale. -/
def isspace (c : Char) : Bool :=
  c.toNat = 32 ∨ (9 ≤ c.toNat ∧ c.toNat ≤ 13)

/-- Drop leading white space. -/
def skipSpace : List Char → List Char
  | [] => []
  | c :: cs => if isspace c then skipSpace cs else c :: cs

/-- An optional sign: whether it is a minus, and the rest. -/
def takeSign : List Char → Bool × List Char
  | [] => (false, [])
  | c :: cs => if c = '-' then (true, cs) else if c = '+' then (false, cs) else (false, c :: cs)

/-- Value of a digit in the given base (10 or 16). -/
def digitVal (base : Nat) (c : Char) : Option Nat :=
  if 48 ≤ c.toNat ∧ c.toNat ≤ 57 then some (c.toNat - 48)
  else if base = 16 ∧ 97 ≤ c.toNat ∧ c.toNat ≤ 102 then some (c.toNat - 87)
  else if base = 16 ∧ 65 ≤ c.toNat ∧ c.toNat ≤ 70 then some (c.toNat - 55)
  else none

/-- The longest run of digits at the head of the input: the accumulated value,
the number of digits read, and the rest. -/
def takeDigits (base : Nat) : Nat → Nat → List Char → Nat × Nat × List Char
  | acc, count, [] => (acc, count, [])
  | acc, count, c :: cs =>
    match digitVal base c with
    | some d => takeDigits base (base * acc + d) (count + 1) cs
    | none => (acc, count, c :: cs)

/-- Model of `std::stoi` with base 10 on a 32-bit `int`. -/
def stoi (str : List Char) : Sto Int :=
  match takeSign (skipSpace str) with
  | (neg, s) =>
    match takeDigits 10 0 0 s with
    | (v, count, _) =>
      if count = 0 then .invalid_argument
      else
        let i : Int := if neg then -(v : Int) else (v : Int)
        if i < -2147483648 ∨ 2147483647 < i then .out_of_range else .value i

/-- An optional exponent part: the marker (`mark`, lower case), an optional
sign and at least one decimal digit; `0` when there is none. -/
def takeExponent (mark : Char) : List Char → Int
  | [] => 0
  | c :: cs =>
    if c = mark ∨ c = mark.toUpper then
      match takeSign cs with
      | (neg, s) =>
        match takeDigits 10 0 0 s with
        | (v, count, _) => if count = 0 then 0 else if neg then -(v : Int) else (v : Int)
    else 0

/-- The digits of a significand in the given base, with an optional radix
point: value of all digits read, number of digits read, number of digits read
after the point, and the rest. -/
def takeSignificand (base : Nat) (s : List Char) : Nat × Nat × Nat × List Char :=
  match takeDigits base 0 0 s with
  | (v, count, rest) =>
    match rest with
    | [] => (v, count, 0, [])
    | c :: cs =>
      if c = '.' then
        match takeDigits base v 0 cs with
        | (w, frac, rest2) => (w, count + frac, frac, rest2)
      else (v, count, 0, c :: cs)

/-- Whether the input starts with the given lower-case word, ignoring case. -/
def startsWithNoCase : List Char → List Char → Bool
  | [], _ => true
  | _ :: _, [] => false
  | w :: ws, c :: cs => (c.toLower = w) && startsWithNoCase ws cs

/-- Whether the input starts with `0x` or `0X`. -/
def startsWithHexMark : List Char → Bool
  | c :: x :: _ => decide (c = '0') && (decide (x = 'x') || decide (x = 'X'))
  | _ => false

/-- Position of the leading binary digit of the positive rational `n / d`:
`⌊log₂ (n / d)⌋`. -/
def exponentOf (n d : Nat) : Int :=
  let k0 : Int := (F32.log2 n : Int) - (F32.log2 d : Int)
  if n * 2 ^ (-k0).toNat < d * 2 ^ k0.toNat then k0 - 1 else k0

/-- Round-to-nearest-even decision of glibc (`round_away`): `odd` is the last
bit kept, `half` the first bit dropped, `more` whether a later bit is set. -/
def roundAway (odd half more : Bool) : Bool :=
  half && (more || odd)

/-- The range error of glibc's `strtof` (2.36, x86-64, where tininess is
detected after rounding) for a positive value `n / d` below the least normal
number `2^-126`, as `round_and_return` decides it. The value has been cut to 24
significant bits `retval`, a round bit `half` and a sticky flag `more`, and
`retval` is shifted right by `shift` places to the unit `2^-149` (everything
is shifted out when the value is below `2^-149`, which is always an error).
The last bit shifted out becomes the round bit `half2` and the other bits
shifted out are added to the sticky flag; the round bit `half` of the 24-bit
cut is not, for a hexadecimal constant. For a decimal constant the digits after
the 151st place behind the point are only read as "more", which keeps the bit
`half` in the sticky flag unless `shift = 1`. With `shift = 1` the bit `half`
decides whether rounding to 24 bits reaches `2^-126`: then the result is not
tiny. The error is raised for a tiny result with `half2` or the sticky flag
set. -/
def strtofUnderflow (isHex : Bool) (n d : Nat) : Bool :=
  if n * 2 ^ 150 < d then true
  else
    let shift := (-126 - exponentOf n d).toNat
    let num := n * 2 ^ (149 + shift)
    let retval := num / d
    let r := num % d
    let half := decide (d ≤ 2 * r)
    let more := decide ((2 * r) % d ≠ 0)
    let tiny := !(decide (shift = 1) && roundAway (decide (retval % 2 = 1)) half more &&
      decide (retval + 1 = 2 ^ 24))
    let half2 := decide (retval / 2 ^ (shift - 1) % 2 = 1)
    let more2 := more || decide (retval % 2 ^ (shift - 1) ≠ 0) ||
      (!isHex && half && decide (shift ≠ 1))
    tiny && (half2 || more2)

/-- The binary32 result of `strtof` for the exact value `n / d * 2^x` with sign
`neg`, read from a hexadecimal (`isHex`) or a decimal constant, and the range
error (`ERANGE`, which `std::stof` turns into `out_of_range`): the value is
rounded to nearest, ties to even; the range error is overflow, or the underflow
of `strtofUnderflow` for a non-zero value below `2^-126`. -/
def strtofRound (isHex neg : Bool) (n d : Nat) (x : Int) : Sto F32 :=
  let n2 := n * 2 ^ x.toNat
  let d2 := d * 2 ^ (-x).toNat
  match F32.round neg n2 d2 with
  | .finite s m e =>
    if n2 ≠ 0 ∧ n2 * 2 ^ 126 < d2 ∧ strtofUnderflow isHex n2 d2 = true then .out_of_range
    else .value (.finite s m e)
  | _ => .out_of_range

/-- A decimal floating constant at the head of `s` (after the sign). -/
def strtofDecimal (neg : Bool) (s : List Char) : Sto F32 :=
  match takeSignificand 10 s with
  | (v, count, frac, rest) =>
    if count = 0 then .invalid_argument
    else
      let x : Int := takeExponent 'e' rest - (frac : Int)
      strtofRound false neg (v * 10 ^ x.toNat) (10 ^ (-x).toNat) 0

/-- Model of `std::stof` (`strtof` of glibc in the "C" locale): white space, an
optional sign, then `inf`/`infinity`, `nan`, a hexadecimal or a decimal floating
constant. -/
def stof (str : List Char) : Sto F32 :=
  match takeSign (skipSpace str) with
  | (neg, s) =>
    if startsWithNoCase ['i', 'n', 'f'] s then .value (.inf neg)
    else if startsWithNoCase ['n', 'a', 'n'] s then .value .nan
    else if startsWithHexMark s then
      match takeSignificand 16 (s.drop 2) with
      | (v, count, frac, rest) =>
        if count = 0 then strtofDecimal neg s
        else strtofRound true neg v 1 (takeExponent 'p' rest - 4 * (frac : Int))
    else strtofDecimal neg s

/-- Whether the input starts with a decimal digit. -/
def startsWithDigit : List Char → Bool
  | [] => false
  | c :: _ => decide (48 ≤ c.toNat ∧ c.toNat ≤ 57)

/-- Whether the input (after white space and sign) starts with something that
`strtof` converts: `inf`, `nan`, a digit, or a point followed by a digit. -/
def startsWithFloat (s : List Char) : Bool :=
  startsWithNoCase ['i', 'n', 'f'] s || startsWithNoCase ['n', 'a', 'n'] s ||
    startsWithDigit s ||
    (match s with
      | [] => false
      | c :: cs => decide (c = '.') && startsWithDigit cs)

/-! ## The loader -/

/-- Modelled from the spec: the geometry output built by `new Mesh(vertexData,
indices)` (`Mesh.hpp` is absent): "a flat ordered sequence of floating-point
attribute values (the vertex buffer) and a flat ordered sequence of unsigned
integer indices (the index buffer)". -/
structure Mesh where
  vertexData : List F32
  indices : List Nat
  deriving DecidableEq, Repr

/-- The messages passed to `ObjLoader::error`. -/
inductive Message where
  /-- Text "Expected three (xyz), four (xyzw), six (xyzrgb) or seven (xyzwrgb) values in v-entry." -/
  | vFieldCount
  /-- Text "Expected three values in vn-entry." -/
  | vnFieldCount
  /-- Text "Expected three values in f-entry." -/
  | fFieldCount
  /-- Text "Value \"str\" cannot be parsed as a floating point number." -/
  | floatInvalid (str : List Char)
  /-- Text "Value \" str\" is out of the range that can be represented by a float." -/
  | floatRange (str : List Char)
  /-- Text "Value \"str\" cannot be parsed as an integer." -/
  | intInvalid (str : List Char)
  /-- Text "Value \"str\" is out of the range that can be represented by an integer." -/
  | intRange (str : List Char)
  deriving DecidableEq, Repr

/-- The field-count messages. -/
def Message.isFieldCount : Message → Bool
  | .vFieldCount => true
  | .vnFieldCount => true
  | .fFieldCount => true
  | _ => false

/-- The messages of `toFloat` and `toInt` for a token that is not a number. -/
def Message.isMalformed : Message → Bool
  | .floatInvalid _ => true
  | .intInvalid _ => true
  | _ => false

/-- The messages of `toFloat` and `toInt`, each of which quotes the token. -/
def Message.isNumeric : Message → Bool
  | .floatInvalid _ => true
  | .floatRange _ => true
  | .intInvalid _ => true
  | .intRange _ => true
  | _ => false

/-- The exceptions thrown by `ObjLoader`. -/
inductive Exception where
  /-- Thrown as `IOException("Cannot read file \"filename\": ...")` -/
  | cannotRead (filename : List Char)
  /-- Thrown as `IOException("Error while reading file \"filename\": ...")` -/
  | readError (filename : List Char)
  /-- Thrown as `ObjParseException("Mismatch between number of vertices and normals.")` -/
  | mismatch
  /-- Thrown as `ObjParseException("Error while parsing \"currentFile\", line lineNumber: message")` -/
  | parse (currentFile : List Char) (lineNumber : Nat) (message : Message)
  deriving DecidableEq, Repr

/-- The state of an `ObjLoader` object. -/
structure ObjLoader where
  inlining : Bool
  loadColorData : Bool
  currentFile : List Char
  lineNumber : Nat
  vertices : List (List F32)
  normals : List (List F32)
  indices : List Nat
  vertexData : List F32
  deriving DecidableEq, Repr

/-- What a method call on a loader does: return a value, throw, or run into
undefined behaviour. `self` is the loader state when control leaves the method. -/
inductive Result (α : Type) where
  | ok (value : α) (self : ObjLoader)
  | throw (ex : Exception) (self : ObjLoader)
  | undefined
  deriving DecidableEq, Repr

/-- Sequencing: run `f` on the value and state of a normal return; an exception
or undefined behaviour ends the computation. -/
def Result.bind {α β : Type} (r : Result α) (f : α → ObjLoader → Result β) : Result β :=
  match r with
  | .ok a s => f a s
  | .throw ex s => .throw ex s
  | .undefined => .undefined

/-- The stream `ifstream file(filename)`: the lines that `getline` returns
before it fails, and whether `file.bad()` holds afterwards. -/
structure IFStream where
  lines : List (List Char)
  bad : Bool
  deriving DecidableEq, Repr

namespace ObjLoader

/-- The constructor `ObjLoader::ObjLoader(bool inlining, bool loadColorData)`: a fresh loader. -/
def new (inlining loadColorData : Bool) : ObjLoader :=
  { inlining := inlining, loadColorData := loadColorData, currentFile := [],
    lineNumber := 0, vertices := [], normals := [], indices := [], vertexData := [] }

/-- Modelled from the spec: the default separator of `tokenize`, declared in the
absent `ObjLoader.hpp` ("Default separator is whitespace"). -/
def defaultSeparator : Char := ' '

/-- Modelled from the spec: the default of `allowEmptyTokens`, declared in the
absent `ObjLoader.hpp` ("default policy disallows empty tokens"). -/
def defaultAllowEmptyTokens : Bool := false

/-- The string `line.substr(pos, len)` for `pos ≤ line.length()`. -/
def substr (line : List Char) (pos len : Nat) : List Char :=
  (line.drop pos).take len

/-- The `for` loop of `ObjLoader::tokenize`; `rest` is the part of the line from
index `i` on. Returns `tokenStart`, `tokenLength` and `tokens` at loop exit. -/
def tokenizeLoop (line : List Char) (separator : Char) (allowEmptyTokens : Bool) :
    List Char → Nat → Nat → Nat → List (List Char) → Nat × Nat × List (List Char)
  | [], _, tokenStart, tokenLength, tokens => (tokenStart, tokenLength, tokens)
  | c :: rest, i, tokenStart, tokenLength, tokens =>
    if c = separator then
      tokenizeLoop line separator allowEmptyTokens rest (i + 1) (i + 1) 0
        (if 0 < tokenLength ∨ allowEmptyTokens = true
          then tokens ++ [substr line tokenStart tokenLength] else tokens)
    else
      tokenizeLoop line separator allowEmptyTokens rest (i + 1) tokenStart (tokenLength + 1) tokens

/-- Method `ObjLoader::tokenize`. -/
def tokenize (line : List Char) (separator : Char) (allowEmptyTokens : Bool) :
    List (List Char) :=
  match tokenizeLoop line separator allowEmptyTokens line 0 0 0 [] with
  | (tokenStart, tokenLength, tokens) =>
    if 0 < tokenLength then tokens ++ [substr line tokenStart tokenLength] else tokens

/-- Method `ObjLoader::error`: the exception for `message` at the current position. -/
def error (self : ObjLoader) (message : Message) : Exception :=
  .parse self.currentFile self.lineNumber message

/-- Method `ObjLoader::toFloat`. -/
def toFloat (self : ObjLoader) (str : List Char) : Result F32 :=
  match stof str with
  | .value x => .ok x self
  | .invalid_argument => .throw (self.error (.floatInvalid str)) self
  | .out_of_range => .throw (self.error (.floatRange str)) self

/-- Method `ObjLoader::toInt`; its declared return type is `float`, so the `int` that
`stoi` returns is converted. -/
def toInt (self : ObjLoader) (str : List Char) : Result F32 :=
  match stoi str with
  | .value i => .ok (F32.ofInt i) self
  | .invalid_argument => .throw (self.error (.intInvalid str)) self
  | .out_of_range => .throw (self.error (.intRange str)) self

/-- Access `tokens[i]`; reading past the end of the vector is undefined. -/
def tokenAt (tokens : List (List Char)) (i : Nat) (self : ObjLoader) : Result (List Char) :=
  match tokens.get? i with
  | none => .undefined
  | some tok => .ok tok self

/-- The loop `for (; ...; i++) vertex.push_back(toFloat(tokens[i]));` run for
`count` iterations from index `i`. -/
def pushFloats (tokens : List (List Char)) :
    Nat → Nat → List F32 → ObjLoader → Result (List F32)
  | 0, _, vertex, self => .ok vertex self
  | count + 1, i, vertex, self =>
    (tokenAt tokens i self).bind fun tok self =>
    (self.toFloat tok).bind fun x self =>
    pushFloats tokens count (i + 1) (vertex ++ [x]) self

/-- Method `ObjLoader::parseVEntry`. -/
def parseVEntry (self : ObjLoader) (N : Int) (tokens : List (List Char)) : Result Unit :=
  -- Check number of element correctness
  if N ≠ 3 ∧ N ≠ 4 ∧ N ≠ 6 ∧ N ≠ 7 then .throw (self.error .vFieldCount) self
  else
    -- Push vertex coordinates XYZ: `for (i = 1; i <= 3; i++)`, which leaves `i = 4`
    (pushFloats tokens 3 1 [] self).bind fun xyz self =>
    -- Push W; the value is the pair of `i` and `vertex` afterwards
    (if N = 3 ∨ N = 6 then Result.ok ((4 : Nat), xyz ++ [F32.ofInt 1]) self
      else (pushFloats tokens 1 4 xyz self).bind fun xyzw self =>
        Result.ok ((5 : Nat), xyzw) self).bind fun iv self =>
    -- Push color values: `for (; i < N + 1; i++)`
    (if self.loadColorData = true then
        pushFloats tokens (N + 1 - (iv.1 : Int)).toNat iv.1 iv.2 self
      else Result.ok iv.2 self).bind fun vertex self =>
    -- Add vertex to list of vertices
    .ok () { self with vertices := self.vertices ++ [vertex] }

/-- Method `ObjLoader::parseVNEntry`. -/
def parseVNEntry (self : ObjLoader) (N : Int) (tokens : List (List Char)) : Result Unit :=
  if N ≠ 3 then .throw (self.error .vnFieldCount) self
  else
    -- `for (int i = 1; i <= N; i++)`
    (pushFloats tokens N.toNat 1 [] self).bind fun normal self =>
    .ok () { self with normals := self.normals ++ [normal] }

/-- Modelled from the spec: the element type of the index list, whose
declaration is in the absent `ObjLoader.hpp`, is an unsigned integer ("a flat
ordered sequence of unsigned integer indices"), taken as 32 bits wide. `toIndex`
is the implicit conversion of a `float` to that type in `indices.push_back`. -/
def toIndex (x : F32) : Option Nat := F32.toUInt x

/-- The loop `for (...; i++) indices.push_back(toInt(tokens[i]) - 1);` of
`parseFEntry`, run for `count` iterations from index `i`. The difference is
computed in `float` and converted to the element type of `indices`; a
difference that has no value of that type is undefined. -/
def pushIndices (tokens : List (List Char)) : Nat → Nat → ObjLoader → Result Unit
  | 0, _, self => .ok () self
  | count + 1, i, self =>
    (tokenAt tokens i self).bind fun tok self =>
    (self.toInt tok).bind fun x self =>
    match toIndex (F32.sub x (F32.ofInt 1)) with
    | none => .undefined
    | some k => pushIndices tokens count (i + 1) { self with indices := self.indices ++ [k] }

/-- Method `ObjLoader::parseFEntry`. -/
def parseFEntry (self : ObjLoader) (N : Int) (tokens : List (List Char)) : Result Unit :=
  if N ≠ 3 then .throw (self.error .fFieldCount) self
  else
    -- `for (int i = 1; i <= N; i++)`
    pushIndices tokens N.toNat 1 self

/-- Method `ObjLoader::parseLine`. Calling `tokens.front()` on an empty vector is
undefined. -/
def parseLine (self : ObjLoader) (line : List Char) : Result Unit :=
  let tokens := tokenize line defaultSeparator defaultAllowEmptyTokens
  let N : Int := (tokens.length : Int) - 1
  match tokens with
  | [] => .undefined
  | linetype :: _ =>
    if linetype = ['v'] then parseVEntry self N tokens
    else if linetype = ['v', 'n'] then parseVNEntry self N tokens
    else if linetype = ['f'] then parseFEntry self N tokens
    else .ok () self

/-- The `while (getline(file, line))` loop of `ObjLoader::load`. -/
def readLines : ObjLoader → List (List Char) → Result Unit
  | self, [] => .ok () self
  | self, line :: rest =>
    let self1 := { self with lineNumber := self.lineNumber + 1 }
    if 0 < line.length ∧ line.head? ≠ some '#' then
      (parseLine self1 line).bind fun _ self2 => readLines self2 rest
    else readLines self1 rest

/-- The inlining loop of `load`: `count` iterations from index `i`, each
appending `vertices[i]` and then `normals[i]` to `vertexData`. It is only
entered when both lists have the same size, so every access is in bounds. -/
def inlineLoop (vertices normals : List (List F32)) : Nat → Nat → List F32 → List F32
  | 0, _, vertexData => vertexData
  | count + 1, i, vertexData =>
    inlineLoop vertices normals count (i + 1)
      (vertexData ++ vertices.getD i [] ++ normals.getD i [])

/-- The iterator loops of `load`: append every record to `vertexData`. -/
def appendAll : List F32 → List (List F32) → List F32
  | vertexData, [] => vertexData
  | vertexData, record :: rest => appendAll (vertexData ++ record) rest

/-- The loader state when the scan phase of `load(filename)` starts. -/
def startLoad (self : ObjLoader) (filename : List Char) : ObjLoader :=
  { self with currentFile := filename, lineNumber := 0 }

/-- Method `ObjLoader::load`. `file` is the stream opened on `filename`, `none` when it
cannot be opened. -/
def load (self : ObjLoader) (filename : List Char) (file : Option IFStream) : Result Mesh :=
  let self0 := self.startLoad filename
  match file with
  | none => .throw (.cannotRead filename) self0
  | some f =>
    (readLines self0 f.lines).bind fun _ s =>
      if f.bad then .throw (.readError filename) s
      else if s.inlining then
        if s.vertices.length ≠ s.normals.length then .throw .mismatch s
        else
          let vertexData := inlineLoop s.vertices s.normals s.vertices.length 0 s.vertexData
          .ok { vertexData := vertexData, indices := s.indices } { s with vertexData := vertexData }
      else
        let vertexData := appendAll (appendAll s.vertexData s.vertices) s.normals
        .ok { vertexData := vertexData, indices := s.indices } { s with vertexData := vertexData }

/-- The fields that no record parser writes. -/
def SameConfig (a b : ObjLoader) : Prop :=
  b.inlining = a.inlining ∧ b.loadColorData = a.loadColorData ∧
    b.currentFile = a.currentFile ∧ b.lineNumber = a.lineNumber ∧ b.vertexData = a.vertexData

/-- The fields that the scan phase leaves alone. -/
def ScanFrame (a b : ObjLoader) : Prop :=
  b.inlining = a.inlining ∧ b.loadColorData = a.loadColorData ∧
    b.currentFile = a.currentFile ∧ b.vertexData = a.vertexData

/-- The call throws an `error` with one of the field-count messages. -/
def ThrowsFieldCount {α : Type} (r : Result α) : Prop :=
  ∃ file lineNo m s, r = .throw (.parse file lineNo m) s ∧ m.isFieldCount = true

/-- What a throw of the numeric converter looks like: the state is untouched and
the exception is `error` of a numeric message. -/
def NumericThrow (self : ObjLoader) (ex : Exception) (s : ObjLoader) : Prop :=
  s = self ∧ ∃ m, m.isNumeric = true ∧ ex = self.error m

/-- Postcondition of a call: `P` holds of the value and state of a normal
return, `Q` of the exception and state of a throw. -/
def Post {α : Type} (P : α → ObjLoader → Prop) (Q : Exception → ObjLoader → Prop) :
    Result α → Prop
  | .ok a s => P a s
  | .throw ex s => Q ex s
  | .undefined => True

end ObjLoader

/-! ## Observations and sample inputs -/

/-- The value a call returns, if it returns. -/
def Result.value? {α : Type} : Result α → Option α
  | .ok a _ => some a
  | _ => none

/-- The loader state after a call that returns, `self` otherwise. -/
def Result.stateD {α : Type} (self : ObjLoader) : Result α → ObjLoader
  | .ok _ s => s
  | _ => self

/-- A stream over the given lines that is read to its end without error. -/
def fileOf (lines : List String) : Option IFStream :=
  some { lines := lines.map String.toList, bad := false }

/-- The source of testable property 8. -/
def triangleSource : List String :=
  ["v 0 0 0", "v 1 0 0", "v 0 1 0", "vn 0 0 1", "vn 0 0 1", "vn 0 0 1", "f 1 2 3"]

/-- A source with two position records and three normal records. -/
def unevenSource : List String :=
  ["v 0 0 0", "v 1 0 0", "vn 0 0 1", "vn 0 0 1", "vn 0 0 1"]

/-- The binary32 value of a small integer literal. -/
def lit (i : Int) : F32 := F32.ofInt i

/-! ## Reference functions for the tokenizer -/

/-- Splitting at every separator, with the piece under construction in `cur`:
the pieces that end at a separator of `rest`, in order, and the piece after the
last separator. -/
def splitRuns (separator : Char) : List Char → List Char → List (List Char) × List Char
  | cur, [] => ([], cur)
  | cur, c :: rest =>
    if c = separator then
      (cur :: (splitRuns separator [] rest).1, (splitRuns separator [] rest).2)
    else splitRuns separator (cur ++ [c]) rest

/-- The pieces that `tokenize` keeps when a separator is met. -/
def keepToken (allowEmptyTokens : Bool) (token : List Char) : Bool :=
  decide (0 < token.length) || allowEmptyTokens

/-! ## Lines without effect, and results up to line numbers -/

/-- A line that `load` does not dispatch: empty, or beginning with '#'. -/
def isSkippedLine (line : List Char) : Bool :=
  decide (line.length = 0) || decide (line.head? = some '#')

/-- A line whose first token exists and is none of "v", "vn", "f". -/
def hasOtherKeyword (line : List Char) : Bool :=
  match ObjLoader.tokenize line ObjLoader.defaultSeparator ObjLoader.defaultAllowEmptyTokens with
  | [] => false
  | keyword :: _ =>
    decide (keyword ≠ ['v']) && decide (keyword ≠ ['v', 'n']) && decide (keyword ≠ ['f'])

/-- A skipped or unrecognised line. -/
def isIgnoredLine (line : List Char) : Bool :=
  isSkippedLine line || hasOtherKeyword line

/-- The loader state with its line counter replaced. -/
def ObjLoader.withLine (self : ObjLoader) (n : Nat) : ObjLoader :=
  { self with lineNumber := n }

/-- The exception with its line number, if it has one, replaced. -/
def Exception.withLine : Exception → Nat → Exception
  | .parse file _ message, n => .parse file n message
  | ex, _ => ex

/-- The result with every line number in it replaced: two results that agree
after `withLine 0` differ at most in line numbers. -/
def Result.withLine {α : Type} : Result α → Nat → Result α
  | .ok a s, n => .ok a (s.withLine n)
  | .throw ex s, n => .throw (ex.withLine n) (s.withLine n)
  | .undefined, _ => .undefined

/-! ## Reference functions for the index buffer and the records -/

/-- A line that `load` hands to `parseFEntry`: dispatched, with first token "f". -/
def isFaceLine (line : List Char) : Bool :=
  !isSkippedLine line &&
    decide ((ObjLoader.tokenize line ObjLoader.defaultSeparator
      ObjLoader.defaultAllowEmptyTokens).head? = some ['f'])

/-- The index stored for one field of an "f" line: the field converted to an
integer and decremented by one (in the arithmetic of `parseFEntry`). -/
def convertIndex (field : List Char) : Option Nat :=
  match stoi field with
  | .value i => ObjLoader.toIndex (F32.sub (F32.ofInt i) (F32.ofInt 1))
  | _ => none

/-- The converted indices of the fields of a line. -/
def faceIndices (line : List Char) : List Nat :=
  (ObjLoader.tokenize line ObjLoader.defaultSeparator
    ObjLoader.defaultAllowEmptyTokens).tail.filterMap convertIndex

/-- The converted indices of the "f" lines of a source, in source order. -/
def allFaceIndices (lines : List (List Char)) : List Nat :=
  (lines.filter isFaceLine).flatMap faceIndices

/-- The field-count invariant of the record lists: a position record has 4
fields, or 7 when colour loading is on; a normal record has 3. -/
def RecordsWellFormed (s : ObjLoader) : Prop :=
  (∀ r ∈ s.vertices, r.length = 4 ∨ (s.loadColorData = true ∧ r.length = 7)) ∧
    ∀ r ∈ s.normals, r.length = 3

/-- The value a call returns, `a` if it does not return. -/
def Result.valueD {α : Type} (a : α) : Result α → α
  | .ok b _ => b
  | _ => a

/-- A source with three positions, three normals and a face whose third index
is beyond the positions. -/
def outOfRangeSource : List String :=
  ["v 0 0 0", "v 1 0 0", "v 0 1 0", "vn 0 0 1", "vn 0 0 1", "vn 0 0 1", "f 1 2 9"]

/-! ## The record parsers with a trace of their token accesses

The functions below are the record parsers of `ObjLoader` again, each step
paired with the list of the accesses `tokens[i]` it makes, labelled by the
place in the source that makes them. Their first components are the record
parsers themselves (`parseVEntryTraced_fst` and its siblings). -/

/-- The places in the record parsers where `tokens[i]` is read. -/
inductive ReadSite where
  /-- The loop `for (i = 1; i <= 3; i++)` of `parseVEntry`. -/
  | xyz
  /-- The statement `vertex.push_back(toFloat(tokens[i]))` under "Push W". -/
  | w
  /-- The loop `for (; i < N + 1; i++)` of `parseVEntry`. -/
  | colour
  /-- The loop of `parseVNEntry`. -/
  | normal
  /-- The loop of `parseFEntry`. -/
  | face
  deriving DecidableEq, Repr

/-- A call together with the token accesses made during it, in order. -/
def Traced (α : Type) : Type := Result α × List (ReadSite × Nat)

/-- A step that reads no token. -/
def Traced.pure {α : Type} (r : Result α) : Traced α := (r, [])

/-- Sequencing of traced calls: the accesses of the continuation follow those
of the first call; an exception or undefined behaviour ends the trace. -/
def Traced.bind {α β : Type} (t : Traced α) (f : α → ObjLoader → Traced β) : Traced β :=
  match t.1 with
  | .ok a s => ((f a s).1, t.2 ++ (f a s).2)
  | .throw ex s => (.throw ex s, t.2)
  | .undefined => (.undefined, t.2)

namespace ObjLoader

/-- The access `tokens[i]` made at `site`. -/
def tokenAtTraced (site : ReadSite) (tokens : List (List Char)) (i : Nat) (self : ObjLoader) :
    Traced (List Char) :=
  (tokenAt tokens i self, [(site, i)])

/-- The loop `pushFloats` with its accesses. -/
def pushFloatsTraced (site : ReadSite) (tokens : List (List Char)) :
    Nat → Nat → List F32 → ObjLoader → Traced (List F32)
  | 0, _, vertex, self => Traced.pure (.ok vertex self)
  | count + 1, i, vertex, self =>
    (tokenAtTraced site tokens i self).bind fun tok self =>
    (Traced.pure (self.toFloat tok)).bind fun x self =>
    pushFloatsTraced site tokens count (i + 1) (vertex ++ [x]) self

/-- The method `parseVEntry` with its accesses. -/
def parseVEntryTraced (self : ObjLoader) (N : Int) (tokens : List (List Char)) : Traced Unit :=
  if N ≠ 3 ∧ N ≠ 4 ∧ N ≠ 6 ∧ N ≠ 7 then Traced.pure (.throw (self.error .vFieldCount) self)
  else
    (pushFloatsTraced .xyz tokens 3 1 [] self).bind fun xyz self =>
    (if N = 3 ∨ N = 6 then Traced.pure (Result.ok ((4 : Nat), xyz ++ [F32.ofInt 1]) self)
      else (pushFloatsTraced .w tokens 1 4 xyz self).bind fun xyzw self =>
        Traced.pure (Result.ok ((5 : Nat), xyzw) self)).bind fun iv self =>
    (if self.loadColorData = true then
        pushFloatsTraced .colour tokens (N + 1 - (iv.1 : Int)).toNat iv.1 iv.2 self
      else Traced.pure (Result.ok iv.2 self)).bind fun vertex self =>
    Traced.pure (.ok () { self with vertices := self.vertices ++ [vertex] })

/-- The method `parseVNEntry` with its accesses. -/
def parseVNEntryTraced (self : ObjLoader) (N : Int) (tokens : List (List Char)) : Traced Unit :=
  if N ≠ 3 then Traced.pure (.throw (self.error .vnFieldCount) self)
  else
    (pushFloatsTraced .normal tokens N.toNat 1 [] self).bind fun normal self =>
    Traced.pure (.ok () { self with normals := self.normals ++ [normal] })

/-- The loop `pushIndices` with its accesses. -/
def pushIndicesTraced (tokens : List (List Char)) : Nat → Nat → ObjLoader → Traced Unit
  | 0, _, self => Traced.pure (.ok () self)
  | count + 1, i, self =>
    (tokenAtTraced .face tokens i self).bind fun tok self =>
    (Traced.pure (self.toInt tok)).bind fun x self =>
    match toIndex (F32.sub x (F32.ofInt 1)) with
    | none => Traced.pure .undefined
    | some k =>
      pushIndicesTraced tokens count (i + 1) { self with indices := self.indices ++ [k] }

/-- The method `parseFEntry` with its accesses. -/
def parseFEntryTraced (self : ObjLoader) (N : Int) (tokens : List (List Char)) : Traced Unit :=
  if N ≠ 3 then Traced.pure (.throw (self.error .fFieldCount) self)
  else pushIndicesTraced tokens N.toNat 1 self

/-- The accesses of a loop that runs `count` times from index `i`. -/
def loopReads (site : ReadSite) (i count : Nat) : List (ReadSite × Nat) :=
  (List.range' i count).map fun j => (site, j)

/-- The accesses that `parseVEntry` makes when no conversion fails. -/
def scheduledReads (loadColorData : Bool) (N : Nat) : List (ReadSite × Nat) :=
  loopReads .xyz 1 3 ++ (if N = 3 ∨ N = 6 then [] else loopReads .w 4 1) ++
    (if loadColorData = true then
      (if N = 3 ∨ N = 6 then loopReads .colour 4 (N - 3) else loopReads .colour 5 (N - 4))
    else [])

/-- The indices read by the colour loop, in order. -/
def colourReads (trace : List (ReadSite × Nat)) : List Nat :=
  (trace.filter fun a => decide (a.1 = ReadSite.colour)).map Prod.snd

/-- Postcondition of a traced call: `P` of value, state and trace on a normal
return, `Q` of the trace otherwise. -/
def TracedPost {α : Type} (P : α → ObjLoader → List (ReadSite × Nat) → Prop)
    (Q : List (ReadSite × Nat) → Prop) (t : Traced α) : Prop :=
  match t.1 with
  | .ok a s => P a s t.2
  | _ => Q t.2

end ObjLoader

/-- The tokens of "v 0 0 0 x 1 1": six fields, the first colour field malformed. -/
def malformedColourTokens : List (List Char) :=
  ["v", "0", "0", "0", "x", "1", "1"].map String.toList

/-- The tokens of "v 0 0 0 1 0.5 0 0": seven fields. -/
def colouredTokens : List (List Char) :=
  ["v", "0", "0", "0", "1", "0.5", "0", "0"].map String.toList

/-! ## Reference reading of a numeric token

What the converters make of a token, told by the longest runs of digits at its
head: the reading that `toInt` and `toFloat` are compared with. -/

/-- Whether `c` is a digit of the base: a decimal digit, or with base 16 also a
letter `a`-`f` or `A`-`F`. -/
def isDigitOf (base : Nat) (c : Char) : Bool :=
  c.isDigit || (decide (base = 16) &&
    (decide ('a' ≤ c ∧ c ≤ 'f') || decide ('A' ≤ c ∧ c ≤ 'F')))

/-- Value of a single digit. -/
def digitValue (c : Char) : Nat :=
  if c.isDigit then c.toNat - '0'.toNat
  else if 'a' ≤ c then c.toNat - 'a'.toNat + 10
  else c.toNat - 'A'.toNat + 10

/-- Value of a string of digits in the base, most significant digit first. -/
def digitsValue (base : Nat) (ds : List Char) : Nat :=
  ds.foldl (fun v c => base * v + digitValue c) 0

/-- Whether the text starts with a minus sign. -/
def signOf (s : List Char) : Bool :=
  decide (s.head? = some '-')

/-- The text after an optional sign. -/
def afterSign (s : List Char) : List Char :=
  if s.head? = some '-' ∨ s.head? = some '+' then s.tail else s

/-- The integer `v` with the sign `neg`. -/
def signed (neg : Bool) (v : Nat) : Int :=
  if neg then -(v : Int) else (v : Int)

/-- Reference reading of a token as an `int`: after leading white space and an
optional sign, the longest run of decimal digits is the number and the rest of
the token is not looked at. No digit: `invalid_argument`; a value outside
`-2^31 .. 2^31 - 1`: `out_of_range`. -/
def readInt (str : List Char) : Sto Int :=
  let s := str.dropWhile isspace
  let ds := (afterSign s).takeWhile Char.isDigit
  let i := signed (signOf s) (digitsValue 10 ds)
  if ds = [] then .invalid_argument
  else if -2147483648 ≤ i ∧ i ≤ 2147483647 then .value i
  else .out_of_range

/-- The digits of a floating constant at the head of `s`: the longest run of
digits of the base, then, when a point follows it, the longest run of digits
behind the point (no digits without a point), and the rest of the text. -/
def readSignificand (base : Nat) (s : List Char) : List Char × List Char × List Char :=
  match s.dropWhile (isDigitOf base) with
  | [] => (s.takeWhile (isDigitOf base), [], [])
  | c :: cs =>
    if c = '.' then
      (s.takeWhile (isDigitOf base), cs.takeWhile (isDigitOf base), cs.dropWhile (isDigitOf base))
    else (s.takeWhile (isDigitOf base), [], c :: cs)

/-- The exponent part at the head of `s`: one of the two marks, an optional sign
and the longest run of decimal digits, which must not be empty; `0` when `s`
does not start with such a part. -/
def readExponent (lower upper : Char) (s : List Char) : Int :=
  match s with
  | [] => 0
  | c :: cs =>
    if (c = lower ∨ c = upper) ∧ (afterSign cs).takeWhile Char.isDigit ≠ [] then
      signed (signOf cs) (digitsValue 10 ((afterSign cs).takeWhile Char.isDigit))
    else 0

/-- The exact value `n / d` as a `float`: the nearest binary32 value, ties to
even, with the sign `neg`; `out_of_range` when that is an infinity or when
`strtof` reports an underflow (`strtofUnderflow`) for a value below `2^-126`. -/
def roundOrRange (isHex neg : Bool) (n d : Nat) : Sto F32 :=
  if F32.round false n d = .inf false ∨
      (n ≠ 0 ∧ n * 2 ^ 126 < d ∧ strtofUnderflow isHex n d = true) then .out_of_range
  else .value (F32.round neg n d)

/-- Reference reading of a token as a `float`: after leading white space and an
optional sign, `inf` or `nan` in any letter case, or the longest hexadecimal
constant behind `0x` (digits with an optional point, at least one digit, and an
optional binary exponent behind `p`), or else the longest decimal constant
(digits with an optional point, at least one digit, and an optional exponent
behind `e`); the rest of the token is not looked at. No such start:
`invalid_argument`. -/
def readFloat (str : List Char) : Sto F32 :=
  let neg := signOf (str.dropWhile isspace)
  let s := afterSign (str.dropWhile isspace)
  let hex := readSignificand 16 (s.drop 2)
  let dec := readSignificand 10 s
  if (s.take 3).map Char.toLower = ['i', 'n', 'f'] then .value (.inf neg)
  else if (s.take 3).map Char.toLower = ['n', 'a', 'n'] then .value .nan
  else if (s.take 2 = ['0', 'x'] ∨ s.take 2 = ['0', 'X']) ∧ hex.1 ++ hex.2.1 ≠ [] then
    let x := readExponent 'p' 'P' hex.2.2 - 4 * (hex.2.1.length : Int)
    roundOrRange true neg (digitsValue 16 (hex.1 ++ hex.2.1) * 2 ^ x.toNat) (2 ^ (-x).toNat)
  else if dec.1 ++ dec.2.1 = [] then .invalid_argument
  else
    let x := readExponent 'e' 'E' dec.2.2 - (dec.2.1.length : Int)
    roundOrRange false neg (digitsValue 10 (dec.1 ++ dec.2.1) * 10 ^ x.toNat) (10 ^ (-x).toNat)

/-- Whether a character can be part of a number: a letter, a digit, a point or
a sign. -/
def isNumberChar (c : Char) : Bool :=
  c.isAlphanum || decide (c = '.') || decide (c = '+') || decide (c = '-')

/-- Whether text put behind a number cannot continue it: it is empty or starts
with a character that is no letter, digit, point or sign. -/
def endsNumber (rest : List Char) : Bool :=
  match rest with
  | [] => true
  | c :: _ => !isNumberChar c

/-! # Theorems -/

/-! ## Postconditions of the scan phase -/

namespace ObjLoader

theorem SameConfig.rfl (a : ObjLoader) : SameConfig a a := by
  simp [SameConfig]

theorem SameConfig.trans {a b c : ObjLoader} (h1 : SameConfig a b) (h2 : SameConfig b c) :
    SameConfig a c := by
  obtain ⟨h11, h12, h13, h14, h15⟩ := h1
  obtain ⟨h21, h22, h23, h24, h25⟩ := h2
  exact ⟨h21.trans h11, h22.trans h12, h23.trans h13, h24.trans h14, h25.trans h15⟩

theorem SameConfig.error_eq {a b : ObjLoader} (h : SameConfig a b) (m : Message) :
    b.error m = a.error m := by
  obtain ⟨_, _, h3, h4, _⟩ := h
  simp [error, h3, h4]

theorem Post.mono {α : Type} {P P1 : α → ObjLoader → Prop} {Q Q1 : Exception → ObjLoader → Prop}
    {r : Result α} (hr : Post P Q r) (hP : ∀ a s, P a s → P1 a s)
    (hQ : ∀ ex s, Q ex s → Q1 ex s) : Post P1 Q1 r := by
  cases r with
  | ok a s => exact hP a s hr
  | throw ex s => exact hQ ex s hr
  | undefined => trivial

theorem Post.bind {α β : Type} {P : α → ObjLoader → Prop} {Q : Exception → ObjLoader → Prop}
    {P1 : β → ObjLoader → Prop} {Q1 : Exception → ObjLoader → Prop} {r : Result α}
    {f : α → ObjLoader → Result β} (hr : Post P Q r) (hQ : ∀ ex s, Q ex s → Q1 ex s)
    (hf : ∀ a s, P a s → Post P1 Q1 (f a s)) : Post P1 Q1 (r.bind f) := by
  cases r with
  | ok a s => exact hf a s hr
  | throw ex s => exact hQ ex s hr
  | undefined => trivial

theorem tokenAt_post (tokens : List (List Char)) (i : Nat) (self : ObjLoader) :
    Post (fun tok s => s = self ∧ tokens.get? i = some tok) (fun _ _ => False)
      (tokenAt tokens i self) := by
  unfold tokenAt
  split <;> simp_all [Post]

theorem toFloat_post (self : ObjLoader) (str : List Char) :
    Post (fun x s => s = self ∧ stof str = .value x) (NumericThrow self) (self.toFloat str) := by
  unfold toFloat
  split <;> simp_all [Post, NumericThrow]
  · exact ⟨.floatInvalid str, rfl, rfl⟩
  · exact ⟨.floatRange str, rfl, rfl⟩

theorem toInt_post (self : ObjLoader) (str : List Char) :
    Post (fun x s => s = self ∧ ∃ i, stoi str = .value i ∧ x = F32.ofInt i) (NumericThrow self)
      (self.toInt str) := by
  unfold toInt
  split <;> simp_all [Post, NumericThrow]
  · exact ⟨.intInvalid str, rfl, rfl⟩
  · exact ⟨.intRange str, rfl, rfl⟩

theorem pushFloats_post (tokens : List (List Char)) (count i : Nat) (vertex : List F32)
    (self : ObjLoader) :
    Post (fun v s => s = self ∧ v.length = vertex.length + count) (NumericThrow self)
      (pushFloats tokens count i vertex self) := by
  induction count generalizing i vertex with
  | zero => simp [pushFloats, Post]
  | succ k ih =>
    unfold pushFloats
    refine (tokenAt_post tokens i self).bind (fun _ _ h => h.elim) ?_
    intro tok s hs
    obtain rfl : self = s := hs.1.symm
    refine (toFloat_post _ tok).bind (fun _ _ h => h) ?_
    intro x s hs
    obtain rfl : self = s := hs.1.symm
    refine (ih _ _).mono ?_ (fun _ _ h => h)
    intro v s hv
    refine ⟨hv.1, ?_⟩
    rw [hv.2, List.length_append, List.length_singleton]
    omega

theorem Message.isFieldCount_of_isNumeric {m : Message} (h : m.isNumeric = true) :
    m.isFieldCount = false := by
  cases m <;> simp_all [Message.isNumeric, Message.isFieldCount]

theorem pushIndices_post (tokens : List (List Char)) (count i : Nat) (self : ObjLoader) :
    Post (fun _ s => SameConfig self s)
      (fun ex s => SameConfig self s ∧ ∃ m, m.isNumeric = true ∧ ex = self.error m)
      (pushIndices tokens count i self) := by
  induction count generalizing i self with
  | zero => simp [pushIndices, Post, SameConfig]
  | succ k ih =>
    unfold pushIndices
    refine (tokenAt_post tokens i self).bind (fun _ _ h => h.elim) ?_
    intro tok s hs
    obtain rfl : self = s := hs.1.symm
    refine (toInt_post _ tok).bind (fun _ _ h => ⟨h.1 ▸ SameConfig.rfl _, h.2⟩) ?_
    intro x s hs
    obtain rfl : self = s := hs.1.symm
    split
    · trivial
    · have hc : SameConfig self { self with indices := self.indices ++ [‹Nat›] } := by
        simp [SameConfig]
      refine (ih _ _).mono (fun _ s h => hc.trans h) ?_
      rintro ex s ⟨h1, m, hm, rfl⟩
      exact ⟨hc.trans h1, m, hm, hc.error_eq m⟩

theorem parseVEntry_post (self : ObjLoader) (N : Int) (tokens : List (List Char)) :
    Post (fun _ s => SameConfig self s)
      (fun ex s => s = self ∧ ∃ m, ex = self.error m ∧
        (m.isFieldCount = true ↔ (N ≠ 3 ∧ N ≠ 4 ∧ N ≠ 6 ∧ N ≠ 7)))
      (parseVEntry self N tokens) := by
  unfold parseVEntry
  split
  · rename_i h
    exact ⟨rfl, .vFieldCount, rfl, by simp [Message.isFieldCount, h]⟩
  · rename_i h
    have hQ : ∀ ex s, NumericThrow self ex s → s = self ∧ ∃ m, ex = self.error m ∧
        (m.isFieldCount = true ↔ (N ≠ 3 ∧ N ≠ 4 ∧ N ≠ 6 ∧ N ≠ 7)) := by
      rintro ex s ⟨hs, m, hm, rfl⟩
      exact ⟨hs, m, rfl, by simp [Message.isFieldCount_of_isNumeric hm, h]⟩
    refine (pushFloats_post tokens 3 1 [] self).bind hQ ?_
    intro xyz s hs
    obtain rfl : self = s := hs.1.symm
    refine Post.bind (P := fun _ s => s = self) (Q := NumericThrow self) ?_ hQ ?_
    · split
      · simp [Post]
      · refine (pushFloats_post tokens 1 4 xyz self).bind (fun _ _ h => h) ?_
        intro xyzw s hs
        simp [Post, hs.1]
    · intro iv s hs
      obtain rfl : self = s := hs.symm
      refine Post.bind (P := fun _ s => s = self) (Q := NumericThrow self) ?_ hQ ?_
      · split
        · exact (pushFloats_post _ _ _ _ _).mono (fun _ _ h => h.1) (fun _ _ h => h)
        · simp [Post]
      · intro vertex s hs
        simp [Post, SameConfig, hs]

theorem parseVNEntry_post (self : ObjLoader) (N : Int) (tokens : List (List Char)) :
    Post (fun _ s => SameConfig self s)
      (fun ex s => s = self ∧ ∃ m, ex = self.error m ∧ (m.isFieldCount = true ↔ N ≠ 3))
      (parseVNEntry self N tokens) := by
  unfold parseVNEntry
  split
  · rename_i h
    exact ⟨rfl, .vnFieldCount, rfl, by simp [Message.isFieldCount, h]⟩
  · rename_i h
    refine (pushFloats_post tokens _ 1 [] self).bind ?_ ?_
    · rintro ex s ⟨hs, m, hm, rfl⟩
      exact ⟨hs, m, rfl, by simp [Message.isFieldCount_of_isNumeric hm, h]⟩
    · intro normal s hs
      simp [Post, SameConfig, hs.1]

theorem parseFEntry_post (self : ObjLoader) (N : Int) (tokens : List (List Char)) :
    Post (fun _ s => SameConfig self s)
      (fun ex s => SameConfig self s ∧ ∃ m, ex = self.error m ∧ (m.isFieldCount = true ↔ N ≠ 3))
      (parseFEntry self N tokens) := by
  unfold parseFEntry
  split
  · rename_i h
    exact ⟨SameConfig.rfl _, .fFieldCount, rfl, by simp [Message.isFieldCount, h]⟩
  · rename_i h
    refine (pushIndices_post tokens _ 1 self).mono (fun _ _ h => h) ?_
    rintro ex s ⟨hs, m, hm, rfl⟩
    exact ⟨hs, m, rfl, by simp [Message.isFieldCount_of_isNumeric hm, h]⟩

theorem parseLine_post (self : ObjLoader) (line : List Char) :
    Post (fun _ s => SameConfig self s) (fun ex s => SameConfig self s ∧ ∃ m, ex = self.error m)
      (parseLine self line) := by
  unfold parseLine
  simp only
  split
  · trivial
  · split
    · refine (parseVEntry_post _ _ _).mono (fun _ _ h => h) ?_
      rintro ex s ⟨rfl, m, hm, _⟩
      exact ⟨SameConfig.rfl _, m, hm⟩
    · split
      · refine (parseVNEntry_post _ _ _).mono (fun _ _ h => h) ?_
        rintro ex s ⟨rfl, m, hm, _⟩
        exact ⟨SameConfig.rfl _, m, hm⟩
      · split
        · refine (parseFEntry_post _ _ _).mono (fun _ _ h => h) ?_
          rintro ex s ⟨hs, m, hm, _⟩
          exact ⟨hs, m, hm⟩
        · simp [Post, SameConfig]

/-- The scan phase keeps the configuration, the file name and `vertexData`; on
success the line counter has advanced by the number of lines, and an exception
is located in the current file at one of the lines read. -/
theorem readLines_post (lines : List (List Char)) (self : ObjLoader) :
    Post (fun _ s => ScanFrame self s ∧ s.lineNumber = self.lineNumber + lines.length)
      (fun ex s => ScanFrame self s ∧ ∃ k m, ex = .parse self.currentFile k m ∧
        self.lineNumber < k ∧ k ≤ self.lineNumber + lines.length)
      (readLines self lines) := by
  induction lines generalizing self with
  | nil => simp [readLines, Post, ScanFrame]
  | cons line rest ih =>
    unfold readLines
    simp only
    have step : ∀ t : ObjLoader, SameConfig { self with lineNumber := self.lineNumber + 1 } t →
        Post (fun _ s => ScanFrame self s ∧ s.lineNumber = self.lineNumber + (line :: rest).length)
          (fun ex s => ScanFrame self s ∧ ∃ k m, ex = .parse self.currentFile k m ∧
            self.lineNumber < k ∧ k ≤ self.lineNumber + (line :: rest).length)
          (readLines t rest) := by
      rintro t ⟨h1, h2, h3, h4, h5⟩
      simp only at h1 h2 h3 h4 h5
      refine (ih t).mono ?_ ?_
      · rintro _ s ⟨⟨g1, g2, g3, g4⟩, g5⟩
        refine ⟨⟨g1.trans h1, g2.trans h2, g3.trans h3, g4.trans h5⟩, ?_⟩
        rw [g5, h4, List.length_cons]
        omega
      · rintro ex s ⟨⟨g1, g2, g3, g4⟩, k, m, rfl, g5, g6⟩
        refine ⟨⟨g1.trans h1, g2.trans h2, g3.trans h3, g4.trans h5⟩, k, m, by rw [h3], ?_, ?_⟩
        · omega
        · rw [List.length_cons]; omega
    split
    · refine (parseLine_post _ line).bind ?_ (fun _ t ht => step t ht)
      rintro ex s ⟨⟨h1, h2, h3, h4, h5⟩, m, rfl⟩
      simp only at h1 h2 h3 h4 h5
      refine ⟨⟨h1, h2, h3, h5⟩, self.lineNumber + 1, m, rfl, ?_, ?_⟩
      · omega
      · rw [List.length_cons]; omega
    · exact step _ (SameConfig.rfl _)

theorem readLines_append (self : ObjLoader) (earlier later : List (List Char)) :
    readLines self (earlier ++ later) =
      (readLines self earlier).bind fun _ s => readLines s later := by
  induction earlier generalizing self with
  | nil => simp [readLines, Result.bind]
  | cons line rest ih =>
    simp only [List.cons_append, readLines]
    split
    · cases parseLine { self with lineNumber := self.lineNumber + 1 } line with
      | ok a s => simp [Result.bind, ih]
      | throw ex s => simp [Result.bind]
      | undefined => simp [Result.bind]
    · exact ih _

end ObjLoader
/-! ## Buffer assembly -/

namespace ObjLoader

theorem appendAll_eq (vertexData : List F32) (records : List (List F32)) :
    appendAll vertexData records = vertexData ++ records.flatten := by
  induction records generalizing vertexData with
  | nil => simp [appendAll]
  | cons r rest ih => simp [appendAll, ih]

theorem inlineLoop_eq (vertices normals : List (List F32)) (count i : Nat) (vertexData : List F32)
    (hi : i + count = vertices.length) (hlen : vertices.length = normals.length) :
    inlineLoop vertices normals count i vertexData =
      vertexData ++ (List.zipWith (· ++ ·) (vertices.drop i) (normals.drop i)).flatten := by
  induction count generalizing i vertexData with
  | zero =>
    have h : vertices.length ≤ i := by omega
    simp [inlineLoop, List.drop_eq_nil_of_le h]
  | succ k ih =>
    have h1 : i < vertices.length := by omega
    have h2 : i < normals.length := by omega
    rw [inlineLoop, ih (i + 1) _ (by omega), List.drop_eq_getElem_cons h1,
      List.drop_eq_getElem_cons h2, List.zipWith_cons_cons, List.flatten_cons,
      List.getD_eq_getElem?_getD, List.getD_eq_getElem?_getD, List.getElem?_eq_getElem h1,
      List.getElem?_eq_getElem h2]
    simp only [Option.getD_some, List.append_assoc]

/-- The scan phase of a load on a fresh loader ends with the flags it started
with, an empty `vertexData` and the line counter at the number of lines. -/
theorem readLines_fresh {inlining loadColorData : Bool} {filename : List Char}
    {lines : List (List Char)} {s : ObjLoader}
    (hscan : readLines ((new inlining loadColorData).startLoad filename) lines = .ok () s) :
    s.inlining = inlining ∧ s.loadColorData = loadColorData ∧ s.currentFile = filename ∧
      s.vertexData = [] := by
  have h := readLines_post lines ((new inlining loadColorData).startLoad filename)
  rw [hscan] at h
  exact h.1

end ObjLoader

/-! ## Claims -/

open ObjLoader

/-- C1 (refuted on the code): `load` resets only the file name and the line
counter. The lists of positions, normals, indices and the vertex data are kept
from the previous call, so loading the one-triangle source `["v 0 0 0",
"vn 0 0 1", "f 1 1 1"]` a second time on the same loader returns the vertex
data three times over and the indices twice, not the buffers of the first
call. -/
theorem load_keeps_accumulated_lists :
    (load (new true false) "a.obj".toList (fileOf ["v 0 0 0", "vn 0 0 1", "f 1 1 1"])).value?
        = some { vertexData := [lit 0, lit 0, lit 0, lit 1, lit 0, lit 0, lit 1],
                 indices := [0, 0, 0] } ∧
      ((load (new true false) "a.obj".toList
          (fileOf ["v 0 0 0", "vn 0 0 1", "f 1 1 1"])).bind fun _ loader =>
        load loader "a.obj".toList (fileOf ["v 0 0 0", "vn 0 0 1", "f 1 1 1"])).value?
        = some { vertexData := [lit 0, lit 0, lit 0, lit 1, lit 0, lit 0, lit 1,
                                lit 0, lit 0, lit 0, lit 1, lit 0, lit 0, lit 1,
                                lit 0, lit 0, lit 0, lit 1, lit 0, lit 0, lit 1],
                 indices := [0, 0, 0, 0, 0, 0] } := by
  decide

/-- C2: on a fresh loader with inlining enabled, if the scan phase succeeds and
leaves position records `p_0..p_{n-1}` and as many normal records
`m_0..m_{n-1}`, `load` returns the vertex buffer `p_0 ++ m_0 ++ ... ++ p_{n-1}
++ m_{n-1}` (and the scanned index list). -/
theorem inlined_layout_contents (loadColorData : Bool) (filename : List Char)
    (lines : List (List Char)) (s : ObjLoader)
    (hscan : readLines ((new true loadColorData).startLoad filename) lines = .ok () s)
    (hcount : s.vertices.length = s.normals.length) :
    load (new true loadColorData) filename (some { lines := lines, bad := false }) =
      .ok { vertexData := (List.zipWith (· ++ ·) s.vertices s.normals).flatten,
            indices := s.indices }
          { s with vertexData := (List.zipWith (· ++ ·) s.vertices s.normals).flatten } := by
  obtain ⟨h1, _, _, h4⟩ := readLines_fresh hscan
  have h := inlineLoop_eq s.vertices s.normals s.vertices.length 0 [] (by simp) hcount
  simp only [List.drop_zero, List.nil_append] at h
  simp only [load, hscan, Result.bind, h1, h4, h]
  simp [hcount]

/-- C2, witness: the seven-line source of testable property 8, inlined layout,
colours off. -/
theorem inlined_layout_contents_witness :
    (load (new true false) "triangle.obj".toList (fileOf triangleSource)).value? =
      some { vertexData := [lit 0, lit 0, lit 0, lit 1, lit 0, lit 0, lit 1,
                            lit 1, lit 0, lit 0, lit 1, lit 0, lit 0, lit 1,
                            lit 0, lit 1, lit 0, lit 1, lit 0, lit 0, lit 1],
             indices := [0, 1, 2] } := by
  rw [fileOf, inlined_layout_contents false "triangle.obj".toList
    (triangleSource.map String.toList)
    ((readLines ((new true false).startLoad "triangle.obj".toList)
      (triangleSource.map String.toList)).stateD (new true false)) (by decide) (by decide)]
  decide



/-- C3: on a fresh loader with inlining enabled, when the scan phase completes
without error, `load` throws exactly when the numbers of position and normal
records differ; the exception is then the mismatch exception, which carries
neither file name nor line number, and it is thrown after the scan, with every
scanned record in place. -/
theorem inlined_count_check (loadColorData : Bool) (filename : List Char)
    (lines : List (List Char)) (s : ObjLoader)
    (hscan : readLines ((new true loadColorData).startLoad filename) lines = .ok () s) :
    ((∃ ex s1, load (new true loadColorData) filename (some { lines := lines, bad := false })
        = .throw ex s1) ↔ s.vertices.length ≠ s.normals.length) ∧
      (∀ ex s1, load (new true loadColorData) filename (some { lines := lines, bad := false })
        = .throw ex s1 → ex = .mismatch ∧ s1 = s) := by
  obtain ⟨h1, _, _, _⟩ := readLines_fresh hscan
  by_cases hc : s.vertices.length = s.normals.length
  · simp [load, hscan, Result.bind, h1, hc]
  · simp [load, hscan, Result.bind, h1, hc]

/-- C3, witness: two position records and three normal records, inlined. -/
theorem inlined_count_check_witness :
    load (new true false) "uneven.obj".toList (fileOf unevenSource) =
      .throw .mismatch ((readLines ((new true false).startLoad "uneven.obj".toList)
        (unevenSource.map String.toList)).stateD (new true false)) := by
  have h := inlined_count_check false "uneven.obj".toList (unevenSource.map String.toList)
    ((readLines ((new true false).startLoad "uneven.obj".toList)
      (unevenSource.map String.toList)).stateD (new true false)) (by decide)
  obtain ⟨ex, s1, hs⟩ := h.1.mpr (by decide)
  obtain ⟨rfl, rfl⟩ := h.2 ex s1 hs
  exact hs

/-- C4: on a fresh loader with inlining disabled, when the scan phase succeeds
with position records `p_0..p_{a-1}` and normal records `m_0..m_{b-1}`, `load`
returns, whatever `a` and `b` are, and the vertex buffer is `p_0 ++ ... ++
p_{a-1} ++ m_0 ++ ... ++ m_{b-1}`. -/
theorem segmented_layout_contents (loadColorData : Bool) (filename : List Char)
    (lines : List (List Char)) (s : ObjLoader)
    (hscan : readLines ((new false loadColorData).startLoad filename) lines = .ok () s) :
    load (new false loadColorData) filename (some { lines := lines, bad := false }) =
      .ok { vertexData := s.vertices.flatten ++ s.normals.flatten, indices := s.indices }
          { s with vertexData := s.vertices.flatten ++ s.normals.flatten } := by
  obtain ⟨h1, _, _, h4⟩ := readLines_fresh hscan
  simp [load, hscan, Result.bind, h1, h4, appendAll_eq]

/-- C4, witness: two position records and three normal records load under the
segmented layout. -/
theorem segmented_layout_contents_witness :
    (load (new false false) "uneven.obj".toList (fileOf unevenSource)).value? =
      some { vertexData := [lit 0, lit 0, lit 0, lit 1, lit 1, lit 0, lit 0, lit 1,
                            lit 0, lit 0, lit 1, lit 0, lit 0, lit 1, lit 0, lit 0, lit 1],
             indices := [] } := by
  rw [fileOf, segmented_layout_contents false "uneven.obj".toList
    (unevenSource.map String.toList)
    ((readLines ((new false false).startLoad "uneven.obj".toList)
      (unevenSource.map String.toList)).stateD (new false false)) (by decide)]
  decide

/-- C5: a "v" line with `N ∈ {3,4,6,7}` fields, all of which `toFloat` converts,
to `f_1..f_N`, appends the record `[f_1, f_2, f_3, w]` followed by the colour
fields: `w` is `1.0` for `N ∈ {3,6}` and `f_4` otherwise, and the colour fields
are the last three fields when colour loading is on and `N ∈ {6,7}`, none
otherwise. Nothing else changes. -/
theorem position_parser_result (self : ObjLoader) (line : List Char)
    (fields : List (List Char)) (fs : List F32)
    (htok : tokenize line defaultSeparator defaultAllowEmptyTokens = ['v'] :: fields)
    (hN : fields.length = 3 ∨ fields.length = 4 ∨ fields.length = 6 ∨ fields.length = 7)
    (hconv : List.Forall₂ (fun tok x => self.toFloat tok = .ok x self) fields fs) :
    parseLine self line = .ok ()
      { self with vertices := self.vertices ++
          [fs.take 3
            ++ [if fields.length = 3 ∨ fields.length = 6 then F32.ofInt 1
                else fs.getD 3 (F32.ofInt 1)]
            ++ (if self.loadColorData = true ∧ (fields.length = 6 ∨ fields.length = 7)
                then fs.drop (fields.length - 3) else [])] } := by
  rcases fields with _ | ⟨a, _ | ⟨b, _ | ⟨c, _ | ⟨d, _ | ⟨e, _ | ⟨f, _ | ⟨g, _ | ⟨h, t⟩⟩⟩⟩⟩⟩⟩⟩ <;>
    simp at hN
  · cases hconv with | cons h1 hc =>
    cases hc with | cons h2 hc =>
    cases hc with | cons h3 hc =>
    cases hc
    cases hcol : self.loadColorData <;>
      simp [parseLine, htok, parseVEntry, pushFloats, tokenAt, Result.bind, h1, h2, h3, hcol]
  · cases hconv with | cons h1 hc =>
    cases hc with | cons h2 hc =>
    cases hc with | cons h3 hc =>
    cases hc with | cons h4 hc =>
    cases hc
    cases hcol : self.loadColorData <;>
      simp [parseLine, htok, parseVEntry, pushFloats, tokenAt, Result.bind, h1, h2, h3, h4, hcol]
  · cases hconv with | cons h1 hc =>
    cases hc with | cons h2 hc =>
    cases hc with | cons h3 hc =>
    cases hc with | cons h4 hc =>
    cases hc with | cons h5 hc =>
    cases hc with | cons h6 hc =>
    cases hc
    cases hcol : self.loadColorData <;>
      simp [parseLine, htok, parseVEntry, pushFloats, tokenAt, Result.bind, h1, h2, h3, h4, h5,
        h6, hcol]
  · cases hconv with | cons h1 hc =>
    cases hc with | cons h2 hc =>
    cases hc with | cons h3 hc =>
    cases hc with | cons h4 hc =>
    cases hc with | cons h5 hc =>
    cases hc with | cons h6 hc =>
    cases hc with | cons h7 hc =>
    cases hc
    cases hcol : self.loadColorData <;>
      simp [parseLine, htok, parseVEntry, pushFloats, tokenAt, Result.bind, h1, h2, h3, h4, h5,
        h6, h7, hcol]

/-- C5, witnesses: "v 0 0 0" gives `[0,0,0,1]`; "v 0 0 0 1 0.5 0 0" gives
`[0,0,0,1,0.5,0,0]` with colour loading on and `[0,0,0,1]` with it off. -/
theorem position_parser_result_witness :
    parseLine (new true false) "v 0 0 0".toList = .ok ()
        { new true false with vertices := [[lit 0, lit 0, lit 0, lit 1]] } ∧
      parseLine (new true true) "v 0 0 0 1 0.5 0 0".toList = .ok ()
        { new true true with
          vertices := [[lit 0, lit 0, lit 0, lit 1, F32.round false 1 2, lit 0, lit 0]] } ∧
      parseLine (new true false) "v 0 0 0 1 0.5 0 0".toList = .ok ()
        { new true false with vertices := [[lit 0, lit 0, lit 0, lit 1]] } := by
  refine ⟨?_, ?_, ?_⟩
  · exact position_parser_result (new true false) "v 0 0 0".toList [['0'], ['0'], ['0']]
      [lit 0, lit 0, lit 0] (by decide) (by decide)
      (.cons (by decide) (.cons (by decide) (.cons (by decide) .nil)))
  · exact position_parser_result (new true true) "v 0 0 0 1 0.5 0 0".toList
      [['0'], ['0'], ['0'], ['1'], ['0', '.', '5'], ['0'], ['0']]
      [lit 0, lit 0, lit 0, lit 1, F32.round false 1 2, lit 0, lit 0] (by decide) (by decide)
      (.cons (by decide) (.cons (by decide) (.cons (by decide) (.cons (by decide)
        (.cons (by decide) (.cons (by decide) (.cons (by decide) .nil)))))))
  · exact position_parser_result (new true false) "v 0 0 0 1 0.5 0 0".toList
      [['0'], ['0'], ['0'], ['1'], ['0', '.', '5'], ['0'], ['0']]
      [lit 0, lit 0, lit 0, lit 1, F32.round false 1 2, lit 0, lit 0] (by decide) (by decide)
      (.cons (by decide) (.cons (by decide) (.cons (by decide) (.cons (by decide)
        (.cons (by decide) (.cons (by decide) (.cons (by decide) .nil)))))))

/-- Unfolding of `parseLine` on a line with keyword `k` and the given fields. -/
theorem parseLine_of_tokens (self : ObjLoader) (line k : List Char) (fields : List (List Char))
    (htok : tokenize line defaultSeparator defaultAllowEmptyTokens = k :: fields) :
    parseLine self line =
      if k = ['v'] then parseVEntry self fields.length (k :: fields)
      else if k = ['v', 'n'] then parseVNEntry self fields.length (k :: fields)
      else if k = ['f'] then parseFEntry self fields.length (k :: fields)
      else .ok () self := by
  simp [parseLine, htok]

theorem throwsFieldCount_iff {α : Type} {r : Result α} (self : ObjLoader) {p : Prop}
    (hr : Post (fun _ _ => True)
      (fun ex _ => ∃ m, ex = self.error m ∧ (m.isFieldCount = true ↔ p)) r)
    (hp : p → ∃ ex s, r = .throw ex s) : ThrowsFieldCount r ↔ p := by
  constructor
  · rintro ⟨file, lineNo, m, s, rfl, hm⟩
    obtain ⟨m1, h1, h2⟩ := hr
    simp only [error, Exception.parse.injEq] at h1
    rw [← h1.2.2] at h2
    exact h2.mp hm
  · intro h
    obtain ⟨ex, s, rfl⟩ := hp h
    obtain ⟨m, rfl, h2⟩ := hr
    exact ⟨_, _, m, s, rfl, h2.mpr h⟩

/-- C6: for a tokenized line with keyword `k` and `N` fields, the record parser
throws a field-count error exactly when `N` is not permitted for `k` (`N ∉
{3,4,6,7}` for "v", `N ≠ 3` for "vn" and for "f"); with a forbidden count the
error is the field-count error of that parser whatever the fields are, and the
loader state at the throw is the state before the call. -/
theorem field_count_validation (self : ObjLoader) (line k : List Char)
    (fields : List (List Char))
    (htok : tokenize line defaultSeparator defaultAllowEmptyTokens = k :: fields) :
    (k = ['v'] →
      (ThrowsFieldCount (parseLine self line) ↔
        ¬(fields.length = 3 ∨ fields.length = 4 ∨ fields.length = 6 ∨ fields.length = 7)) ∧
      (¬(fields.length = 3 ∨ fields.length = 4 ∨ fields.length = 6 ∨ fields.length = 7) →
        parseLine self line = .throw (self.error .vFieldCount) self)) ∧
    (k = ['v', 'n'] →
      (ThrowsFieldCount (parseLine self line) ↔ fields.length ≠ 3) ∧
      (fields.length ≠ 3 → parseLine self line = .throw (self.error .vnFieldCount) self)) ∧
    (k = ['f'] →
      (ThrowsFieldCount (parseLine self line) ↔ fields.length ≠ 3) ∧
      (fields.length ≠ 3 → parseLine self line = .throw (self.error .fFieldCount) self)) := by
  rw [parseLine_of_tokens self line k fields htok]
  refine ⟨?_, ?_, ?_⟩
  · rintro rfl
    have hthrow : ¬(fields.length = 3 ∨ fields.length = 4 ∨ fields.length = 6 ∨
        fields.length = 7) →
        parseVEntry self fields.length (['v'] :: fields) = .throw (self.error .vFieldCount) self := by
      intro h
      have h1 : ((fields.length : Int) ≠ 3 ∧ (fields.length : Int) ≠ 4 ∧
          (fields.length : Int) ≠ 6 ∧ (fields.length : Int) ≠ 7) := by omega
      simp [parseVEntry, h1]
    simp only [if_true]
    refine ⟨throwsFieldCount_iff self ?_ (fun h => ⟨_, _, hthrow h⟩), hthrow⟩
    refine (parseVEntry_post self fields.length (['v'] :: fields)).mono (fun _ _ _ => trivial) ?_
    rintro ex s ⟨_, m, hm, hiff⟩
    exact ⟨m, hm, hiff.trans (by omega)⟩
  · rintro rfl
    have hthrow : fields.length ≠ 3 →
        parseVNEntry self fields.length (['v', 'n'] :: fields) =
          .throw (self.error .vnFieldCount) self := by
      intro h
      have h1 : (fields.length : Int) ≠ 3 := by omega
      simp [parseVNEntry, h1]
    simp only [if_true, show (['v', 'n'] : List Char) ≠ ['v'] by decide, if_false]
    refine ⟨throwsFieldCount_iff self ?_ (fun h => ⟨_, _, hthrow h⟩), hthrow⟩
    refine (parseVNEntry_post self fields.length (['v', 'n'] :: fields)).mono
      (fun _ _ _ => trivial) ?_
    rintro ex s ⟨_, m, hm, hiff⟩
    exact ⟨m, hm, hiff.trans (by omega)⟩
  · rintro rfl
    have hthrow : fields.length ≠ 3 →
        parseFEntry self fields.length (['f'] :: fields) =
          .throw (self.error .fFieldCount) self := by
      intro h
      have h1 : (fields.length : Int) ≠ 3 := by omega
      simp [parseFEntry, h1]
    simp only [if_true, show (['f'] : List Char) ≠ ['v'] by decide,
      show (['f'] : List Char) ≠ ['v', 'n'] by decide, if_false]
    refine ⟨throwsFieldCount_iff self ?_ (fun h => ⟨_, _, hthrow h⟩), hthrow⟩
    refine (parseFEntry_post self fields.length (['f'] :: fields)).mono
      (fun _ _ _ => trivial) ?_
    rintro ex s ⟨_, m, hm, hiff⟩
    exact ⟨m, hm, hiff.trans (by omega)⟩

/-- C6, witnesses: a "v" line with five fields, "vn 0 0" and "f 1 2 3 4". -/
theorem field_count_validation_witness :
    parseLine (new true false) "v 1 2 3 4 5".toList =
        .throw ((new true false).error .vFieldCount) (new true false) ∧
      parseLine (new true false) "vn 0 0".toList =
        .throw ((new true false).error .vnFieldCount) (new true false) ∧
      parseLine (new true false) "f 1 2 3 4".toList =
        .throw ((new true false).error .fFieldCount) (new true false) :=
  ⟨(field_count_validation (new true false) "v 1 2 3 4 5".toList ['v']
      [['1'], ['2'], ['3'], ['4'], ['5']] (by decide)).1 rfl |>.2 (by decide),
    (field_count_validation (new true false) "vn 0 0".toList ['v', 'n']
      [['0'], ['0']] (by decide)).2.1 rfl |>.2 (by decide),
    (field_count_validation (new true false) "f 1 2 3 4".toList ['f']
      [['1'], ['2'], ['3'], ['4']] (by decide)).2.2 rfl |>.2 (by decide)⟩

theorem toFloat_ok_or_throw (self : ObjLoader) (tok : List Char) :
    (∃ x, self.toFloat tok = .ok x self) ∨ (∃ ex, self.toFloat tok = .throw ex self) := by
  unfold toFloat
  split <;> simp

/-- C7 (refuted): with colour loading disabled the colour fields are never
converted, so "v 0 0 0 x y z" is accepted and stores `[0,0,0,1]`. -/
theorem colour_fields_not_validated_when_disabled :
    parseLine (new true false) "v 0 0 0 x y z".toList = .ok ()
      { new true false with vertices := [[lit 0, lit 0, lit 0, lit 1]] } := by
  decide

/-- C7, amended: with colour loading disabled, a "v" line with `N ∈ {6,7}`
fields is accepted exactly when its first `N - 3` fields convert to floats,
whatever the last three fields are, and it stores only `[x, y, z, w]`. -/
theorem colour_fields_skipped_when_disabled (self : ObjLoader) (line : List Char)
    (fields : List (List Char))
    (hcol : self.loadColorData = false)
    (htok : tokenize line defaultSeparator defaultAllowEmptyTokens = ['v'] :: fields)
    (hN : fields.length = 6 ∨ fields.length = 7) :
    (∀ fs, List.Forall₂ (fun tok x => self.toFloat tok = .ok x self)
        (fields.take (fields.length - 3)) fs →
      parseLine self line = .ok ()
        { self with vertices := self.vertices ++
            [fs.take 3 ++ [if fields.length = 6 then F32.ofInt 1
              else fs.getD 3 (F32.ofInt 1)]] }) ∧
    ((∃ s, parseLine self line = .ok () s) →
      ∃ fs, List.Forall₂ (fun tok x => self.toFloat tok = .ok x self)
        (fields.take (fields.length - 3)) fs) := by
  rcases fields with _ | ⟨a, _ | ⟨b, _ | ⟨c, _ | ⟨d, _ | ⟨e, _ | ⟨f, _ | ⟨g, _ | ⟨h, t⟩⟩⟩⟩⟩⟩⟩⟩ <;>
    simp at hN
  · constructor
    · intro fs hconv
      simp only [List.length_cons, List.length_nil, Nat.reduceAdd, Nat.reduceSub,
        List.take_succ_cons, List.take_zero] at hconv
      cases hconv with | cons h1 hc =>
      cases hc with | cons h2 hc =>
      cases hc with | cons h3 hc =>
      cases hc
      simp [parseLine, htok, parseVEntry, pushFloats, tokenAt, Result.bind, h1, h2, h3, hcol]
    · rintro ⟨s, hs⟩
      rcases toFloat_ok_or_throw self a with ⟨x1, h1⟩ | ⟨e1, h1⟩
      · rcases toFloat_ok_or_throw self b with ⟨x2, h2⟩ | ⟨e2, h2⟩
        · rcases toFloat_ok_or_throw self c with ⟨x3, h3⟩ | ⟨e3, h3⟩
          · exact ⟨[x1, x2, x3], by simp [h1, h2, h3]⟩
          · simp [parseLine, htok, parseVEntry, pushFloats, tokenAt, Result.bind, h1, h2,
              h3] at hs
        · simp [parseLine, htok, parseVEntry, pushFloats, tokenAt, Result.bind, h1, h2] at hs
      · simp [parseLine, htok, parseVEntry, pushFloats, tokenAt, Result.bind, h1] at hs
  · constructor
    · intro fs hconv
      simp only [List.length_cons, List.length_nil, Nat.reduceAdd, Nat.reduceSub,
        List.take_succ_cons, List.take_zero] at hconv
      cases hconv with | cons h1 hc =>
      cases hc with | cons h2 hc =>
      cases hc with | cons h3 hc =>
      cases hc with | cons h4 hc =>
      cases hc
      simp [parseLine, htok, parseVEntry, pushFloats, tokenAt, Result.bind, h1, h2, h3, h4,
        hcol]
    · rintro ⟨s, hs⟩
      rcases toFloat_ok_or_throw self a with ⟨x1, h1⟩ | ⟨e1, h1⟩
      · rcases toFloat_ok_or_throw self b with ⟨x2, h2⟩ | ⟨e2, h2⟩
        · rcases toFloat_ok_or_throw self c with ⟨x3, h3⟩ | ⟨e3, h3⟩
          · rcases toFloat_ok_or_throw self d with ⟨x4, h4⟩ | ⟨e4, h4⟩
            · exact ⟨[x1, x2, x3, x4], by simp [h1, h2, h3, h4]⟩
            · simp [parseLine, htok, parseVEntry, pushFloats, tokenAt, Result.bind, h1, h2,
                h3, h4] at hs
          · simp [parseLine, htok, parseVEntry, pushFloats, tokenAt, Result.bind, h1, h2,
              h3] at hs
        · simp [parseLine, htok, parseVEntry, pushFloats, tokenAt, Result.bind, h1, h2] at hs
      · simp [parseLine, htok, parseVEntry, pushFloats, tokenAt, Result.bind, h1] at hs

/-- C7, witness of the amended statement: a seven-field line whose colour
fields are words. -/
theorem colour_fields_skipped_when_disabled_witness :
    parseLine (new false false) "v 1 0 0 1 red green blue".toList = .ok ()
      { new false false with vertices := [[lit 1, lit 0, lit 0, lit 1]] } :=
  (colour_fields_skipped_when_disabled (new false false) "v 1 0 0 1 red green blue".toList
    [['1'], ['0'], ['0'], ['1'], "red".toList, "green".toList, "blue".toList] rfl
    (by decide) (by decide)).1 [lit 1, lit 0, lit 0, lit 1]
    (.cons (by decide) (.cons (by decide) (.cons (by decide) (.cons (by decide) .nil))))

/-- C8 (the code departs from the claim): `toInt` returns `float`, so the
integer read by `stoi` is rounded to 24 significant bits before one is
subtracted. "f 16777217 1 1" stores the index `16777215`, not `16777216`. -/
theorem face_index_rounded_through_float :
    parseLine (new true false) "f 16777217 1 1".toList = .ok ()
      { new true false with indices := [16777215, 0, 0] } := by
  decide

/-- C9 (the code departs from the claim): when the earlier line is a single
space, `parseLine` calls `tokens.front()` on an empty vector, which is
undefined, and the malformed number of line 2 is not reported; with an empty
line in its place the error of line 2 is reported as the claim says. -/
theorem whitespace_line_before_error :
    load (new true false) "m.obj".toList (fileOf [" ", "v 1 2 x"]) = .undefined ∧
      load (new true false) "m.obj".toList (fileOf ["", "v 1 2 x"]) =
        .throw (.parse "m.obj".toList 2 (.floatInvalid ['x']))
          { new true false with currentFile := "m.obj".toList, lineNumber := 2 } := by
  decide

/-! ## The numeric converter -/

theorem takeDigits_count_le (base : Nat) (acc count : Nat) (s : List Char) :
    count ≤ (takeDigits base acc count s).2.1 := by
  induction s generalizing acc count with
  | nil => simp [takeDigits]
  | cons c cs ih =>
    unfold takeDigits
    split
    · exact Nat.le_trans (Nat.le_succ _) (ih _ _)
    · simp

theorem digitVal_ten_isSome (c : Char) :
    (digitVal 10 c).isSome = startsWithDigit [c] := by
  unfold digitVal startsWithDigit
  by_cases h : 48 ≤ c.toNat ∧ c.toNat ≤ 57 <;> simp [h]

theorem takeDigits_ten_count_eq_zero (acc : Nat) (s : List Char) :
    (takeDigits 10 acc 0 s).2.1 = 0 ↔ startsWithDigit s = false := by
  cases s with
  | nil => simp [takeDigits, startsWithDigit]
  | cons c cs =>
    have hd := digitVal_ten_isSome c
    unfold takeDigits
    cases h : digitVal 10 c with
    | none =>
      rw [h] at hd
      simp only [Option.isSome_none] at hd
      simp [startsWithDigit] at hd ⊢
      exact hd
    | some d =>
      rw [h] at hd
      simp only [Option.isSome_some] at hd
      have := takeDigits_count_le 10 (10 * acc + d) (0 + 1) cs
      simp only [startsWithDigit] at hd ⊢
      constructor
      · intro h0; omega
      · intro h0; rw [h0] at hd; exact absurd hd (by simp)

theorem stoi_invalid_iff (str : List Char) :
    stoi str = .invalid_argument ↔ startsWithDigit (takeSign (skipSpace str)).2 = false := by
  unfold stoi
  rcases takeSign (skipSpace str) with ⟨neg, s⟩
  have h := takeDigits_ten_count_eq_zero 0 s
  dsimp only
  generalize takeDigits 10 0 0 s = r at h ⊢
  rcases r with ⟨v, count, rest⟩
  dsimp only at h ⊢
  rw [← h]
  by_cases hc : count = 0
  · simp [hc]
  · simp only [hc, if_false, false_iff]
    split <;> split <;> simp

theorem strtofRound_ne_invalid (isHex neg : Bool) (n d : Nat) (x : Int) :
    strtofRound isHex neg n d x ≠ .invalid_argument := by
  unfold strtofRound
  dsimp only
  split
  · split <;> simp
  · simp

theorem takeSignificand_ten_count_eq_zero (s : List Char) :
    (takeSignificand 10 s).2.1 = 0 ↔
      (startsWithDigit s = false ∧
        (match s with
          | [] => false
          | c :: cs => decide (c = '.') && startsWithDigit cs) = false) := by
  unfold takeSignificand
  have h0 := takeDigits_ten_count_eq_zero 0 s
  cases s with
  | nil => simp [takeDigits, startsWithDigit]
  | cons c cs =>
    by_cases hd : startsWithDigit (c :: cs) = true
    · have hne : (takeDigits 10 0 0 (c :: cs)).2.1 ≠ 0 := by
        intro h; rw [h0.mp h] at hd; exact absurd hd (by simp)
      generalize takeDigits 10 0 0 (c :: cs) = r at hne ⊢
      rcases r with ⟨v, count, rest⟩
      dsimp only at hne ⊢
      simp only [hd, Bool.true_eq_false, false_and, iff_false]
      cases rest with
      | nil => exact hne
      | cons c1 cs1 =>
        dsimp only
        split
        · generalize takeDigits 10 v 0 cs1 = r1
          rcases r1 with ⟨w, frac, rest2⟩
          dsimp only
          omega
        · exact hne
    · have hd0 : startsWithDigit (c :: cs) = false := by simpa using hd
      have hnone : digitVal 10 c = none := by
        have := digitVal_ten_isSome c
        simp only [startsWithDigit] at hd0 this
        rw [hd0] at this
        simpa using this
      simp only [takeDigits, hnone, hd0, true_and]
      by_cases hc : c = '.'
      · simp only [hc, if_true, decide_True, Bool.true_and]
        have h1 := takeDigits_ten_count_eq_zero 0 cs
        generalize takeDigits 10 0 0 cs = r1 at h1 ⊢
        rcases r1 with ⟨w, frac, rest2⟩
        dsimp only at h1 ⊢
        simpa using h1
      · simp [hc]

theorem strtofDecimal_invalid_iff (neg : Bool) (s : List Char) :
    strtofDecimal neg s = .invalid_argument ↔ (takeSignificand 10 s).2.1 = 0 := by
  unfold strtofDecimal
  generalize takeSignificand 10 s = r
  rcases r with ⟨v, count, frac, rest⟩
  dsimp only
  by_cases hc : count = 0
  · simp [hc]
  · simp [hc, strtofRound_ne_invalid]

theorem startsWithDigit_of_hexMark {s : List Char} (h : startsWithHexMark s = true) :
    startsWithDigit s = true := by
  match s, h with
  | c :: x :: _, h =>
    simp only [startsWithHexMark, Bool.and_eq_true, decide_eq_true_eq] at h
    rw [h.1]
    rfl

theorem stof_invalid_iff (str : List Char) :
    stof str = .invalid_argument ↔ startsWithFloat (takeSign (skipSpace str)).2 = false := by
  unfold stof
  rcases takeSign (skipSpace str) with ⟨neg, s⟩
  dsimp only
  unfold startsWithFloat
  by_cases h1 : startsWithNoCase ['i', 'n', 'f'] s = true
  · simp [h1]
  by_cases h2 : startsWithNoCase ['n', 'a', 'n'] s = true
  · simp [h1, h2]
  have hdec := (strtofDecimal_invalid_iff neg s).trans (takeSignificand_ten_count_eq_zero s)
  by_cases h3 : startsWithHexMark s = true
  · have hd := startsWithDigit_of_hexMark h3
    simp only [h1, h2, h3, if_true, if_false, hd, Bool.false_eq_true, Bool.or_true, Bool.true_or,
      Bool.true_eq_false, iff_false]
    generalize takeSignificand 16 (s.drop 2) = r
    rcases r with ⟨v, count, frac, rest⟩
    dsimp only
    split
    · rw [hdec, hd]; simp
    · exact strtofRound_ne_invalid _ _ _ _ _
  · simp only [h1, h2, h3, if_false, Bool.false_eq_true, Bool.false_or, Bool.or_eq_false_iff]
    exact hdec

/-! ### The converters and the reference reading -/

theorem skipSpace_eq_dropWhile (s : List Char) : skipSpace s = s.dropWhile isspace := by
  induction s with
  | nil => rfl
  | cons c cs ih =>
    by_cases h : isspace c = true
    · simp [skipSpace, List.dropWhile, h, ih]
    · simp [skipSpace, List.dropWhile, h]

theorem takeSign_eq (s : List Char) : takeSign s = (signOf s, afterSign s) := by
  cases s with
  | nil => simp [takeSign, signOf, afterSign]
  | cons c cs =>
    by_cases h1 : c = '-'
    · simp [takeSign, signOf, afterSign, h1]
    · by_cases h2 : c = '+'
      · simp [takeSign, signOf, afterSign, h2]
      · simp [takeSign, signOf, afterSign, h1, h2]

theorem char_le_iff (a c : Char) : a ≤ c ↔ a.toNat ≤ c.toNat := by
  simp only [Char.le_def, Char.toNat, UInt32.le_def, BitVec.le_def]
  exact Iff.rfl

theorem isDigit_iff (c : Char) : c.isDigit = true ↔ 48 ≤ c.toNat ∧ c.toNat ≤ 57 := by
  simp only [Char.isDigit, Bool.and_eq_true, decide_eq_true_eq, ge_iff_le, Char.toNat, UInt32.le_def,
    BitVec.le_def]
  exact Iff.rfl

theorem digitVal_eq (base : Nat) (c : Char) :
    digitVal base c = if isDigitOf base c = true then some (digitValue c) else none := by
  have hd := isDigit_iff c
  have ha1 := char_le_iff 'a' c
  have ha2 := char_le_iff c 'f'
  have hA1 := char_le_iff 'A' c
  have hA2 := char_le_iff c 'F'
  have e0 : '0'.toNat = 48 := rfl
  have e1 : 'a'.toNat = 97 := rfl
  have e2 : 'f'.toNat = 102 := rfl
  have e3 : 'A'.toNat = 65 := rfl
  have e4 : 'F'.toNat = 70 := rfl
  rw [e1] at ha1
  rw [e2] at ha2
  rw [e3] at hA1
  rw [e4] at hA2
  unfold digitVal isDigitOf digitValue
  rw [e0, e1, e3]
  by_cases h1 : 48 ≤ c.toNat ∧ c.toNat ≤ 57
  · have h : c.isDigit = true := hd.mpr h1
    simp [h1, h]
  · have h : c.isDigit = false := by
      cases hc : c.isDigit with
      | false => rfl
      | true => exact absurd (hd.mp hc) h1
    rw [if_neg h1]
    by_cases hb : base = 16
    · by_cases h2 : 97 ≤ c.toNat ∧ c.toNat ≤ 102
      · have h3 : 'a' ≤ c ∧ c ≤ 'f' := ⟨ha1.mpr h2.1, ha2.mpr h2.2⟩
        simp only [hb, h2, h3, h, true_and, and_self, if_true, decide_True, Bool.true_and,
          Bool.true_or, Bool.false_or, Bool.false_eq_true, if_false]
        congr 1
        omega
      · have h3 : ¬('a' ≤ c ∧ c ≤ 'f') := fun h3 => h2 ⟨ha1.mp h3.1, ha2.mp h3.2⟩
        by_cases h4 : 65 ≤ c.toNat ∧ c.toNat ≤ 70
        · have h5 : 'A' ≤ c ∧ c ≤ 'F' := ⟨hA1.mpr h4.1, hA2.mpr h4.2⟩
          have h6 : ¬ 'a' ≤ c := fun h6 => by have := ha1.mp h6; omega
          simp only [hb, h2, h3, h4, h5, h6, h, true_and, and_self, if_true, decide_True,
            Bool.true_and, Bool.true_or, Bool.false_or, Bool.false_eq_true, if_false,
            decide_False, Bool.or_true]
          congr 1
          omega
        · have h5 : ¬('A' ≤ c ∧ c ≤ 'F') := fun h5 => h4 ⟨hA1.mp h5.1, hA2.mp h5.2⟩
          simp [hb, h2, h3, h4, h5, h]
    · simp [hb, h]

theorem takeDigits_eq (base : Nat) (acc count : Nat) (s : List Char) :
    takeDigits base acc count s =
      ((s.takeWhile (isDigitOf base)).foldl (fun v c => base * v + digitValue c) acc,
        count + (s.takeWhile (isDigitOf base)).length, s.dropWhile (isDigitOf base)) := by
  induction s generalizing acc count with
  | nil => simp [takeDigits]
  | cons c cs ih =>
    unfold takeDigits
    rw [digitVal_eq]
    by_cases h : isDigitOf base c = true
    · simp only [h, if_true, List.takeWhile_cons_of_pos, List.dropWhile_cons_of_pos, List.foldl_cons,
        List.length_cons]
      rw [ih]
      simp only [Prod.mk.injEq, true_and, and_true]
      omega
    · simp [h]

theorem isDigitOf_ten_eq : isDigitOf 10 = Char.isDigit := by
  funext c
  simp [isDigitOf]

theorem stoi_eq_readInt (str : List Char) : stoi str = readInt str := by
  unfold stoi readInt
  rw [skipSpace_eq_dropWhile, takeSign_eq]
  dsimp only
  rw [takeDigits_eq, isDigitOf_ten_eq]
  dsimp only
  generalize (afterSign (List.dropWhile isspace str)).takeWhile Char.isDigit = ds
  have hv : ds.foldl (fun v c => 10 * v + digitValue c) 0 = digitsValue 10 ds := rfl
  rw [hv]
  have hs : ∀ neg : Bool, (if neg = true then -(digitsValue 10 ds : Int) else (digitsValue 10 ds : Int)) =
      signed neg (digitsValue 10 ds) := fun _ => rfl
  rw [hs]
  generalize signed (signOf (List.dropWhile isspace str)) (digitsValue 10 ds) = i
  cases ds with
  | nil => simp
  | cons c cs =>
    simp only [List.length_cons, Nat.zero_add, Nat.add_one_ne_zero, if_false, reduceCtorEq]
    by_cases h : i < -2147483648 ∨ 2147483647 < i
    · have h2 : ¬(-2147483648 ≤ i ∧ i ≤ 2147483647) := by omega
      rw [if_pos h, if_neg h2]
    · have h2 : -2147483648 ≤ i ∧ i ≤ 2147483647 := by omega
      rw [if_neg h, if_pos h2]

theorem F32.round_cases (neg : Bool) (n d : Nat) :
    (F32.round neg n d = .inf neg ∧ F32.round false n d = .inf false) ∨
      ∃ m e, F32.round neg n d = .finite neg m e ∧ F32.round false n d = .finite false m e := by
  unfold F32.round
  dsimp only
  split_ifs <;> simp

theorem strtofRound_eq (isHex neg : Bool) (n d : Nat) (x : Int) :
    strtofRound isHex neg n d x = roundOrRange isHex neg (n * 2 ^ x.toNat) (d * 2 ^ (-x).toNat) := by
  unfold strtofRound roundOrRange
  dsimp only
  rcases F32.round_cases neg (n * 2 ^ x.toNat) (d * 2 ^ (-x).toNat) with ⟨h1, h2⟩ | ⟨m, e, h1, h2⟩
  · rw [h1, h2]
    simp
  · rw [h1, h2]
    simp

theorem takeSignificand_eq (base : Nat) (s : List Char) :
    takeSignificand base s =
      (digitsValue base ((readSignificand base s).1 ++ (readSignificand base s).2.1),
        ((readSignificand base s).1 ++ (readSignificand base s).2.1).length,
        (readSignificand base s).2.1.length, (readSignificand base s).2.2) := by
  unfold takeSignificand readSignificand
  rw [takeDigits_eq]
  dsimp only
  cases h : s.dropWhile (isDigitOf base) with
  | nil => simp [digitsValue]
  | cons c cs =>
    dsimp only
    by_cases hc : c = '.'
    · rw [if_pos hc, if_pos hc, takeDigits_eq]
      simp [digitsValue, List.foldl_append]
    · rw [if_neg hc, if_neg hc]
      simp [digitsValue]

theorem takeExponent_eq (lower : Char) (s : List Char) :
    takeExponent lower s = readExponent lower lower.toUpper s := by
  unfold takeExponent readExponent
  cases s with
  | nil => rfl
  | cons c cs =>
    dsimp only
    rw [takeSign_eq]
    dsimp only
    rw [takeDigits_eq, isDigitOf_ten_eq]
    dsimp only
    by_cases hc : c = lower ∨ c = lower.toUpper
    · rw [if_pos hc]
      by_cases hd : (afterSign cs).takeWhile Char.isDigit = []
      · simp [hd]
      · have hl : ¬ 0 + ((afterSign cs).takeWhile Char.isDigit).length = 0 := by
          cases h : (afterSign cs).takeWhile Char.isDigit with
          | nil => exact absurd h hd
          | cons a as => simp
        have hcd := And.intro hc hd
        rw [if_neg hl, if_pos hcd]
        rfl
    · rw [if_neg hc, if_neg (fun h => hc h.1)]

theorem startsWithNoCase_eq (w s : List Char) :
    startsWithNoCase w s = decide ((s.take w.length).map Char.toLower = w) := by
  induction w generalizing s with
  | nil => simp [startsWithNoCase]
  | cons a as ih =>
    cases s with
    | nil => simp [startsWithNoCase]
    | cons c cs =>
      simp only [startsWithNoCase, ih, List.length_cons, List.take_succ_cons, List.map_cons,
        List.cons.injEq]
      by_cases h1 : c.toLower = a <;> simp [h1]

theorem startsWithHexMark_iff (s : List Char) :
    startsWithHexMark s = true ↔ (s.take 2 = ['0', 'x'] ∨ s.take 2 = ['0', 'X']) := by
  match s with
  | [] => simp [startsWithHexMark]
  | [c] => simp [startsWithHexMark]
  | c :: x :: cs => simp [startsWithHexMark, and_or_left]

theorem stof_eq_readFloat (str : List Char) : stof str = readFloat str := by
  unfold stof readFloat
  rw [skipSpace_eq_dropWhile, takeSign_eq]
  dsimp only
  generalize afterSign (List.dropWhile isspace str) = s
  generalize signOf (List.dropWhile isspace str) = neg
  have hdec : strtofDecimal neg s =
      if (readSignificand 10 s).1 ++ (readSignificand 10 s).2.1 = [] then .invalid_argument
      else roundOrRange false neg
        (digitsValue 10 ((readSignificand 10 s).1 ++ (readSignificand 10 s).2.1) *
          10 ^ (readExponent 'e' 'E' (readSignificand 10 s).2.2 -
            ((readSignificand 10 s).2.1.length : Int)).toNat)
        (10 ^ (-(readExponent 'e' 'E' (readSignificand 10 s).2.2 -
            ((readSignificand 10 s).2.1.length : Int))).toNat) := by
    unfold strtofDecimal
    rw [takeSignificand_eq]
    dsimp only
    rw [strtofRound_eq, takeExponent_eq]
    have hu : 'e'.toUpper = 'E' := by decide
    rw [hu]
    simp only [List.length_eq_zero, Int.toNat_zero, pow_zero, mul_one, Int.neg_zero]
  rw [startsWithNoCase_eq, startsWithNoCase_eq]
  simp only [List.length_cons, List.length_nil, decide_eq_true_eq]
  by_cases h1 : List.map Char.toLower (List.take 3 s) = ['i', 'n', 'f']
  · simp only [h1, if_true]
  rw [if_neg h1]
  simp only [h1, if_false]
  by_cases h2 : List.map Char.toLower (List.take 3 s) = ['n', 'a', 'n']
  · simp only [h2, if_true]
  simp only [h2, if_false]
  rw [hdec]
  by_cases h3 : startsWithHexMark s = true
  · rw [if_pos h3, takeSignificand_eq]
    dsimp only
    by_cases h4 : (readSignificand 16 (s.drop 2)).1 ++ (readSignificand 16 (s.drop 2)).2.1 = []
    · have h5 : ¬ ((s.take 2 = ['0', 'x'] ∨ s.take 2 = ['0', 'X']) ∧
          (readSignificand 16 (s.drop 2)).1 ++ (readSignificand 16 (s.drop 2)).2.1 ≠ []) :=
        fun h => h.2 h4
      rw [if_neg h5, h4]
      simp only [List.length_nil, if_true]
    · have h5 : (s.take 2 = ['0', 'x'] ∨ s.take 2 = ['0', 'X']) ∧
          (readSignificand 16 (s.drop 2)).1 ++ (readSignificand 16 (s.drop 2)).2.1 ≠ [] :=
        ⟨(startsWithHexMark_iff s).mp h3, h4⟩
      have h6 : ¬ ((readSignificand 16 (s.drop 2)).1 ++
          (readSignificand 16 (s.drop 2)).2.1).length = 0 := by
        rw [List.length_eq_zero]; exact h4
      rw [if_pos h5, if_neg h6, strtofRound_eq, takeExponent_eq]
      have hu : 'p'.toUpper = 'P' := by decide
      rw [hu]
      simp only [one_mul]
  · have h5 : ¬ ((s.take 2 = ['0', 'x'] ∨ s.take 2 = ['0', 'X']) ∧
        (readSignificand 16 (s.drop 2)).1 ++ (readSignificand 16 (s.drop 2)).2.1 ≠ []) :=
      fun h => h3 ((startsWithHexMark_iff s).mpr h.1)
    rw [if_neg h3, if_neg h5]

theorem afterSign_eq (str : List Char) :
    (takeSign (skipSpace str)).2 = afterSign (str.dropWhile isspace) := by
  rw [skipSpace_eq_dropWhile, takeSign_eq]

/-! ### Text behind the number -/

theorem dropWhile_append_of_ne_nil {α : Type} (p : α → Bool) (l r : List α)
    (h : l.dropWhile p ≠ []) : (l ++ r).dropWhile p = l.dropWhile p ++ r := by
  induction l with
  | nil => exact absurd rfl h
  | cons a as ih =>
    by_cases ha : p a = true
    · simp only [List.cons_append, List.dropWhile_cons_of_pos ha] at h ⊢
      exact ih h
    · simp only [List.cons_append, List.dropWhile_cons_of_neg ha]

theorem takeWhile_append_of_head {α : Type} (p : α → Bool) (l r : List α)
    (h : r.takeWhile p = []) : (l ++ r).takeWhile p = l.takeWhile p := by
  induction l with
  | nil => simpa using h
  | cons a as ih =>
    by_cases ha : p a = true
    · simp only [List.cons_append, List.takeWhile_cons_of_pos ha, ih]
    · simp only [List.cons_append, List.takeWhile_cons_of_neg ha]

theorem dropWhile_append_of_head {α : Type} (p : α → Bool) (l r : List α)
    (h : r.takeWhile p = []) : (l ++ r).dropWhile p = l.dropWhile p ++ r := by
  induction l with
  | nil =>
    cases r with
    | nil => rfl
    | cons c cs =>
      by_cases hc : p c = true
      · simp [List.takeWhile_cons_of_pos hc] at h
      · simp [List.dropWhile_cons_of_neg hc]
  | cons a as ih =>
    by_cases ha : p a = true
    · simp only [List.cons_append, List.dropWhile_cons_of_pos ha, ih]
    · simp only [List.cons_append, List.dropWhile_cons_of_neg ha]

theorem afterSign_append (s r : List Char) (h : s ≠ []) :
    afterSign (s ++ r) = afterSign s ++ r := by
  cases s with
  | nil => exact absurd rfl h
  | cons c cs =>
    unfold afterSign
    by_cases hc : c = '-' ∨ c = '+'
    · simp [hc]
    · simp [hc]

theorem signOf_append (s r : List Char) (h : s ≠ []) : signOf (s ++ r) = signOf s := by
  cases s with
  | nil => exact absurd rfl h
  | cons c cs => simp [signOf]

theorem takeWhile_isDigit_of_startsWithDigit {rest : List Char}
    (h : startsWithDigit rest = false) : rest.takeWhile Char.isDigit = [] := by
  cases rest with
  | nil => rfl
  | cons c cs =>
    have hc : ¬ c.isDigit = true := by
      intro hd
      have := (isDigit_iff c).mp hd
      simp [startsWithDigit, this] at h
    simp [List.takeWhile_cons_of_neg hc]

theorem readInt_append (str rest : List Char) (h : readInt str ≠ .invalid_argument)
    (hrest : startsWithDigit rest = false) : readInt (str ++ rest) = readInt str := by
  have hds : (afterSign (str.dropWhile isspace)).takeWhile Char.isDigit ≠ [] := by
    intro h0
    apply h
    unfold readInt
    simp [h0]
  have h1 : afterSign (str.dropWhile isspace) ≠ [] := by
    intro h0
    rw [h0] at hds
    exact hds rfl
  have h2 : str.dropWhile isspace ≠ [] := by
    intro h0
    rw [h0] at h1
    exact h1 rfl
  unfold readInt
  dsimp only
  rw [dropWhile_append_of_ne_nil _ _ _ h2, afterSign_append _ _ h2, signOf_append _ _ h2,
    takeWhile_append_of_head _ _ _ (takeWhile_isDigit_of_startsWithDigit hrest)]

theorem isLower_iff (c : Char) : c.isLower = true ↔ 97 ≤ c.toNat ∧ c.toNat ≤ 122 := by
  simp only [Char.isLower, Bool.and_eq_true, decide_eq_true_eq, ge_iff_le, Char.toNat, UInt32.le_def,
    BitVec.le_def]
  exact Iff.rfl

theorem isUpper_iff (c : Char) : c.isUpper = true ↔ 65 ≤ c.toNat ∧ c.toNat ≤ 90 := by
  simp only [Char.isUpper, Bool.and_eq_true, decide_eq_true_eq, ge_iff_le, Char.toNat, UInt32.le_def,
    BitVec.le_def]
  exact Iff.rfl

theorem isNumberChar_false {c : Char} (h : isNumberChar c = false) :
    c.isDigit = false ∧ c.isLower = false ∧ c.isUpper = false ∧ c ≠ '.' ∧ c ≠ '+' ∧ c ≠ '-' := by
  simp only [isNumberChar, Char.isAlphanum, Char.isAlpha, Bool.or_eq_false_iff,
    decide_eq_false_iff_not] at h
  exact ⟨h.1.1.1.2, h.1.1.1.1.2, h.1.1.1.1.1, h.1.1.2, h.1.2, h.2⟩

theorem isDigitOf_of_not_numberChar (base : Nat) {c : Char} (h : isNumberChar c = false) :
    isDigitOf base c = false := by
  obtain ⟨h1, h2, h3, _⟩ := isNumberChar_false h
  have hl : ¬ ('a' ≤ c ∧ c ≤ 'f') := by
    intro hc
    have ha := (char_le_iff 'a' c).mp hc.1
    have hf := (char_le_iff c 'f').mp hc.2
    have e1 : 'a'.toNat = 97 := rfl
    have e2 : 'f'.toNat = 102 := rfl
    rw [e1] at ha
    rw [e2] at hf
    have : c.isLower = true := (isLower_iff c).mpr ⟨ha, by omega⟩
    rw [h2] at this
    exact absurd this (by simp)
  have hu : ¬ ('A' ≤ c ∧ c ≤ 'F') := by
    intro hc
    have ha := (char_le_iff 'A' c).mp hc.1
    have hf := (char_le_iff c 'F').mp hc.2
    have e1 : 'A'.toNat = 65 := rfl
    have e2 : 'F'.toNat = 70 := rfl
    rw [e1] at ha
    rw [e2] at hf
    have : c.isUpper = true := (isUpper_iff c).mpr ⟨ha, by omega⟩
    rw [h3] at this
    exact absurd this (by simp)
  simp [isDigitOf, h1, hl, hu]

theorem toLower_of_not_numberChar {c : Char} (h : isNumberChar c = false) : c.toLower = c := by
  obtain ⟨_, _, h3, _⟩ := isNumberChar_false h
  have hu : ¬ (65 ≤ c.toNat ∧ c.toNat ≤ 90) := by
    intro hc
    have := (isUpper_iff c).mpr hc
    rw [h3] at this
    exact absurd this (by simp)
  unfold Char.toLower
  simp only [ge_iff_le]
  rw [if_neg hu]

theorem takeWhile_isDigitOf_of_endsNumber (base : Nat) {rest : List Char}
    (h : endsNumber rest = true) : rest.takeWhile (isDigitOf base) = [] := by
  cases rest with
  | nil => rfl
  | cons c cs =>
    have hc : isNumberChar c = false := by simpa [endsNumber] using h
    have hd := isDigitOf_of_not_numberChar base hc
    simp [List.takeWhile, hd]

theorem map_take_append_eq_iff (f : Char → Char) (hf : ∀ c, isNumberChar c = false → f c = c)
    (w : List Char) (hw : ∀ x ∈ w, isNumberChar x = true) (s rest : List Char)
    (h : endsNumber rest = true) :
    ((s ++ rest).take w.length).map f = w ↔ (s.take w.length).map f = w := by
  induction w generalizing s with
  | nil => simp
  | cons x xs ih =>
    cases s with
    | nil =>
      cases rest with
      | nil => simp
      | cons c cs =>
        have hc : isNumberChar c = false := by simpa [endsNumber] using h
        have hx : isNumberChar x = true := hw x (List.mem_cons_self _ _)
        have hne : f c ≠ x := by
          rw [hf c hc]
          intro h0
          rw [h0, hx] at hc
          exact absurd hc (by simp)
        simp [hne]
    | cons a as =>
      have ih2 := ih (fun y hy => hw y (List.mem_cons_of_mem _ hy)) as
      simp only [List.cons_append, List.length_cons, List.take_succ_cons, List.map_cons,
        List.cons.injEq, ih2]

theorem readSignificand_append (base : Nat) (s rest : List Char) (h : endsNumber rest = true) :
    readSignificand base (s ++ rest) =
      ((readSignificand base s).1, (readSignificand base s).2.1,
        (readSignificand base s).2.2 ++ rest) := by
  have ht := takeWhile_isDigitOf_of_endsNumber base h
  unfold readSignificand
  rw [takeWhile_append_of_head _ _ _ ht, dropWhile_append_of_head _ _ _ ht]
  cases hd : s.dropWhile (isDigitOf base) with
  | nil =>
    cases rest with
    | nil => rfl
    | cons c cs =>
      have hc : isNumberChar c = false := by simpa [endsNumber] using h
      have hp : c ≠ '.' := (isNumberChar_false hc).2.2.2.1
      simp [hp]
  | cons c cs =>
    by_cases hc : c = '.'
    · simp only [List.cons_append, hc, if_true]
      rw [takeWhile_append_of_head _ _ _ ht, dropWhile_append_of_head _ _ _ ht]
    · simp only [List.cons_append, hc, if_false]

theorem readExponent_append (lower upper : Char) (hl : isNumberChar lower = true)
    (hu : isNumberChar upper = true) (s rest : List Char) (h : endsNumber rest = true) :
    readExponent lower upper (s ++ rest) = readExponent lower upper s := by
  have ht : rest.takeWhile Char.isDigit = [] := by
    have := takeWhile_isDigitOf_of_endsNumber 10 h
    rwa [isDigitOf_ten_eq] at this
  cases s with
  | nil =>
    cases rest with
    | nil => rfl
    | cons c cs =>
      have hc : isNumberChar c = false := by simpa [endsNumber] using h
      have h1 : c ≠ lower := by
        intro h0
        rw [h0, hl] at hc
        exact absurd hc (by simp)
      have h2 : c ≠ upper := by
        intro h0
        rw [h0, hu] at hc
        exact absurd hc (by simp)
      simp [readExponent, h1, h2]
  | cons c cs =>
    simp only [List.cons_append, readExponent]
    cases cs with
    | nil =>
      have hs : afterSign rest = rest := by
        cases rest with
        | nil => rfl
        | cons a as =>
          have ha : isNumberChar a = false := by simpa [endsNumber] using h
          obtain ⟨_, _, _, _, h5, h6⟩ := isNumberChar_false ha
          simp [afterSign, h5, h6]
      have hn : afterSign ([] : List Char) = [] := rfl
      simp only [List.nil_append, hs, ht, hn, List.takeWhile_nil, ne_eq, not_true_eq_false,
        and_false, if_false]
    | cons a as =>
      rw [afterSign_append _ _ (List.cons_ne_nil a as), signOf_append _ _ (List.cons_ne_nil a as),
        takeWhile_append_of_head _ _ _ ht]

theorem readFloat_append (str rest : List Char) (h : readFloat str ≠ .invalid_argument)
    (hrest : endsNumber rest = true) : readFloat (str ++ rest) = readFloat str := by
  have h1 : afterSign (str.dropWhile isspace) ≠ [] := by
    intro h0
    apply h
    unfold readFloat
    simp [h0, readSignificand]
  have h2 : str.dropWhile isspace ≠ [] := by
    intro h0
    rw [h0] at h1
    exact h1 rfl
  unfold readFloat
  dsimp only
  rw [dropWhile_append_of_ne_nil _ _ _ h2, afterSign_append _ _ h2, signOf_append _ _ h2]
  generalize afterSign (List.dropWhile isspace str) = s
  generalize signOf (List.dropWhile isspace str) = neg
  have hlow := fun c => @toLower_of_not_numberChar c
  have hid : ∀ c : Char, isNumberChar c = false → id c = c := fun _ _ => rfl
  have e1 := map_take_append_eq_iff Char.toLower hlow ['i', 'n', 'f'] (by decide) s rest hrest
  have e2 := map_take_append_eq_iff Char.toLower hlow ['n', 'a', 'n'] (by decide) s rest hrest
  have e3 := map_take_append_eq_iff id hid ['0', 'x'] (by decide) s rest hrest
  have e4 := map_take_append_eq_iff id hid ['0', 'X'] (by decide) s rest hrest
  simp only [List.length_cons, List.length_nil, Nat.zero_add, Nat.reduceAdd, List.map_id_fun, id_eq] at e1 e2 e3 e4
  simp only [e1, e2, e3, e4, readSignificand_append 10 s rest hrest]
  by_cases hx : s.take 2 = ['0', 'x'] ∨ s.take 2 = ['0', 'X']
  · have hlen : 2 ≤ s.length := by
      rcases hx with hx | hx <;>
      · have := congrArg List.length hx
        simp only [List.length_take, List.length_cons, List.length_nil] at this
        omega
    rw [List.drop_append_of_le_length hlen, readSignificand_append 16 _ rest hrest]
    simp only [readExponent_append 'p' 'P' (by decide) (by decide) _ rest hrest,
      readExponent_append 'e' 'E' (by decide) (by decide) _ rest hrest]
  · simp only [hx, false_and, if_false,
      readExponent_append 'e' 'E' (by decide) (by decide) _ rest hrest]

theorem toInt_append (self : ObjLoader) (str rest : List Char)
    (hrest : startsWithDigit rest = false) :
    (∀ x, self.toInt str = .ok x self → self.toInt (str ++ rest) = .ok x self) ∧
      (self.toInt str = .throw (self.error (.intRange str)) self →
        self.toInt (str ++ rest) = .throw (self.error (.intRange (str ++ rest))) self) := by
  unfold toInt
  rw [stoi_eq_readInt, stoi_eq_readInt]
  cases hr : readInt str with
  | value i =>
    have h := readInt_append str rest (by rw [hr]; simp) hrest
    rw [h, hr]
    simp
  | invalid_argument => simp [error]
  | out_of_range =>
    have h := readInt_append str rest (by rw [hr]; simp) hrest
    rw [h, hr]
    simp

theorem toFloat_append (self : ObjLoader) (str rest : List Char)
    (hrest : endsNumber rest = true) :
    (∀ x, self.toFloat str = .ok x self → self.toFloat (str ++ rest) = .ok x self) ∧
      (self.toFloat str = .throw (self.error (.floatRange str)) self →
        self.toFloat (str ++ rest) = .throw (self.error (.floatRange (str ++ rest))) self) := by
  unfold toFloat
  rw [stof_eq_readFloat, stof_eq_readFloat]
  cases hr : readFloat str with
  | value i =>
    have h := readFloat_append str rest (by rw [hr]; simp) hrest
    rw [h, hr]
    simp
  | invalid_argument => simp [error]
  | out_of_range =>
    have h := readFloat_append str rest (by rw [hr]; simp) hrest
    rw [h, hr]
    simp

set_option maxRecDepth 4000 in
/-- The range error next to the least normal number `2^-126`, as glibc reports
it: a decimal constant just below it is out of range although it rounds to
`2^-126`, one that reaches `2^-126` when rounded to 24 bits is not; a
hexadecimal constant whose only lost bit is the round bit of the 24-bit cut is
accepted, the next one is out of range. -/
theorem stof_near_least_normal :
    stof "1.1754943e-38".toList = .out_of_range ∧
      stof "1.17549435e-38".toList = .value (.finite false 8388608 (-149)) ∧
      stof "0x1.fffffdp-127".toList = .value (.finite false 8388607 (-149)) ∧
      stof "0x1.fffffep-127".toList = .out_of_range ∧
      stof "1e-46".toList = .out_of_range ∧
      stof "0x1p-149".toList = .value (.finite false 1 (-149)) ∧
      stof "3.4028236e38".toList = .out_of_range := by
  decide

/-- C10 (refuted): a token that only starts with a number is not reported as
malformed. "1x" is the float `1.0`, and "1.5" and "2abc" are the integers `1`
and `2` (returned as floats by `toInt`); "99999999999x" is reported as out of
range, not as malformed; leading white space is skipped. -/
theorem number_start_is_converted :
    toFloat (new true false) "1x".toList = .ok (lit 1) (new true false) ∧
      toInt (new true false) "1.5".toList = .ok (lit 1) (new true false) ∧
      toInt (new true false) "2abc".toList = .ok (lit 2) (new true false) ∧
      toInt (new true false) "99999999999x".toList =
        .throw ((new true false).error (.intRange "99999999999x".toList)) (new true false) ∧
      toInt (new true false) " \t-12ab".toList = .ok (lit (-12)) (new true false) := by
  decide

/-- C10, amended: `toInt` and `toFloat` do not look at the whole token. Each
returns what the reference reading (`readInt`, `readFloat`) makes of the start
of the token: after leading white space and an optional sign, `toInt` reads the
longest run of decimal digits, and `toFloat` reads `inf`, `nan`, or the longest
hexadecimal or decimal floating constant; the value is returned as a `float`
(for `toFloat` the nearest one, ties to even), a range error of the library is
reported as "out of range", and the rest of the token is ignored. The
"cannot be parsed" error is raised exactly when, after white space and sign,
the token does not start with a number (a decimal digit for `toInt`; a digit,
a point followed by a digit, `inf` or `nan` for `toFloat`); a token that starts
with a number is converted or reported as out of range. Text put behind a
token that is converted or out of range does not change that result, provided
the text does not start with a character that continues the number (a digit for
`toInt`; a letter, digit, point or sign for `toFloat`). Every error of the two
converters quotes the whole token and leaves the loader unchanged. -/
theorem converters_read_leading_number (self : ObjLoader) (str : List Char) :
    self.toInt str =
        (match readInt str with
          | .value i => .ok (F32.ofInt i) self
          | .invalid_argument => .throw (self.error (.intInvalid str)) self
          | .out_of_range => .throw (self.error (.intRange str)) self) ∧
      self.toFloat str =
        (match readFloat str with
          | .value x => .ok x self
          | .invalid_argument => .throw (self.error (.floatInvalid str)) self
          | .out_of_range => .throw (self.error (.floatRange str)) self) ∧
      (self.toInt str = .throw (self.error (.intInvalid str)) self ↔
        startsWithDigit (afterSign (str.dropWhile isspace)) = false) ∧
      (self.toFloat str = .throw (self.error (.floatInvalid str)) self ↔
        startsWithFloat (afterSign (str.dropWhile isspace)) = false) ∧
      (startsWithDigit (afterSign (str.dropWhile isspace)) = true →
        (∃ i, self.toInt str = .ok (F32.ofInt i) self) ∨
          self.toInt str = .throw (self.error (.intRange str)) self) ∧
      (startsWithFloat (afterSign (str.dropWhile isspace)) = true →
        (∃ x, self.toFloat str = .ok x self) ∨
          self.toFloat str = .throw (self.error (.floatRange str)) self) ∧
      (∀ rest, startsWithDigit rest = false →
        (∀ x, self.toInt str = .ok x self → self.toInt (str ++ rest) = .ok x self) ∧
          (self.toInt str = .throw (self.error (.intRange str)) self →
            self.toInt (str ++ rest) = .throw (self.error (.intRange (str ++ rest))) self)) ∧
      (∀ rest, endsNumber rest = true →
        (∀ x, self.toFloat str = .ok x self → self.toFloat (str ++ rest) = .ok x self) ∧
          (self.toFloat str = .throw (self.error (.floatRange str)) self →
            self.toFloat (str ++ rest) =
              .throw (self.error (.floatRange (str ++ rest))) self)) ∧
      (∀ ex s, self.toInt str = .throw ex s →
        s = self ∧ (ex = self.error (.intInvalid str) ∨ ex = self.error (.intRange str))) ∧
      (∀ ex s, self.toFloat str = .throw ex s →
        s = self ∧ (ex = self.error (.floatInvalid str) ∨ ex = self.error (.floatRange str))) := by
  have hi := stoi_invalid_iff str
  have hf := stof_invalid_iff str
  rw [afterSign_eq] at hi hf
  refine ⟨?_, ?_, ?_, ?_, ?_, ?_, ?_, ?_, ?_, ?_⟩
  · unfold toInt
    rw [stoi_eq_readInt]
  · unfold toFloat
    rw [stof_eq_readFloat]
  · rw [← hi]
    unfold toInt
    cases stoi str <;> simp [error]
  · rw [← hf]
    unfold toFloat
    cases stof str <;> simp [error]
  · intro h
    have hne : stoi str ≠ .invalid_argument := by
      intro h0
      rw [hi.mp h0] at h
      exact absurd h (by simp)
    unfold toInt
    cases hs : stoi str with
    | value i => exact Or.inl ⟨i, rfl⟩
    | invalid_argument => exact absurd hs hne
    | out_of_range => exact Or.inr rfl
  · intro h
    have hne : stof str ≠ .invalid_argument := by
      intro h0
      rw [hf.mp h0] at h
      exact absurd h (by simp)
    unfold toFloat
    cases hs : stof str with
    | value x => exact Or.inl ⟨x, rfl⟩
    | invalid_argument => exact absurd hs hne
    | out_of_range => exact Or.inr rfl
  · exact fun rest hrest => toInt_append self str rest hrest
  · exact fun rest hrest => toFloat_append self str rest hrest
  · intro ex s
    unfold toInt
    cases stoi str <;> simp <;> intro h1 h2 <;> simp [← h1, ← h2]
  · intro ex s
    unfold toFloat
    cases stof str <;> simp <;> intro h1 h2 <;> simp [← h1, ← h2]

/-- Instance of the amended C10: "12" and "2.5" are converted, and with ",5" put
behind them the results are the same. -/
theorem converters_read_leading_number_witness :
    startsWithDigit ",5".toList = false ∧ endsNumber ",5".toList = true ∧
      toInt (new true false) "12".toList = .ok (lit 12) (new true false) ∧
      toInt (new true false) ("12".toList ++ ",5".toList) = .ok (lit 12) (new true false) ∧
      toFloat (new true false) "2.5".toList = .ok (.finite false 10485760 (-22)) (new true false) ∧
      toFloat (new true false) ("2.5".toList ++ ",5".toList) =
        .ok (.finite false 10485760 (-22)) (new true false) :=
  ⟨by decide, by decide, by decide,
    ((converters_read_leading_number (new true false) "12".toList).2.2.2.2.2.2.1
      ",5".toList (by decide)).1 (lit 12) (by decide),
    by decide,
    ((converters_read_leading_number (new true false) "2.5".toList).2.2.2.2.2.2.2.1
      ",5".toList (by decide)).1 (.finite false 10485760 (-22)) (by decide)⟩

/-- First error of the scan phase: when every line before line `k` is processed
normally and line `k` is dispatched and makes `parseLine` throw, `load` throws
that exception, located in `filename` at line `k` (counting every earlier
line), whatever follows line `k` and whatever state the loader was in. -/
theorem first_error_aborts_load (self : ObjLoader) (filename : List Char)
    (earlier : List (List Char)) (line : List Char) (later : List (List Char)) (bad : Bool)
    (s s1 : ObjLoader) (ex : Exception)
    (hearlier : readLines (self.startLoad filename) earlier = .ok () s)
    (hdispatch : 0 < line.length ∧ line.head? ≠ some '#')
    (hline : parseLine { s with lineNumber := s.lineNumber + 1 } line = .throw ex s1) :
    load self filename (some { lines := earlier ++ line :: later, bad := bad }) = .throw ex s1 ∧
      ∃ m, ex = .parse filename (earlier.length + 1) m := by
  constructor
  · have h : readLines s (line :: later) = .throw ex s1 := by
      rw [readLines, if_pos hdispatch, hline]
      rfl
    simp only [load, readLines_append, hearlier, Result.bind, h]
  · have h1 := readLines_post earlier (self.startLoad filename)
    rw [hearlier] at h1
    obtain ⟨⟨_, _, h3, _⟩, h5⟩ := h1
    have h2 := parseLine_post { s with lineNumber := s.lineNumber + 1 } line
    rw [hline] at h2
    obtain ⟨_, m, hm⟩ := h2
    refine ⟨m, ?_⟩
    rw [hm]
    simp only [error, h3, h5, startLoad, Nat.zero_add]

/-! ## The tokenizer -/

namespace ObjLoader

theorem substr_middle (front cur rest : List Char) :
    substr (front ++ cur ++ rest) front.length cur.length = cur := by
  simp [substr, List.append_assoc]

/-- Loop invariant of `tokenize`: with the line cut into the part before the
current token, the current token and the part still to scan, the loop emits the
kept pieces of `splitRuns` and ends with the last piece as current token. -/
theorem tokenizeLoop_eq (line : List Char) (separator : Char) (allowEmptyTokens : Bool)
    (rest front cur : List Char) (tokens : List (List Char))
    (hline : line = front ++ cur ++ rest) :
    (tokenizeLoop line separator allowEmptyTokens rest (front.length + cur.length)
        front.length cur.length tokens).2.2 =
      tokens ++ (splitRuns separator cur rest).1.filter (keepToken allowEmptyTokens) ∧
    substr line
        (tokenizeLoop line separator allowEmptyTokens rest (front.length + cur.length)
          front.length cur.length tokens).1
        (tokenizeLoop line separator allowEmptyTokens rest (front.length + cur.length)
          front.length cur.length tokens).2.1 = (splitRuns separator cur rest).2 ∧
    (tokenizeLoop line separator allowEmptyTokens rest (front.length + cur.length)
        front.length cur.length tokens).2.1 = (splitRuns separator cur rest).2.length := by
  induction rest generalizing front cur tokens with
  | nil =>
    subst hline
    simp only [tokenizeLoop, splitRuns, List.filter_nil, List.append_nil, and_true, true_and]
    have := substr_middle front cur []
    simpa using this
  | cons c rest ih =>
    have hsub : substr line front.length cur.length = cur := by
      rw [hline]; exact substr_middle _ _ _
    by_cases hc : c = separator
    · have h := ih (front ++ cur ++ [c]) []
        (if 0 < cur.length ∨ allowEmptyTokens = true then tokens ++ [cur] else tokens)
        (by rw [hline]; simp)
      simp only [List.length_append, List.length_singleton, List.length_nil, Nat.add_zero] at h
      simp only [tokenizeLoop, hc, if_true, splitRuns, hsub]
      refine ⟨?_, h.2⟩
      rw [h.1]
      by_cases hk : 0 < cur.length ∨ allowEmptyTokens = true
      · have hk2 : keepToken allowEmptyTokens cur = true := by
          simpa [keepToken] using hk
        simp [hk, List.filter_cons, hk2]
      · have hk2 : keepToken allowEmptyTokens cur = false := by
          simpa [keepToken] using hk
        simp [hk, List.filter_cons, hk2]
    · have h := ih front (cur ++ [c]) tokens (by rw [hline]; simp)
      simp only [List.length_append, List.length_singleton] at h
      simp only [tokenizeLoop, hc, if_false, splitRuns]
      rw [← Nat.add_assoc] at h
      exact h

/-- The tokenizer in terms of `splitRuns`: the kept pieces that end at a
separator, then the last piece if it is not empty. -/
theorem tokenize_eq_splitRuns (line : List Char) (separator : Char) (allowEmptyTokens : Bool) :
    tokenize line separator allowEmptyTokens =
      (splitRuns separator [] line).1.filter (keepToken allowEmptyTokens) ++
        (if 0 < (splitRuns separator [] line).2.length then [(splitRuns separator [] line).2]
          else []) := by
  have h := tokenizeLoop_eq line separator allowEmptyTokens line [] [] [] (by simp)
  simp only [List.length_nil, Nat.add_zero, List.nil_append] at h
  unfold tokenize
  generalize tokenizeLoop line separator allowEmptyTokens line 0 0 0 [] = r at h
  rcases r with ⟨tokenStart, tokenLength, tokens⟩
  dsimp only at h ⊢
  obtain ⟨h1, h2, h3⟩ := h
  rw [h1, h2, h3]
  split <;> simp

end ObjLoader

namespace ObjLoader

/-- The reference function `splitRuns` is splitting at every separator. -/
theorem splitRuns_splitOn (separator : Char) (cur rest : List Char) :
    (splitRuns separator cur rest).1 ++ [(splitRuns separator cur rest).2] =
      (rest.splitOn separator).modifyHead (cur ++ ·) := by
  induction rest generalizing cur with
  | nil => simp [splitRuns, List.splitOn_nil]
  | cons c rest ih =>
    have hcons : (c :: rest).splitOn separator =
        if c = separator then [] :: rest.splitOn separator
        else (rest.splitOn separator).modifyHead (List.cons c) := by
      simp only [List.splitOn, List.splitOnP_cons, beq_iff_eq]
    rw [hcons]
    by_cases hc : c = separator
    · have h := ih []
      simp only [List.nil_append] at h
      have hid : (rest.splitOn separator).modifyHead (fun x => x) = rest.splitOn separator := by
        cases rest.splitOn separator <;> simp
      rw [hid] at h
      simp only [splitRuns, hc, if_true, List.cons_append, h, List.modifyHead_cons,
        List.append_nil]
    · simp only [splitRuns, hc, if_false, ih, List.modifyHead_modifyHead]
      congr 1
      funext x
      simp

theorem splitRuns_count (separator : Char) (cur rest : List Char) :
    (splitRuns separator cur rest).1.length = rest.count separator := by
  induction rest generalizing cur with
  | nil => simp [splitRuns]
  | cons c rest ih =>
    by_cases hc : c = separator
    · simp [splitRuns, hc, ih, List.count_cons]
    · simp [splitRuns, hc, ih, List.count_cons]

theorem splitRuns_last_nil (separator : Char) (cur rest : List Char) :
    (splitRuns separator cur rest).2 = [] ↔
      (rest = [] ∧ cur = []) ∨ rest.getLast? = some separator := by
  induction rest generalizing cur with
  | nil => simp [splitRuns]
  | cons c rest ih =>
    by_cases hc : c = separator
    · simp only [splitRuns, hc, if_true, ih]
      cases rest with
      | nil => simp
      | cons d rest => simp [List.getLast?_cons_cons]
    · simp only [splitRuns, hc, if_false, ih]
      cases rest with
      | nil => simp [hc]
      | cons d rest => simp [List.getLast?_cons_cons]

theorem splitRuns_not_mem (separator : Char) (cur rest : List Char) (hcur : separator ∉ cur) :
    (∀ p ∈ (splitRuns separator cur rest).1, separator ∉ p) ∧
      separator ∉ (splitRuns separator cur rest).2 := by
  induction rest generalizing cur with
  | nil => simp [splitRuns, hcur]
  | cons c rest ih =>
    by_cases hc : c = separator
    · have h := ih [] (by simp)
      simp only [splitRuns, hc, if_true, List.mem_cons, forall_eq_or_imp]
      exact ⟨⟨hcur, h.1⟩, h.2⟩
    · simp only [splitRuns, hc, if_false]
      refine ih (cur ++ [c]) ?_
      simp only [List.mem_append, List.mem_singleton, not_or]
      exact ⟨hcur, fun h => hc h.symm⟩

theorem splitRuns_flatten (separator : Char) (cur rest : List Char) :
    (splitRuns separator cur rest).1.flatten ++ (splitRuns separator cur rest).2 =
      cur ++ rest.filter (fun c => decide (c ≠ separator)) := by
  induction rest generalizing cur with
  | nil => simp [splitRuns]
  | cons c rest ih =>
    by_cases hc : c = separator
    · have h := ih []
      simp only [List.nil_append] at h
      simp [splitRuns, hc, List.append_assoc, h]
    · simp [splitRuns, hc, ih]

theorem flatten_filter_keepToken (pieces : List (List Char)) :
    (pieces.filter (keepToken false)).flatten = pieces.flatten := by
  induction pieces with
  | nil => rfl
  | cons p ps ih =>
    cases p with
    | nil => simp [List.filter_cons, keepToken, ih]
    | cons c cs => simp [List.filter_cons, keepToken, ih]

end ObjLoader

namespace ObjLoader

theorem splitOn_modifyHead_nil (separator : Char) (line : List Char) :
    (line.splitOn separator).modifyHead (fun x => [] ++ x) = line.splitOn separator := by
  cases line.splitOn separator <;> simp

theorem tokenize_false_eq_filter (line : List Char) (separator : Char) :
    tokenize line separator false =
      (line.splitOn separator).filter (fun piece => decide (piece ≠ [])) := by
  have hs := splitRuns_splitOn separator [] line
  rw [splitOn_modifyHead_nil] at hs
  have hkeep : (fun piece : List Char => decide (piece ≠ [])) = keepToken false := by
    funext piece
    cases piece <;> simp [keepToken]
  rw [tokenize_eq_splitRuns, ← hs, List.filter_append, hkeep]
  congr 1
  cases h : (splitRuns separator [] line).2 <;> simp [List.filter_cons, keepToken]

theorem tokenize_false_mem (line : List Char) (separator : Char) (token : List Char)
    (ht : token ∈ tokenize line separator false) : token ≠ [] ∧ separator ∉ token := by
  rw [tokenize_eq_splitRuns] at ht
  have hn := splitRuns_not_mem separator [] line (by simp)
  rcases List.mem_append.mp ht with h | h
  · rw [List.mem_filter] at h
    refine ⟨?_, hn.1 token h.1⟩
    intro h0
    rw [h0] at h
    simp [keepToken] at h
  · split at h
    · rename_i hpos
      rw [List.mem_singleton] at h
      rw [h]
      exact ⟨fun h0 => by rw [h0] at hpos; simp at hpos, hn.2⟩
    · simp at h

theorem tokenize_false_flatten (line : List Char) (separator : Char) :
    (tokenize line separator false).flatten =
      line.filter (fun c => decide (c ≠ separator)) := by
  rw [tokenize_eq_splitRuns, List.flatten_append, flatten_filter_keepToken]
  have hf := splitRuns_flatten separator [] line
  simp only [List.nil_append] at hf
  rw [← hf]
  congr 1
  split
  · simp
  · rename_i hpos
    have : (splitRuns separator [] line).2 = [] := by
      cases h : (splitRuns separator [] line).2 with
      | nil => rfl
      | cons c cs => rw [h] at hpos; simp at hpos
    simp [this]

/-- The tokenizer with empty tokens disallowed returns no token exactly when
every character of the line is the separator. -/
theorem tokenize_false_eq_nil_iff (line : List Char) (separator : Char) :
    tokenize line separator false = [] ↔ ∀ c ∈ line, c = separator := by
  have hf := tokenize_false_flatten line separator
  constructor
  · intro h
    rw [h] at hf
    simp only [List.flatten_nil] at hf
    have h2 := List.filter_eq_nil_iff.mp hf.symm
    intro c hc
    simpa using h2 c hc
  · intro h
    have hnil : line.filter (fun c => decide (c ≠ separator)) = [] := by
      rw [List.filter_eq_nil_iff]
      intro c hc
      simp [h c hc]
    rw [hnil] at hf
    cases ht : tokenize line separator false with
    | nil => rfl
    | cons t ts =>
      have hmem := tokenize_false_mem line separator t (by rw [ht]; simp)
      rw [ht] at hf
      simp only [List.flatten_cons, List.append_eq_nil] at hf
      exact absurd hf.1 hmem.1

end ObjLoader

/-- C11: with empty tokens disallowed, `tokenize` returns the pieces obtained by
splitting the line at every separator, with the empty pieces dropped, in order
(the maximal runs of non-separator characters); so no token is empty, no token
contains the separator, and the tokens concatenate to the line without its
separators. -/
theorem tokenize_disallowing_empty (line : List Char) (separator : Char) :
    tokenize line separator false =
        (line.splitOn separator).filter (fun piece => decide (piece ≠ [])) ∧
      (∀ token ∈ tokenize line separator false, token ≠ [] ∧ separator ∉ token) ∧
      (tokenize line separator false).flatten =
        line.filter (fun c => decide (c ≠ separator)) :=
  ⟨tokenize_false_eq_filter line separator, tokenize_false_mem line separator,
    tokenize_false_flatten line separator⟩

/-- C11, witness: "a  b c" on space gives `["a","b","c"]`. -/
theorem tokenize_disallowing_empty_witness :
    tokenize "a  b c".toList ' ' false = [['a'], ['b'], ['c']] :=
  (tokenize_disallowing_empty "a  b c".toList ' ').1.trans (by decide)

/-- C12: with empty tokens allowed, `tokenize` returns the pieces that end at a
separator (one for each of the `k` separators of the line, each possibly
empty), in order, followed by the piece after the last separator only if that
piece is not empty; the result has `k` tokens when the line is empty or ends
with the separator and `k + 1` otherwise. -/
theorem tokenize_allowing_empty (line : List Char) (separator : Char) :
    tokenize line separator true =
        (line.splitOn separator).dropLast ++
          (if (line.splitOn separator).getLast? = some [] then []
            else (line.splitOn separator).getLast?.toList) ∧
      (line.splitOn separator).dropLast.length = line.count separator ∧
      (tokenize line separator true).length =
        if line = [] ∨ line.getLast? = some separator then line.count separator
        else line.count separator + 1 := by
  have hs := splitRuns_splitOn separator [] line
  rw [splitOn_modifyHead_nil] at hs
  have htok := tokenize_eq_splitRuns line separator true
  have hall : (splitRuns separator [] line).1.filter (keepToken true) =
      (splitRuns separator [] line).1 := by
    rw [List.filter_eq_self]
    intro a _
    simp [keepToken]
  rw [hall] at htok
  have hcount := splitRuns_count separator [] line
  have hlast := splitRuns_last_nil separator [] line
  simp only [and_true] at hlast
  refine ⟨?_, ?_, ?_⟩
  · rw [htok, ← hs, List.dropLast_concat, List.getLast?_concat]
    congr 1
    cases h : (splitRuns separator [] line).2 <;> simp
  · rw [← hs, List.dropLast_concat, hcount]
  · rw [htok, List.length_append, hcount]
    by_cases h : line = [] ∨ line.getLast? = some separator
    · rw [if_pos h, hlast.mpr h]
      simp
    · rw [if_neg h]
      have hne : (splitRuns separator [] line).2 ≠ [] := fun h0 => h (hlast.mp h0)
      have hpos : 0 < (splitRuns separator [] line).2.length := List.length_pos.mpr hne
      simp [hpos]

/-- C12, witness: ",a,,b," on ',' gives `["","a","","b"]`. -/
theorem tokenize_allowing_empty_witness :
    tokenize ",a,,b,".toList ',' true = [[], ['a'], [], ['b']] :=
  (tokenize_allowing_empty ",a,,b,".toList ',').1.trans (by decide)

/-- C17 (the code departs from the claim): the line of a single space is not
empty and does not begin with '#', so `load` dispatches it to `parseLine`; its
token list is empty, and `tokens.front()` on it is undefined. -/
theorem whitespace_only_line_has_no_keyword :
    (0 < " ".toList.length ∧ " ".toList.head? ≠ some '#') ∧
      tokenize " ".toList defaultSeparator defaultAllowEmptyTokens = [] ∧
      parseLine (new true false) " ".toList = .undefined ∧
      load (new true false) "m.obj".toList (fileOf [" "]) = .undefined := by
  decide

/-! ## Independence of the line counter -/

namespace ObjLoader

theorem withLine_twice (s : ObjLoader) (n k : Nat) : (s.withLine n).withLine k = s.withLine k :=
  rfl

theorem withLine_self (s : ObjLoader) : s.withLine s.lineNumber = s := rfl

theorem Result.withLine_again {α : Type} (r : Result α) (n k : Nat) :
    (r.withLine n).withLine k = r.withLine k := by
  cases r with
  | ok a s => rfl
  | throw ex s => cases ex <;> rfl
  | undefined => rfl

theorem Result.value?_withLine {α : Type} (r : Result α) (n : Nat) :
    (r.withLine n).value? = r.value? := by
  cases r <;> rfl

theorem Result.bind_withLine {α β : Type} (r : Result α) (f : α → ObjLoader → Result β)
    (n : Nat) (hf : ∀ a s, f a (s.withLine n) = (f a s).withLine n) :
    (r.withLine n).bind f = (r.bind f).withLine n := by
  cases r with
  | ok a s => exact hf a s
  | throw ex s => rfl
  | undefined => rfl

theorem tokenAt_withLine (tokens : List (List Char)) (i : Nat) (s : ObjLoader) (n : Nat) :
    tokenAt tokens i (s.withLine n) = (tokenAt tokens i s).withLine n := by
  unfold tokenAt
  cases tokens.get? i <;> rfl

theorem toFloat_withLine (s : ObjLoader) (str : List Char) (n : Nat) :
    (s.withLine n).toFloat str = (s.toFloat str).withLine n := by
  unfold toFloat
  cases stof str <;> rfl

theorem toInt_withLine (s : ObjLoader) (str : List Char) (n : Nat) :
    (s.withLine n).toInt str = (s.toInt str).withLine n := by
  unfold toInt
  cases stoi str <;> rfl

theorem pushFloats_withLine (tokens : List (List Char)) (count i : Nat) (vertex : List F32)
    (s : ObjLoader) (n : Nat) :
    pushFloats tokens count i vertex (s.withLine n) =
      (pushFloats tokens count i vertex s).withLine n := by
  induction count generalizing i vertex s with
  | zero => rfl
  | succ k ih =>
    unfold pushFloats
    rw [tokenAt_withLine]
    refine Result.bind_withLine _ _ n ?_
    intro tok s1
    rw [toFloat_withLine]
    refine Result.bind_withLine _ _ n ?_
    intro x s2
    exact ih _ _ _

theorem pushIndices_withLine (tokens : List (List Char)) (count i : Nat) (s : ObjLoader)
    (n : Nat) :
    pushIndices tokens count i (s.withLine n) = (pushIndices tokens count i s).withLine n := by
  induction count generalizing i s with
  | zero => rfl
  | succ k ih =>
    unfold pushIndices
    rw [tokenAt_withLine]
    refine Result.bind_withLine _ _ n ?_
    intro tok s1
    rw [toInt_withLine]
    refine Result.bind_withLine _ _ n ?_
    intro x s2
    cases toIndex (F32.sub x (F32.ofInt 1)) with
    | none => rfl
    | some idx => exact ih (i + 1) { s2 with indices := s2.indices ++ [idx] }

theorem parseVEntry_withLine (s : ObjLoader) (N : Int) (tokens : List (List Char)) (n : Nat) :
    parseVEntry (s.withLine n) N tokens = (parseVEntry s N tokens).withLine n := by
  unfold parseVEntry
  split
  · rfl
  · rw [pushFloats_withLine]
    refine Result.bind_withLine _ _ n ?_
    intro xyz s1
    have hW : (if N = 3 ∨ N = 6 then
          Result.ok ((4 : Nat), xyz ++ [F32.ofInt 1]) (s1.withLine n)
        else (pushFloats tokens 1 4 xyz (s1.withLine n)).bind fun xyzw self =>
          Result.ok ((5 : Nat), xyzw) self) =
        (if N = 3 ∨ N = 6 then Result.ok ((4 : Nat), xyz ++ [F32.ofInt 1]) s1
          else (pushFloats tokens 1 4 xyz s1).bind fun xyzw self =>
            Result.ok ((5 : Nat), xyzw) self).withLine n := by
      split
      · rfl
      · rw [pushFloats_withLine]
        exact Result.bind_withLine _ _ n (fun _ _ => rfl)
    rw [hW]
    refine Result.bind_withLine _ _ n ?_
    intro iv s2
    have hC : (if (s2.withLine n).loadColorData = true then
          pushFloats tokens (N + 1 - (iv.1 : Int)).toNat iv.1 iv.2 (s2.withLine n)
        else Result.ok iv.2 (s2.withLine n)) =
        (if s2.loadColorData = true then
          pushFloats tokens (N + 1 - (iv.1 : Int)).toNat iv.1 iv.2 s2
        else Result.ok iv.2 s2).withLine n := by
      show (if s2.loadColorData = true then _ else _) = _
      split
      · exact pushFloats_withLine _ _ _ _ _ _
      · rfl
    rw [hC]
    exact Result.bind_withLine _ _ n (fun _ _ => rfl)

theorem parseVNEntry_withLine (s : ObjLoader) (N : Int) (tokens : List (List Char)) (n : Nat) :
    parseVNEntry (s.withLine n) N tokens = (parseVNEntry s N tokens).withLine n := by
  unfold parseVNEntry
  split
  · rfl
  · rw [pushFloats_withLine]
    exact Result.bind_withLine _ _ n (fun _ _ => rfl)

theorem parseFEntry_withLine (s : ObjLoader) (N : Int) (tokens : List (List Char)) (n : Nat) :
    parseFEntry (s.withLine n) N tokens = (parseFEntry s N tokens).withLine n := by
  unfold parseFEntry
  split
  · rfl
  · exact pushIndices_withLine _ _ _ _ _

theorem parseLine_withLine (s : ObjLoader) (line : List Char) (n : Nat) :
    parseLine (s.withLine n) line = (parseLine s line).withLine n := by
  unfold parseLine
  simp only
  split
  · rfl
  · split
    · exact parseVEntry_withLine _ _ _ _
    · split
      · exact parseVNEntry_withLine _ _ _ _
      · split
        · exact parseFEntry_withLine _ _ _ _
        · rfl

end ObjLoader

namespace ObjLoader

theorem Exception.withLine_withLine (ex : Exception) (n k : Nat) :
    (ex.withLine n).withLine k = ex.withLine k := by
  cases ex <;> rfl

theorem readLines_cons (self : ObjLoader) (line : List Char) (rest : List (List Char)) :
    readLines self (line :: rest) =
      if 0 < line.length ∧ line.head? ≠ some '#' then
        (parseLine (self.withLine (self.lineNumber + 1)) line).bind fun _ self2 =>
          readLines self2 rest
      else readLines (self.withLine (self.lineNumber + 1)) rest := by
  rw [readLines]
  rfl

/-- Processing an ignored line only advances the line counter. -/
theorem readLines_ignored (self : ObjLoader) (line : List Char) (rest : List (List Char))
    (h : isIgnoredLine line = true) :
    readLines self (line :: rest) = readLines (self.withLine (self.lineNumber + 1)) rest := by
  rw [readLines_cons]
  split
  · rename_i hd
    have hskip : isSkippedLine line = false := by
      simp only [isSkippedLine, Bool.or_eq_false_iff, decide_eq_false_iff_not]
      exact ⟨by omega, hd.2⟩
    simp only [isIgnoredLine, hskip, Bool.false_or] at h
    unfold hasOtherKeyword at h
    unfold parseLine
    simp only
    split
    · rename_i htok; rw [htok] at h; simp at h
    · rename_i keyword fields htok
      rw [htok] at h
      simp only [Bool.and_eq_true, decide_eq_true_eq] at h
      simp only [h.1.1, h.1.2, h.2, if_false]
      rfl
  · rfl

/-- The scan phase on two loaders that differ only in the line counter, the
second one reading the source without its ignored lines. -/
theorem readLines_filter_ignored (lines : List (List Char)) (s t : ObjLoader)
    (hst : s.withLine 0 = t.withLine 0) :
    (readLines s lines).withLine 0 =
      (readLines t (lines.filter fun l => !isIgnoredLine l)).withLine 0 := by
  induction lines generalizing s t with
  | nil =>
    simp only [List.filter_nil, readLines, Result.withLine]
    rw [hst]
  | cons line rest ih =>
    by_cases hig : isIgnoredLine line = true
    · rw [readLines_ignored s line rest hig, List.filter_cons, hig]
      exact ih _ _ hst
    · have hig2 : isIgnoredLine line = false := by simpa using hig
      rw [List.filter_cons, hig2]
      simp only [Bool.not_false, if_true]
      rw [readLines_cons, readLines_cons]
      have hp : ∀ u : ObjLoader, parseLine (u.withLine (u.lineNumber + 1)) line =
          (parseLine (u.withLine 0) line).withLine (u.lineNumber + 1) :=
        fun u => parseLine_withLine (u.withLine 0) line _
      split
      · rw [hp s, hp t, ← hst]
        generalize parseLine (s.withLine 0) line = r
        cases r with
        | ok a v => exact ih _ _ rfl
        | throw ex v =>
          simp only [Result.withLine, Result.bind, Exception.withLine_withLine]
          rfl
        | undefined => rfl
      · exact ih _ _ hst

theorem load_assembly_withLine (filename : List Char) (bad : Bool) (s : ObjLoader) (n : Nat) :
    (if bad = true then Result.throw (.readError filename) (s.withLine n)
      else if (s.withLine n).inlining = true then
        if (s.withLine n).vertices.length ≠ (s.withLine n).normals.length then
          Result.throw .mismatch (s.withLine n)
        else
          let vertexData := inlineLoop (s.withLine n).vertices (s.withLine n).normals
            (s.withLine n).vertices.length 0 (s.withLine n).vertexData
          Result.ok ({ vertexData := vertexData, indices := (s.withLine n).indices } : Mesh)
            { s.withLine n with vertexData := vertexData }
      else
        let vertexData :=
          appendAll (appendAll (s.withLine n).vertexData (s.withLine n).vertices)
            (s.withLine n).normals
        Result.ok ({ vertexData := vertexData, indices := (s.withLine n).indices } : Mesh)
          { s.withLine n with vertexData := vertexData }) =
    (if bad = true then Result.throw (.readError filename) s
      else if s.inlining = true then
        if s.vertices.length ≠ s.normals.length then Result.throw .mismatch s
        else
          let vertexData := inlineLoop s.vertices s.normals s.vertices.length 0 s.vertexData
          Result.ok ({ vertexData := vertexData, indices := s.indices } : Mesh)
            { s with vertexData := vertexData }
      else
        let vertexData := appendAll (appendAll s.vertexData s.vertices) s.normals
        Result.ok ({ vertexData := vertexData, indices := s.indices } : Mesh)
          { s with vertexData := vertexData }).withLine n := by
  show (if bad = true then _ else if s.inlining = true then
    if s.vertices.length ≠ s.normals.length then _ else _ else _) = _
  split
  · rfl
  · split
    · split <;> rfl
    · rfl

/-- The result of `load` does not change, line numbers apart, when the ignored
lines are removed from the source. -/
theorem load_filter_ignored (self : ObjLoader) (filename : List Char)
    (lines : List (List Char)) (bad : Bool) :
    (load self filename (some { lines := lines, bad := bad })).withLine 0 =
      (load self filename
        (some { lines := lines.filter fun l => !isIgnoredLine l, bad := bad })).withLine 0 := by
  have h := readLines_filter_ignored lines (self.startLoad filename) (self.startLoad filename) rfl
  unfold load
  simp only
  rw [← Result.bind_withLine _ _ 0 (fun _ s => load_assembly_withLine filename bad s 0),
    ← Result.bind_withLine _ _ 0 (fun _ s => load_assembly_withLine filename bad s 0), h]

end ObjLoader

/-- C13: a line that is empty, or begins with '#', or whose first token is none
of "v", "vn", "f" raises no error and changes nothing but the line counter
(the position, normal and index lists are as before), whatever follows the
keyword; and the result of a load, line numbers apart, and so the geometry it
returns, is that of the same source with all such lines removed. -/
theorem ignored_lines_have_no_effect (self : ObjLoader) (line : List Char)
    (h : isIgnoredLine line = true) :
    readLines self [line] = .ok () (self.withLine (self.lineNumber + 1)) ∧
      (∀ rest, readLines self (line :: rest) =
        readLines (self.withLine (self.lineNumber + 1)) rest) ∧
      (∀ filename lines bad,
        (load self filename (some { lines := lines, bad := bad })).withLine 0 =
            (load self filename
              (some { lines := lines.filter fun l => !isIgnoredLine l,
                      bad := bad })).withLine 0 ∧
          (load self filename (some { lines := lines, bad := bad })).value? =
            (load self filename
              (some { lines := lines.filter fun l => !isIgnoredLine l,
                      bad := bad })).value?) := by
  refine ⟨?_, fun rest => readLines_ignored self line rest h, ?_⟩
  · rw [readLines_ignored self line [] h]
    rfl
  · intro filename lines bad
    have hl := load_filter_ignored self filename lines bad
    refine ⟨hl, ?_⟩
    rw [← Result.value?_withLine _ 0, hl, Result.value?_withLine]

/-- C13, witnesses: "vt 0 0", "g name", "vnx", the empty line and a comment. -/
theorem ignored_lines_have_no_effect_witness :
    readLines (new true false) ["vt 0 0".toList] = .ok () ((new true false).withLine 1) ∧
      readLines (new true false) ["g name".toList] = .ok () ((new true false).withLine 1) ∧
      readLines (new true false) ["vnx".toList] = .ok () ((new true false).withLine 1) ∧
      readLines (new true false) ["".toList] = .ok () ((new true false).withLine 1) ∧
      readLines (new true false) ["# v 1".toList] = .ok () ((new true false).withLine 1) :=
  ⟨(ignored_lines_have_no_effect (new true false) "vt 0 0".toList (by decide)).1,
    (ignored_lines_have_no_effect (new true false) "g name".toList (by decide)).1,
    (ignored_lines_have_no_effect (new true false) "vnx".toList (by decide)).1,
    (ignored_lines_have_no_effect (new true false) "".toList (by decide)).1,
    (ignored_lines_have_no_effect (new true false) "# v 1".toList (by decide)).1⟩

/-! ## Effect of the record parsers on the lists -/

namespace ObjLoader

theorem pushIndices_effect (tokens : List (List Char)) (count i : Nat) (self : ObjLoader) :
    Post (fun _ s => s.vertices = self.vertices ∧ s.normals = self.normals ∧
        s.loadColorData = self.loadColorData ∧
        s.indices = self.indices ++ ((tokens.drop i).take count).filterMap convertIndex ∧
        (((tokens.drop i).take count).filterMap convertIndex).length = count)
      (fun _ _ => True) (pushIndices tokens count i self) := by
  induction count generalizing i self with
  | zero => simp [pushIndices, Post]
  | succ k ih =>
    unfold pushIndices
    refine (tokenAt_post tokens i self).bind (fun _ _ _ => trivial) ?_
    intro tok s hs
    obtain ⟨rfl, htok⟩ : self = s ∧ _ := ⟨hs.1.symm, hs.2⟩
    refine (toInt_post _ tok).bind (fun _ _ _ => trivial) ?_
    intro x s hs
    obtain ⟨hs1, v, hv, rfl⟩ := hs
    obtain rfl : self = s := hs1.symm
    have hi : i < tokens.length := by
      rw [List.get?_eq_getElem?] at htok
      exact (List.getElem?_eq_some_iff.mp htok).1
    have hget : tokens[i] = tok := by
      rw [List.get?_eq_getElem?] at htok
      exact (List.getElem?_eq_some_iff.mp htok).2
    have hdrop : (tokens.drop i).take (k + 1) = tok :: (tokens.drop (i + 1)).take k := by
      rw [List.drop_eq_getElem_cons hi, List.take_succ_cons, hget]
    cases hc : toIndex (F32.sub (F32.ofInt v) (F32.ofInt 1)) with
    | none => trivial
    | some idx =>
      have hconv : convertIndex tok = some idx := by
        simp only [convertIndex, hv, hc]
      refine (ih (i + 1) { self with indices := self.indices ++ [idx] }).mono ?_
        (fun _ _ _ => trivial)
      rintro _ s ⟨h1, h2, h3, h4, h5⟩
      refine ⟨h1, h2, h3, ?_, ?_⟩
      · rw [h4, hdrop, List.filterMap_cons, hconv]
        simp
      · rw [hdrop, List.filterMap_cons, hconv, List.length_cons, h5]

theorem parseFEntry_effect (self : ObjLoader) (keyword : List Char) (fields : List (List Char)) :
    Post (fun _ s => s.vertices = self.vertices ∧ s.normals = self.normals ∧
        s.loadColorData = self.loadColorData ∧
        s.indices = self.indices ++ fields.filterMap convertIndex ∧
        (fields.filterMap convertIndex).length = 3)
      (fun _ _ => True) (parseFEntry self fields.length (keyword :: fields)) := by
  unfold parseFEntry
  split
  · trivial
  · rename_i hN
    have hlen : fields.length = 3 := by
      have : (fields.length : Int) = 3 := by simpa using hN
      omega
    have h := pushIndices_effect (keyword :: fields) 3 1 self
    have hfields : ((keyword :: fields).drop 1).take 3 = fields := by
      simp only [List.drop_succ_cons, List.drop_zero]
      rw [← hlen, List.take_length]
    rw [hfields] at h
    simpa [hlen] using h

theorem parseVNEntry_effect (self : ObjLoader) (N : Int) (tokens : List (List Char)) :
    Post (fun _ s => s.vertices = self.vertices ∧ s.indices = self.indices ∧
        s.loadColorData = self.loadColorData ∧
        ∃ r, s.normals = self.normals ++ [r] ∧ r.length = 3)
      (fun _ _ => True) (parseVNEntry self N tokens) := by
  unfold parseVNEntry
  split
  · trivial
  · rename_i hN
    have hN3 : N.toNat = 3 := by
      have : N = 3 := by simpa using hN
      rw [this]; rfl
    refine (pushFloats_post tokens _ 1 [] self).bind (fun _ _ _ => trivial) ?_
    intro normal s hs
    obtain ⟨hs1, hlen⟩ := hs
    obtain rfl : self = s := hs1.symm
    refine ⟨rfl, rfl, rfl, normal, rfl, ?_⟩
    rw [hlen, hN3]
    rfl

theorem parseVEntry_effect (self : ObjLoader) (N : Int) (tokens : List (List Char)) :
    Post (fun _ s => s.normals = self.normals ∧ s.indices = self.indices ∧
        s.loadColorData = self.loadColorData ∧
        ∃ r, s.vertices = self.vertices ++ [r] ∧
          (r.length = 4 ∨ (self.loadColorData = true ∧ r.length = 7)))
      (fun _ _ => True) (parseVEntry self N tokens) := by
  unfold parseVEntry
  split
  · trivial
  · rename_i hN
    have hN4 : N = 3 ∨ N = 4 ∨ N = 6 ∨ N = 7 := by omega
    refine (pushFloats_post tokens 3 1 [] self).bind (fun _ _ _ => trivial) ?_
    intro xyz s hs
    obtain ⟨hs1, hxyz⟩ := hs
    obtain rfl : self = s := hs1.symm
    simp only [List.length_nil, Nat.zero_add] at hxyz
    refine Post.bind
      (P := fun iv s => s = self ∧ iv.2.length = 4 ∧
        ((N + 1 - (iv.1 : Int)).toNat = 0 ∨ (N + 1 - (iv.1 : Int)).toNat = 3))
      (Q := fun _ _ => True) ?_ (fun _ _ _ => trivial) ?_
    · split
      · rename_i h36
        refine ⟨rfl, by simp [hxyz], ?_⟩
        rcases h36 with h | h <;> subst h <;> simp
      · rename_i h36
        refine (pushFloats_post tokens 1 4 xyz self).bind (fun _ _ _ => trivial) ?_
        intro xyzw s hs
        refine ⟨hs.1, by rw [hs.2, hxyz], ?_⟩
        have h47 : N = 4 ∨ N = 7 := by omega
        rcases h47 with h | h <;> subst h <;> simp
    · intro iv s hs
      obtain ⟨hs1, hlen, hcount⟩ := hs
      obtain rfl : self = s := hs1.symm
      refine Post.bind
        (P := fun vertex s => s = self ∧
          (vertex.length = 4 ∨ (self.loadColorData = true ∧ vertex.length = 7)))
        (Q := fun _ _ => True) ?_ (fun _ _ _ => trivial) ?_
      · split
        · rename_i hcol
          refine (pushFloats_post _ _ _ _ _).mono ?_ (fun _ _ _ => trivial)
          rintro v s ⟨hs2, hv⟩
          refine ⟨hs2, ?_⟩
          rcases hcount with h | h
          · left; rw [hv, hlen, h]
          · right; exact ⟨hcol, by rw [hv, hlen, h]⟩
        · exact ⟨rfl, Or.inl hlen⟩
      · intro vertex s hs
        obtain ⟨hs1, hv⟩ := hs
        obtain rfl : self = s := hs1.symm
        exact ⟨rfl, rfl, rfl, vertex, rfl, hv⟩

end ObjLoader

namespace ObjLoader

theorem isSkippedLine_eq_false_iff (line : List Char) :
    isSkippedLine line = false ↔ (0 < line.length ∧ line.head? ≠ some '#') := by
  simp only [isSkippedLine, Bool.or_eq_false_iff, decide_eq_false_iff_not]
  constructor
  · rintro ⟨h1, h2⟩; exact ⟨by omega, h2⟩
  · rintro ⟨h1, h2⟩; exact ⟨by omega, h2⟩

/-- What a dispatched line that is processed normally does to the lists. -/
theorem parseLine_effect (self : ObjLoader) (line : List Char) :
    Post (fun _ s => s.loadColorData = self.loadColorData ∧
        s.indices = self.indices ++
          (if (tokenize line defaultSeparator defaultAllowEmptyTokens).head? = some ['f']
            then faceIndices line else []) ∧
        ((tokenize line defaultSeparator defaultAllowEmptyTokens).head? = some ['f'] →
          (faceIndices line).length = 3) ∧
        (∃ rs, s.vertices = self.vertices ++ rs ∧
          ∀ r ∈ rs, r.length = 4 ∨ (self.loadColorData = true ∧ r.length = 7)) ∧
        (∃ ns, s.normals = self.normals ++ ns ∧ ∀ r ∈ ns, r.length = 3))
      (fun _ _ => True) (parseLine self line) := by
  cases htok : tokenize line defaultSeparator defaultAllowEmptyTokens with
  | nil => simp [parseLine, htok, Post]
  | cons k fields =>
    rw [parseLine_of_tokens self line k fields htok]
    have hface : faceIndices line = fields.filterMap convertIndex := by
      simp [faceIndices, htok]
    simp only [List.head?_cons, Option.some.injEq]
    by_cases hv : k = ['v']
    · rw [if_pos hv]
      have hkf : k ≠ ['f'] := by rw [hv]; decide
      refine (parseVEntry_effect self _ _).mono ?_ (fun _ _ _ => trivial)
      rintro _ s ⟨h1, h2, h3, r, h4, h5⟩
      refine ⟨h3, by simp [hkf, h2], fun h => absurd h hkf, ⟨[r], h4, ?_⟩, ⟨[], by simp [h1], ?_⟩⟩
      · intro r1 hr1
        rw [List.mem_singleton] at hr1
        rw [hr1]; exact h5
      · intro r1 hr1; simp at hr1
    · rw [if_neg hv]
      by_cases hvn : k = ['v', 'n']
      · rw [if_pos hvn]
        have hkf : k ≠ ['f'] := by rw [hvn]; decide
        refine (parseVNEntry_effect self _ _).mono ?_ (fun _ _ _ => trivial)
        rintro _ s ⟨h1, h2, h3, r, h4, h5⟩
        refine ⟨h3, by simp [hkf, h2], fun h => absurd h hkf, ⟨[], by simp [h1], ?_⟩,
          ⟨[r], h4, ?_⟩⟩
        · intro r1 hr1; simp at hr1
        · intro r1 hr1
          rw [List.mem_singleton] at hr1
          rw [hr1]; exact h5
      · rw [if_neg hvn]
        by_cases hf : k = ['f']
        · simp only [if_pos hf]
          refine (parseFEntry_effect self k fields).mono ?_ (fun _ _ _ => trivial)
          rintro _ s ⟨h1, h2, h3, h4, h5⟩
          refine ⟨h3, by rw [h4, hface], fun _ => by rw [hface]; exact h5,
            ⟨[], by simp [h1], ?_⟩, ⟨[], by simp [h2], ?_⟩⟩
          · intro r1 hr1; simp at hr1
          · intro r1 hr1; simp at hr1
        · simp only [if_neg hf]
          refine ⟨rfl, by simp, fun h => absurd h hf, ⟨[], by simp, ?_⟩, ⟨[], by simp, ?_⟩⟩
          · intro r1 hr1; simp at hr1
          · intro r1 hr1; simp at hr1

/-- What a scan that ends normally has done to the lists: the indices of the
"f" lines are appended in source order, three for each such line, and records
of the right sizes are appended to the position and normal lists. -/
theorem readLines_effect (lines : List (List Char)) (self : ObjLoader) :
    Post (fun _ s => s.loadColorData = self.loadColorData ∧
        s.indices = self.indices ++ allFaceIndices lines ∧
        (∀ l ∈ lines.filter isFaceLine, (faceIndices l).length = 3) ∧
        (∃ rs, s.vertices = self.vertices ++ rs ∧
          ∀ r ∈ rs, r.length = 4 ∨ (self.loadColorData = true ∧ r.length = 7)) ∧
        (∃ ns, s.normals = self.normals ++ ns ∧ ∀ r ∈ ns, r.length = 3))
      (fun _ _ => True) (readLines self lines) := by
  induction lines generalizing self with
  | nil =>
    refine ⟨rfl, by simp [allFaceIndices], by simp, ⟨[], by simp, ?_⟩, ⟨[], by simp, ?_⟩⟩
    · intro r hr; simp at hr
    · intro r hr; simp at hr
  | cons line rest ih =>
    rw [readLines_cons]
    split
    · rename_i hd
      have hskip := (isSkippedLine_eq_false_iff line).mpr hd
      refine (parseLine_effect _ line).bind (fun _ _ _ => trivial) ?_
      rintro _ s1 ⟨hc1, hi1, hl1, ⟨rs1, hv1, hr1⟩, ⟨ns1, hn1, hm1⟩⟩
      refine (ih s1).mono ?_ (fun _ _ _ => trivial)
      rintro _ s ⟨hc2, hi2, hl2, ⟨rs2, hv2, hr2⟩, ⟨ns2, hn2, hm2⟩⟩
      have hc1' : s1.loadColorData = self.loadColorData := hc1
      refine ⟨hc2.trans hc1', ?_, ?_, ⟨rs1 ++ rs2, ?_, ?_⟩, ⟨ns1 ++ ns2, ?_, ?_⟩⟩
      · rw [hi2, hi1]
        show _ = self.indices ++ _
        by_cases hf : (tokenize line defaultSeparator defaultAllowEmptyTokens).head? = some ['f']
        · have hface : isFaceLine line = true := by simp [isFaceLine, hskip, hf]
          simp [allFaceIndices, List.filter_cons, hface, hf, withLine]
        · have hface : isFaceLine line = false := by simp [isFaceLine, hf]
          simp [allFaceIndices, List.filter_cons, hface, hf, withLine]
      · intro l hl
        rw [List.filter_cons] at hl
        split at hl
        · rename_i hface
          rcases List.mem_cons.mp hl with h | h
          · rw [h]
            apply hl1
            simp only [isFaceLine, Bool.and_eq_true, decide_eq_true_eq] at hface
            exact hface.2
          · exact hl2 l h
        · exact hl2 l hl
      · rw [hv2, hv1]; simp [withLine]
      · intro r hr
        rcases List.mem_append.mp hr with h | h
        · exact hr1 r h
        · have := hr2 r h
          rw [hc1'] at this
          exact this
      · rw [hn2, hn1]; simp [withLine]
      · intro r hr
        rcases List.mem_append.mp hr with h | h
        · exact hm1 r h
        · exact hm2 r h
    · rename_i hd
      have hskip : isSkippedLine line = true := by
        cases h : isSkippedLine line with
        | true => rfl
        | false => exact absurd ((isSkippedLine_eq_false_iff line).mp h) hd
      have hface : isFaceLine line = false := by simp [isFaceLine, hskip]
      refine (ih _).mono ?_ (fun _ _ _ => trivial)
      rintro _ s ⟨hc2, hi2, hl2, hv, hn⟩
      refine ⟨hc2, ?_, ?_, hv, hn⟩
      · rw [hi2]
        simp [allFaceIndices, List.filter_cons, hface, withLine]
      · intro l hl
        rw [List.filter_cons, hface] at hl
        exact hl2 l hl

theorem length_flatMap_of_length_eq {α β : Type} (l : List α) (f : α → List β) (n : Nat)
    (h : ∀ a ∈ l, (f a).length = n) : (l.flatMap f).length = n * l.length := by
  induction l with
  | nil => simp
  | cons a l ih =>
    rw [List.flatMap_cons, List.length_append, h a (List.mem_cons_self _ _),
      ih (fun b hb => h b (List.mem_cons_of_mem _ hb)), List.length_cons]
    ring

/-- The index buffer that `load` returns is the index list after the scan. -/
theorem load_ok_indices (self : ObjLoader) (filename : List Char) (lines : List (List Char))
    (bad : Bool) (mesh : Mesh) (s : ObjLoader)
    (h : load self filename (some { lines := lines, bad := bad }) = .ok mesh s) :
    ∃ s1, readLines (self.startLoad filename) lines = .ok () s1 ∧ mesh.indices = s1.indices := by
  unfold load at h
  simp only at h
  cases hr : readLines (self.startLoad filename) lines with
  | undefined => rw [hr] at h; simp [Result.bind] at h
  | throw ex s1 => rw [hr] at h; simp [Result.bind] at h
  | ok a s1 =>
    refine ⟨s1, rfl, ?_⟩
    rw [hr] at h
    simp only [Result.bind] at h
    split at h
    · simp at h
    · split at h
      · split at h
        · simp at h
        · simp only [Result.ok.injEq] at h
          rw [← h.1]
      · simp only [Result.ok.injEq] at h
        rw [← h.1]

end ObjLoader

namespace ObjLoader

/-- The index buffer of a successful load on a loader whose index list is
empty. -/
theorem load_indices_eq (self : ObjLoader) (hself : self.indices = []) (filename : List Char)
    (lines : List (List Char)) (bad : Bool) (mesh : Mesh) (s : ObjLoader)
    (h : load self filename (some { lines := lines, bad := bad }) = .ok mesh s) :
    mesh.indices = allFaceIndices lines ∧
      ∀ l ∈ lines.filter isFaceLine, (faceIndices l).length = 3 := by
  obtain ⟨s1, hs1, hm⟩ := load_ok_indices self filename lines bad mesh s h
  have he := readLines_effect lines (self.startLoad filename)
  rw [hs1] at he
  obtain ⟨_, hi, hl, _, _⟩ := he
  refine ⟨?_, hl⟩
  rw [hm, hi]
  show self.indices ++ _ = _
  rw [hself, List.nil_append]

theorem readLines_wellFormed (lines : List (List Char)) (self s : ObjLoader)
    (hinv : RecordsWellFormed self) (h : readLines self lines = .ok () s) :
    RecordsWellFormed s := by
  have he := readLines_effect lines self
  rw [h] at he
  obtain ⟨hc, _, _, ⟨rs, hv, hr⟩, ⟨ns, hn, hm⟩⟩ := he
  constructor
  · intro r hmem
    rw [hv] at hmem
    rw [hc]
    rcases List.mem_append.mp hmem with h1 | h1
    · exact hinv.1 r h1
    · exact hr r h1
  · intro r hmem
    rw [hn] at hmem
    rcases List.mem_append.mp hmem with h1 | h1
    · exact hinv.2 r h1
    · exact hm r h1

theorem parseLine_wellFormed (line : List Char) (self s : ObjLoader)
    (hinv : RecordsWellFormed self) (h : parseLine self line = .ok () s) :
    RecordsWellFormed s := by
  have he := parseLine_effect self line
  rw [h] at he
  obtain ⟨hc, _, _, ⟨rs, hv, hr⟩, ⟨ns, hn, hm⟩⟩ := he
  constructor
  · intro r hmem
    rw [hv] at hmem
    rw [hc]
    rcases List.mem_append.mp hmem with h1 | h1
    · exact hinv.1 r h1
    · exact hr r h1
  · intro r hmem
    rw [hn] at hmem
    rcases List.mem_append.mp hmem with h1 | h1
    · exact hinv.2 r h1
    · exact hm r h1

end ObjLoader

/-- C14: the index buffer of a successful load on a fresh loader is the
concatenation, in source order, of the converted indices of the "f" lines and
nothing else; it has three entries for each "f" line; and it is the same under
every layout policy and colour setting for which the load succeeds. -/
theorem index_buffer_contents (inlining loadColorData : Bool) (filename : List Char)
    (lines : List (List Char)) (bad : Bool) (mesh : Mesh) (s : ObjLoader)
    (h : load (new inlining loadColorData) filename (some { lines := lines, bad := bad })
      = .ok mesh s) :
    mesh.indices = allFaceIndices lines ∧
      mesh.indices.length = 3 * (lines.filter isFaceLine).length ∧
      (∀ inlining1 loadColorData1 mesh1 s1,
        load (new inlining1 loadColorData1) filename (some { lines := lines, bad := bad })
          = .ok mesh1 s1 → mesh1.indices = mesh.indices) := by
  obtain ⟨h1, h2⟩ := load_indices_eq (new inlining loadColorData) rfl filename lines bad mesh s h
  refine ⟨h1, ?_, ?_⟩
  · rw [h1]
    exact length_flatMap_of_length_eq _ _ 3 h2
  · intro inlining1 loadColorData1 mesh1 s1 h3
    rw [h1]
    exact (load_indices_eq (new inlining1 loadColorData1) rfl filename lines bad mesh1 s1 h3).1

/-- C14, witness: the source of testable property 8 has one "f" line and loads
with index buffer `[0,1,2]`. -/
theorem index_buffer_contents_witness :
    ((load (new true false) "triangle.obj".toList (fileOf triangleSource)).valueD
        { vertexData := [], indices := [] }).indices = [0, 1, 2] ∧
      ((load (new true false) "triangle.obj".toList (fileOf triangleSource)).valueD
        { vertexData := [], indices := [] }).indices.length =
          3 * ((triangleSource.map String.toList).filter isFaceLine).length :=
  ⟨(index_buffer_contents true false "triangle.obj".toList (triangleSource.map String.toList)
      false
      ((load (new true false) "triangle.obj".toList (fileOf triangleSource)).valueD
        { vertexData := [], indices := [] })
      ((load (new true false) "triangle.obj".toList (fileOf triangleSource)).stateD
        (new true false)) (by decide)).1.trans (by decide),
    (index_buffer_contents true false "triangle.obj".toList (triangleSource.map String.toList)
      false
      ((load (new true false) "triangle.obj".toList (fileOf triangleSource)).valueD
        { vertexData := [], indices := [] })
      ((load (new true false) "triangle.obj".toList (fileOf triangleSource)).stateD
        (new true false)) (by decide)).2.1⟩

/-- C15: after any sequence of lines that a fresh loader processes without
error, every position record has 4 fields, or 7 when colour loading is on (so
4 whenever it is off), and every normal record has 3 fields; and processing
lines, one or many, from any state with this property leads to a state with
it. -/
theorem record_field_counts (inlining loadColorData : Bool) (filename : List Char)
    (lines : List (List Char)) (s : ObjLoader)
    (h : readLines ((new inlining loadColorData).startLoad filename) lines = .ok () s) :
    RecordsWellFormed s ∧
      (loadColorData = false → ∀ r ∈ s.vertices, r.length = 4) ∧
      (∀ t line t1, RecordsWellFormed t → parseLine t line = .ok () t1 →
        RecordsWellFormed t1) ∧
      (∀ t more t1, RecordsWellFormed t → readLines t more = .ok () t1 →
        RecordsWellFormed t1) := by
  have hfresh : RecordsWellFormed ((new inlining loadColorData).startLoad filename) := by
    constructor <;> intro r hr <;> simp [new, startLoad] at hr
  have hs := readLines_wellFormed lines _ s hfresh h
  refine ⟨hs, ?_, fun t line t1 ht h1 => parseLine_wellFormed line t t1 ht h1,
    fun t more t1 ht h1 => readLines_wellFormed more t t1 ht h1⟩
  intro hcol r hr
  have hflag := (readLines_fresh h).2.1
  rcases hs.1 r hr with h4 | ⟨h7, _⟩
  · exact h4
  · rw [hflag, hcol] at h7
    exact absurd h7 (by simp)

/-- C15, witness: the records of the source of testable property 8. -/
theorem record_field_counts_witness :
    RecordsWellFormed
      ((readLines ((new true false).startLoad "triangle.obj".toList)
        (triangleSource.map String.toList)).stateD (new true false)) :=
  (record_field_counts true false "triangle.obj".toList (triangleSource.map String.toList)
    ((readLines ((new true false).startLoad "triangle.obj".toList)
      (triangleSource.map String.toList)).stateD (new true false)) (by decide)).1

/-- C16: when every line of a source is processed normally on a fresh loader
(and, under the inlined layout, the numbers of position and normal records are
equal), `load` succeeds and returns the converted indices of the "f" lines as
they are: no condition on their values enters, so an index at or beyond the
number of position records is returned like any other. -/
theorem face_indices_not_range_checked (inlining loadColorData : Bool) (filename : List Char)
    (lines : List (List Char)) (s : ObjLoader)
    (hscan : readLines ((new inlining loadColorData).startLoad filename) lines = .ok () s)
    (hcount : inlining = true → s.vertices.length = s.normals.length) :
    ∃ mesh s1,
      load (new inlining loadColorData) filename (some { lines := lines, bad := false })
        = .ok mesh s1 ∧
      mesh.indices = allFaceIndices lines := by
  obtain ⟨h1, _, _, _⟩ := readLines_fresh hscan
  have hload : ∃ mesh s1,
      load (new inlining loadColorData) filename (some { lines := lines, bad := false })
        = .ok mesh s1 := by
    cases inlining with
    | true => simp [load, hscan, Result.bind, h1, hcount rfl]
    | false => simp [load, hscan, Result.bind, h1]
  obtain ⟨mesh, s1, hm⟩ := hload
  exact ⟨mesh, s1, hm,
    (load_indices_eq (new inlining loadColorData) rfl filename lines false mesh s1 hm).1⟩

/-- C16, witness: three "v" lines, three "vn" lines and "f 1 2 9" load with
index buffer `[0,1,8]`, although there are only three position records. -/
theorem face_indices_not_range_checked_witness :
    (load (new true false) "wide.obj".toList (fileOf outOfRangeSource)).value?.map Mesh.indices
      = some [0, 1, 8] := by
  obtain ⟨mesh, s1, hm, hi⟩ := face_indices_not_range_checked true false "wide.obj".toList
    (outOfRangeSource.map String.toList)
    ((readLines ((new true false).startLoad "wide.obj".toList)
      (outOfRangeSource.map String.toList)).stateD (new true false)) (by decide)
    (fun _ => by decide)
  rw [fileOf, hm]
  simp only [Result.value?, Option.map_some', hi]
  decide

/-! ## Token accesses of the record parsers -/

namespace ObjLoader

theorem Traced.bind_fst {α β : Type} (t : Traced α) (f : α → ObjLoader → Traced β) :
    (t.bind f).1 = t.1.bind fun a s => (f a s).1 := by
  unfold Traced.bind Result.bind
  cases t.1 <;> rfl

theorem pushFloatsTraced_fst (site : ReadSite) (tokens : List (List Char)) (count i : Nat)
    (vertex : List F32) (self : ObjLoader) :
    (pushFloatsTraced site tokens count i vertex self).1 =
      pushFloats tokens count i vertex self := by
  induction count generalizing i vertex self with
  | zero => rfl
  | succ k ih =>
    unfold pushFloatsTraced pushFloats
    rw [Traced.bind_fst]
    congr 1
    funext tok s
    rw [Traced.bind_fst]
    congr 1
    funext x s1
    exact ih _ _ _

theorem pushIndicesTraced_fst (tokens : List (List Char)) (count i : Nat) (self : ObjLoader) :
    (pushIndicesTraced tokens count i self).1 = pushIndices tokens count i self := by
  induction count generalizing i self with
  | zero => rfl
  | succ k ih =>
    unfold pushIndicesTraced pushIndices
    rw [Traced.bind_fst]
    congr 1
    funext tok s
    rw [Traced.bind_fst]
    congr 1
    funext x s1
    cases toIndex (F32.sub x (F32.ofInt 1)) with
    | none => rfl
    | some idx => exact ih _ _

/-- The traced `parseVEntry` returns what `parseVEntry` returns. -/
theorem parseVEntryTraced_fst (self : ObjLoader) (N : Int) (tokens : List (List Char)) :
    (parseVEntryTraced self N tokens).1 = parseVEntry self N tokens := by
  unfold parseVEntryTraced parseVEntry
  split
  · rfl
  · rw [Traced.bind_fst, pushFloatsTraced_fst]
    congr 1
    funext xyz s
    rw [Traced.bind_fst]
    congr 1
    · split
      · rfl
      · rw [Traced.bind_fst, pushFloatsTraced_fst]
        rfl
    · funext iv s1
      rw [Traced.bind_fst]
      congr 1
      split
      · exact pushFloatsTraced_fst _ _ _ _ _ _
      · rfl

/-- The traced `parseVNEntry` returns what `parseVNEntry` returns. -/
theorem parseVNEntryTraced_fst (self : ObjLoader) (N : Int) (tokens : List (List Char)) :
    (parseVNEntryTraced self N tokens).1 = parseVNEntry self N tokens := by
  unfold parseVNEntryTraced parseVNEntry
  split
  · rfl
  · rw [Traced.bind_fst, pushFloatsTraced_fst]
    rfl

/-- The traced `parseFEntry` returns what `parseFEntry` returns. -/
theorem parseFEntryTraced_fst (self : ObjLoader) (N : Int) (tokens : List (List Char)) :
    (parseFEntryTraced self N tokens).1 = parseFEntry self N tokens := by
  unfold parseFEntryTraced parseFEntry
  split
  · rfl
  · exact pushIndicesTraced_fst _ _ _ _

theorem TracedPost.pure_ok {α : Type} {P : α → ObjLoader → List (ReadSite × Nat) → Prop}
    {Q : List (ReadSite × Nat) → Prop} (a : α) (s : ObjLoader) (h : P a s []) :
    TracedPost P Q (Traced.pure (.ok a s)) := h

theorem TracedPost.andThen {α β : Type} {P : α → ObjLoader → List (ReadSite × Nat) → Prop}
    {Q : List (ReadSite × Nat) → Prop} {P1 : β → ObjLoader → List (ReadSite × Nat) → Prop}
    {Q1 : List (ReadSite × Nat) → Prop} {t : Traced α} {f : α → ObjLoader → Traced β}
    (ht : TracedPost P Q t) (hQ : ∀ tr, Q tr → Q1 tr)
    (hf : ∀ a s tr, P a s tr →
      TracedPost (fun b s1 tr1 => P1 b s1 (tr ++ tr1)) (fun tr1 => Q1 (tr ++ tr1)) (f a s)) :
    TracedPost P1 Q1 (t.bind f) := by
  rcases t with ⟨r, tr⟩
  cases r with
  | ok a s =>
    have h := hf a s tr ht
    unfold TracedPost at h ⊢
    unfold Traced.bind
    dsimp only at h ⊢
    cases hfa : (f a s).1 with
    | ok b s1 => rw [hfa] at h; exact h
    | throw ex s1 => rw [hfa] at h; exact h
    | undefined => rw [hfa] at h; exact h
  | throw ex s => exact hQ tr ht
  | undefined => exact hQ tr ht

theorem TracedPost.mono_of {α : Type} {P P1 : α → ObjLoader → List (ReadSite × Nat) → Prop}
    {Q Q1 : List (ReadSite × Nat) → Prop} {t : Traced α}
    (hP : ∀ a s tr, P a s tr → P1 a s tr) (hQ : ∀ tr, Q tr → Q1 tr) (ht : TracedPost P Q t) :
    TracedPost P1 Q1 t := by
  unfold TracedPost at ht ⊢
  cases h : t.1 with
  | ok a s => rw [h] at ht; exact hP a s _ ht
  | throw ex s => rw [h] at ht; exact hQ _ ht
  | undefined => rw [h] at ht; exact hQ _ ht

theorem loopReads_succ (site : ReadSite) (i count : Nat) :
    loopReads site i (count + 1) = (site, i) :: loopReads site (i + 1) count := by
  simp [loopReads, List.range'_succ]

/-- A loop of `count` conversions from index `i` reads `tokens[i]`,
`tokens[i+1]`, ... in order: all `count` of them when it completes, an initial
part of them when a conversion fails. -/
theorem pushFloatsTraced_post (site : ReadSite) (tokens : List (List Char)) (count i : Nat)
    (vertex : List F32) (self : ObjLoader) :
    TracedPost (fun _ s tr => s = self ∧ tr = loopReads site i count)
      (fun tr => tr <+: loopReads site i count)
      (pushFloatsTraced site tokens count i vertex self) := by
  induction count generalizing i vertex with
  | zero => exact ⟨rfl, rfl⟩
  | succ k ih =>
    unfold pushFloatsTraced
    rw [loopReads_succ]
    have h1 : TracedPost (fun _ s tr => s = self ∧ tr = [(site, i)])
        (fun tr => tr = [(site, i)]) (tokenAtTraced site tokens i self) := by
      unfold TracedPost tokenAtTraced tokenAt
      cases tokens.get? i <;> simp
    refine h1.andThen ?_ ?_
    · rintro tr rfl
      exact List.prefix_append [(site, i)] _
    · rintro tok s tr ⟨rfl, rfl⟩
      have h2 : TracedPost (fun _ s1 tr => s1 = s ∧ tr = []) (fun tr => tr = [])
          (Traced.pure (s.toFloat tok)) := by
        have := toFloat_post s tok
        unfold TracedPost Traced.pure
        cases hr : s.toFloat tok with
        | ok x s1 => rw [hr] at this; exact ⟨this.1, rfl⟩
        | throw ex s1 => rfl
        | undefined => rfl
      refine h2.andThen ?_ ?_
      · rintro tr rfl
        exact List.prefix_append [(site, i)] _
      · rintro x s1 tr ⟨rfl, rfl⟩
        refine TracedPost.mono_of ?_ ?_ (ih (i + 1) (vertex ++ [x]))
        · rintro _ s2 tr ⟨hs, rfl⟩
          exact ⟨hs, by simp⟩
        · intro tr htr
          simpa using (List.prefix_cons_inj (site, i)).mpr htr

end ObjLoader

namespace ObjLoader

theorem TracedPost.append_left {α : Type} {t : Traced α} (front full : List (ReadSite × Nat))
    (ht : TracedPost (fun _ _ tr => tr = full) (fun tr => tr <+: full) t) :
    TracedPost (fun _ _ tr => front ++ tr = front ++ full)
      (fun tr => front ++ tr <+: front ++ full) t :=
  TracedPost.mono_of (fun _ _ tr h => by rw [h])
    (fun tr h => (List.prefix_append_right_inj front).mpr h) ht

/-- The accesses of `parseVEntry` once the field count is accepted: the
scheduled ones when it returns, an initial part of them when it throws. -/
theorem parseVEntryTraced_post (self : ObjLoader) (N : Nat) (tokens : List (List Char))
    (hN : N = 3 ∨ N = 4 ∨ N = 6 ∨ N = 7) :
    TracedPost (fun _ _ tr => tr = scheduledReads self.loadColorData N)
      (fun tr => tr <+: scheduledReads self.loadColorData N)
      (parseVEntryTraced self N tokens) := by
  unfold parseVEntryTraced
  have hcheck : ¬((N : Int) ≠ 3 ∧ (N : Int) ≠ 4 ∧ (N : Int) ≠ 6 ∧ (N : Int) ≠ 7) := by omega
  rw [if_neg hcheck]
  have h36 : ((N : Int) = 3 ∨ (N : Int) = 6) ↔ (N = 3 ∨ N = 6) := by omega
  simp only [h36]
  unfold scheduledReads
  rw [List.append_assoc]
  refine (pushFloatsTraced_post .xyz tokens 3 1 [] self).andThen ?_ ?_
  · intro tr htr
    exact htr.trans (List.prefix_append _ _)
  · rintro xyz s tr ⟨rfl, rfl⟩
    refine TracedPost.append_left _ _ ?_
    refine TracedPost.andThen
      (P := fun iv s1 tr => s1 = s ∧ tr = (if N = 3 ∨ N = 6 then [] else loopReads .w 4 1) ∧
        iv.1 = (if N = 3 ∨ N = 6 then 4 else 5))
      (Q := fun tr => tr <+: (if N = 3 ∨ N = 6 then [] else loopReads .w 4 1)) ?_ ?_ ?_
    · by_cases h : N = 3 ∨ N = 6
      · simp only [if_pos h]
        exact ⟨rfl, rfl, rfl⟩
      · simp only [if_neg h]
        refine (pushFloatsTraced_post .w tokens 1 4 xyz s).andThen (fun _ h1 => h1) ?_
        rintro xyzw s1 tr ⟨rfl, rfl⟩
        exact ⟨rfl, List.append_nil _, rfl⟩
    · intro tr htr
      exact htr.trans (List.prefix_append _ _)
    · rintro iv s1 tr ⟨rfl, rfl, hiv⟩
      refine TracedPost.append_left _ _ ?_
      have hcount : (if N = 3 ∨ N = 6 then loopReads ReadSite.colour 4 (N - 3)
          else loopReads ReadSite.colour 5 (N - 4)) =
          loopReads .colour iv.1 ((N : Int) + 1 - (iv.1 : Int)).toNat := by
        rw [hiv]
        by_cases h : N = 3 ∨ N = 6
        · rw [if_pos h, if_pos h]
          congr 1
          omega
        · rw [if_neg h, if_neg h]
          congr 1
          omega
      rw [hcount]
      refine TracedPost.andThen
        (P := fun _ _ tr => tr = (if s1.loadColorData = true then
          loopReads .colour iv.1 ((N : Int) + 1 - (iv.1 : Int)).toNat else []))
        (Q := fun tr => tr <+: (if s1.loadColorData = true then
          loopReads .colour iv.1 ((N : Int) + 1 - (iv.1 : Int)).toNat else [])) ?_
        (fun _ h1 => h1) ?_
      · by_cases hcol : s1.loadColorData = true
        · simp only [if_pos hcol]
          exact TracedPost.mono_of (fun _ _ _ h1 => h1.2) (fun _ h1 => h1)
            (pushFloatsTraced_post _ _ _ _ _ _)
        · simp only [if_neg hcol]
          rfl
      · rintro vertex s2 tr rfl
        show _ ++ [] = _
        exact List.append_nil _

theorem parseVNEntryTraced_post (self : ObjLoader) (tokens : List (List Char)) :
    TracedPost (fun _ _ tr => tr = loopReads .normal 1 3)
      (fun tr => tr <+: loopReads .normal 1 3)
      (parseVNEntryTraced self 3 tokens) := by
  unfold parseVNEntryTraced
  rw [if_neg (by simp)]
  refine (pushFloatsTraced_post .normal tokens 3 1 [] self).andThen (fun _ h1 => h1) ?_
  rintro normal s tr ⟨rfl, rfl⟩
  show _ ++ [] = _
  exact List.append_nil _

theorem pushIndicesTraced_post (tokens : List (List Char)) (count i : Nat) (self : ObjLoader) :
    TracedPost (fun _ _ tr => tr = loopReads .face i count)
      (fun tr => tr <+: loopReads .face i count)
      (pushIndicesTraced tokens count i self) := by
  induction count generalizing i self with
  | zero => rfl
  | succ k ih =>
    unfold pushIndicesTraced
    rw [loopReads_succ]
    have h1 : TracedPost (fun _ s tr => s = self ∧ tr = [(ReadSite.face, i)])
        (fun tr => tr = [(ReadSite.face, i)]) (tokenAtTraced .face tokens i self) := by
      unfold TracedPost tokenAtTraced tokenAt
      cases tokens.get? i <;> simp
    refine h1.andThen ?_ ?_
    · rintro tr rfl
      exact List.prefix_append [(ReadSite.face, i)] _
    · rintro tok s tr ⟨rfl, rfl⟩
      have h2 : TracedPost (fun _ s1 tr => s1 = s ∧ tr = []) (fun tr => tr = [])
          (Traced.pure (s.toInt tok)) := by
        have := toInt_post s tok
        unfold TracedPost Traced.pure
        cases hr : s.toInt tok with
        | ok x s1 => rw [hr] at this; exact ⟨this.1, rfl⟩
        | throw ex s1 => rfl
        | undefined => rfl
      refine h2.andThen ?_ ?_
      · rintro tr rfl
        exact List.prefix_append [(ReadSite.face, i)] _
      · rintro x s1 tr ⟨rfl, rfl⟩
        cases toIndex (F32.sub x (F32.ofInt 1)) with
        | none =>
          show [(ReadSite.face, i)] ++ ([] ++ []) <+: _
          exact List.prefix_append [(ReadSite.face, i)] _
        | some idx =>
          refine TracedPost.mono_of ?_ ?_ (ih (i + 1) _)
          · rintro _ s2 tr rfl
            simp
          · intro tr htr
            simpa using (List.prefix_cons_inj (ReadSite.face, i)).mpr htr

theorem parseFEntryTraced_post (self : ObjLoader) (tokens : List (List Char)) :
    TracedPost (fun _ _ tr => tr = loopReads .face 1 3)
      (fun tr => tr <+: loopReads .face 1 3)
      (parseFEntryTraced self 3 tokens) := by
  unfold parseFEntryTraced
  rw [if_neg (by simp)]
  exact pushIndicesTraced_post tokens 3 1 self

/-- A traced call whose postcondition bounds the trace by `full` has a trace that
is an initial part of `full`, and all of `full` when the call returns. -/
theorem TracedPost.prefix_of {α : Type} {t : Traced α} {full : List (ReadSite × Nat)}
    (ht : TracedPost (fun _ _ tr => tr = full) (fun tr => tr <+: full) t) :
    t.2 <+: full ∧ ∀ a s, t.1 = .ok a s → t.2 = full := by
  unfold TracedPost at ht
  cases h : t.1 with
  | ok a s => rw [h] at ht; exact ⟨ht ▸ List.prefix_refl _, fun _ _ _ => ht⟩
  | throw ex s =>
    rw [h] at ht
    exact ⟨ht, fun _ _ h1 => by simp at h1⟩
  | undefined =>
    rw [h] at ht
    exact ⟨ht, fun _ _ h1 => by simp at h1⟩

end ObjLoader

namespace ObjLoader

theorem scheduledReads_bounds (loadColorData : Bool) (N : Nat)
    (hN : N = 3 ∨ N = 4 ∨ N = 6 ∨ N = 7) :
    ∀ a ∈ scheduledReads loadColorData N, 1 ≤ a.2 ∧ a.2 ≤ N := by
  rcases hN with h | h | h | h <;> subst h <;> cases loadColorData <;> decide

theorem colourReads_scheduledReads (loadColorData : Bool) (N : Nat)
    (hN : N = 3 ∨ N = 4 ∨ N = 6 ∨ N = 7) :
    colourReads (scheduledReads loadColorData N) =
      if loadColorData = true ∧ (N = 6 ∨ N = 7) then [N - 2, N - 1, N] else [] := by
  rcases hN with h | h | h | h <;> subst h <;> cases loadColorData <;> decide

theorem loopReads_three_bounds (site : ReadSite) :
    ∀ a ∈ loopReads site 1 3, 1 ≤ a.2 ∧ a.2 ≤ 3 := by
  cases site <;> decide

theorem tokenAt_defined (tokens : List (List Char)) (i : Nat) (self : ObjLoader)
    (hi : i < tokens.length) : tokenAt tokens i self = .ok tokens[i] self := by
  unfold tokenAt
  rw [List.get?_eq_getElem?, List.getElem?_eq_getElem hi]

/-- A conversion loop whose index range lies inside the token vector has
defined behaviour. -/
theorem pushFloats_defined (tokens : List (List Char)) (count i : Nat) (vertex : List F32)
    (self : ObjLoader) (h : i + count ≤ tokens.length) :
    pushFloats tokens count i vertex self ≠ .undefined := by
  induction count generalizing i vertex with
  | zero => simp [pushFloats]
  | succ k ih =>
    unfold pushFloats
    rw [tokenAt_defined tokens i self (by omega)]
    simp only [Result.bind]
    rcases toFloat_ok_or_throw self tokens[i] with ⟨x, hx⟩ | ⟨ex, hx⟩
    · rw [hx]
      exact ih (i + 1) _ (by omega)
    · rw [hx]
      simp

theorem Result.bind_defined {α β : Type} {r : Result α} {f : α → ObjLoader → Result β}
    (hr : r ≠ .undefined) (hf : ∀ a s, r = .ok a s → f a s ≠ .undefined) :
    r.bind f ≠ .undefined := by
  cases r with
  | ok a s => exact hf a s rfl
  | throw ex s => simp [Result.bind]
  | undefined => exact absurd rfl hr

theorem parseVEntry_defined (self : ObjLoader) (N : Nat) (tokens : List (List Char))
    (hlen : tokens.length = N + 1) : parseVEntry self N tokens ≠ .undefined := by
  unfold parseVEntry
  split
  · simp
  · rename_i hcheck
    have hN : N = 3 ∨ N = 4 ∨ N = 6 ∨ N = 7 := by omega
    refine Result.bind_defined (pushFloats_defined tokens 3 1 [] self (by omega)) ?_
    intro xyz s hr1
    have p1 := pushFloats_post tokens 3 1 [] self
    rw [hr1] at p1
    obtain rfl : self = s := p1.1.symm
    refine Result.bind_defined ?_ ?_
    · split
      · simp
      · refine Result.bind_defined (pushFloats_defined tokens 1 4 xyz self (by omega)) ?_
        intro xyzw s2 _
        simp
    · intro iv s1 hr2
      have hiv : s1 = self ∧ (iv.1 = 4 ∨ (iv.1 = 5 ∧ 4 ≤ N)) := by
        split at hr2
        · simp only [Result.ok.injEq] at hr2
          exact ⟨hr2.2.symm, Or.inl (by rw [← hr2.1])⟩
        · rename_i h36
          have p2 := pushFloats_post tokens 1 4 xyz self
          cases hr3 : pushFloats tokens 1 4 xyz self with
          | undefined => rw [hr3] at hr2; simp [Result.bind] at hr2
          | throw ex s2 => rw [hr3] at hr2; simp [Result.bind] at hr2
          | ok xyzw s2 =>
            rw [hr3] at hr2 p2
            simp only [Result.bind, Result.ok.injEq] at hr2
            exact ⟨hr2.2.symm.trans p2.1, Or.inr ⟨by rw [← hr2.1], by omega⟩⟩
      obtain ⟨rfl, hi⟩ := hiv
      refine Result.bind_defined ?_ (fun _ _ _ => by simp)
      split
      · refine pushFloats_defined tokens _ iv.1 iv.2 s1 ?_
        rcases hi with h | ⟨h, h4⟩ <;> rw [h] <;> omega
      · simp

theorem parseVNEntry_defined (self : ObjLoader) (N : Nat) (tokens : List (List Char))
    (hlen : tokens.length = N + 1) : parseVNEntry self N tokens ≠ .undefined := by
  unfold parseVNEntry
  split
  · simp
  · rename_i hcheck
    have hN : N = 3 := by omega
    subst hN
    have h1 := pushFloats_defined tokens 3 1 [] self (by omega)
    exact Result.bind_defined h1 (fun _ _ _ => by simp)

end ObjLoader

/-- C18 (refuted in its last clause): on the tokens of "v 0 0 0 x 1 1" (seven
tokens, `N = 6`, colour loading on) the colour loop reads `tokens[4]` only: the
conversion of "x" throws and ends the loop after one token, not three. -/
theorem colour_loop_stops_at_malformed_field :
    malformedColourTokens.length = 6 + 1 ∧
      parseVEntry (new true true) 6 malformedColourTokens =
        .throw ((new true true).error (.floatInvalid ['x'])) (new true true) ∧
      (parseVEntryTraced (new true true) 6 malformedColourTokens).1 =
        parseVEntry (new true true) 6 malformedColourTokens ∧
      colourReads (parseVEntryTraced (new true true) 6 malformedColourTokens).2 = [4] := by
  decide

/-- C18, amended: for a token list of length `N + 1` that passes the field-count
check of its parser, every index at which `parseVEntry`, `parseVNEntry` or
`parseFEntry` reads `tokens[i]` satisfies `1 ≤ i ≤ N` (so it is inside the
vector), for both colour settings, and the token accesses of `parseVEntry` and
`parseVNEntry` are never undefined. In `parseVEntry` the colour loop reads at
most three tokens, an initial part of `N-2, N-1, N`: none when colour loading
is off or `N ∈ {3,4}`, and exactly these three when colour loading is on,
`N ∈ {6,7}` and the line is accepted. -/
theorem token_accesses_in_bounds (self : ObjLoader) (N : Nat) (tokens : List (List Char))
    (hlen : tokens.length = N + 1) :
    ((parseVEntryTraced self N tokens).1 = parseVEntry self N tokens ∧
        (parseVNEntryTraced self N tokens).1 = parseVNEntry self N tokens ∧
        (parseFEntryTraced self N tokens).1 = parseFEntry self N tokens) ∧
      (parseVEntry self N tokens ≠ .undefined ∧ parseVNEntry self N tokens ≠ .undefined) ∧
      (N = 3 ∨ N = 4 ∨ N = 6 ∨ N = 7 →
        (∀ a ∈ (parseVEntryTraced self N tokens).2,
          1 ≤ a.2 ∧ a.2 ≤ N ∧ a.2 < tokens.length) ∧
        colourReads (parseVEntryTraced self N tokens).2 <+: [N - 2, N - 1, N] ∧
        (self.loadColorData = false ∨ N = 3 ∨ N = 4 →
          colourReads (parseVEntryTraced self N tokens).2 = []) ∧
        (∀ s, parseVEntry self N tokens = .ok () s → self.loadColorData = true →
          N = 6 ∨ N = 7 →
          colourReads (parseVEntryTraced self N tokens).2 = [N - 2, N - 1, N])) ∧
      (N = 3 →
        (∀ a ∈ (parseVNEntryTraced self N tokens).2,
          1 ≤ a.2 ∧ a.2 ≤ N ∧ a.2 < tokens.length) ∧
        (∀ a ∈ (parseFEntryTraced self N tokens).2,
          1 ≤ a.2 ∧ a.2 ≤ N ∧ a.2 < tokens.length)) := by
  refine ⟨⟨parseVEntryTraced_fst _ _ _, parseVNEntryTraced_fst _ _ _,
    parseFEntryTraced_fst _ _ _⟩,
    ⟨parseVEntry_defined self N tokens hlen, parseVNEntry_defined self N tokens hlen⟩, ?_, ?_⟩
  · intro hN
    obtain ⟨hpre, hfull⟩ := TracedPost.prefix_of (parseVEntryTraced_post self N tokens hN)
    have hsched := colourReads_scheduledReads self.loadColorData N hN
    have hcpre : colourReads (parseVEntryTraced self N tokens).2 <+:
        colourReads (scheduledReads self.loadColorData N) :=
      List.IsPrefix.map _ (List.IsPrefix.filter _ hpre)
    refine ⟨?_, ?_, ?_, ?_⟩
    · intro a ha
      have hb := scheduledReads_bounds self.loadColorData N hN a (List.IsPrefix.mem ha hpre)
      exact ⟨hb.1, hb.2, by omega⟩
    · rw [hsched] at hcpre
      split at hcpre
      · exact hcpre
      · exact hcpre.trans (List.nil_prefix)
    · intro hoff
      rw [hsched] at hcpre
      have hcond : ¬(self.loadColorData = true ∧ (N = 6 ∨ N = 7)) := by
        rintro ⟨h1, h2⟩
        rcases hoff with h | h | h
        · rw [h] at h1; exact absurd h1 (by simp)
        · omega
        · omega
      rw [if_neg hcond] at hcpre
      exact List.prefix_nil.mp hcpre
    · intro s hs hcol h67
      have hok : (parseVEntryTraced self N tokens).1 = .ok () s := by
        rw [parseVEntryTraced_fst, hs]
      rw [hfull () s hok, hsched, if_pos ⟨hcol, h67⟩]
  · intro h3
    subst h3
    obtain ⟨hpre1, _⟩ := TracedPost.prefix_of (parseVNEntryTraced_post self tokens)
    obtain ⟨hpre2, _⟩ := TracedPost.prefix_of (parseFEntryTraced_post self tokens)
    constructor
    · intro a ha
      have hb := loopReads_three_bounds .normal a (List.IsPrefix.mem ha hpre1)
      exact ⟨hb.1, hb.2, by omega⟩
    · intro a ha
      have hb := loopReads_three_bounds .face a (List.IsPrefix.mem ha hpre2)
      exact ⟨hb.1, hb.2, by omega⟩

/-- C18, witness of the amended statement: on the tokens of
"v 0 0 0 1 0.5 0 0" with colour loading on, the colour loop reads tokens 5, 6
and 7. -/
theorem token_accesses_in_bounds_witness :
    colourReads (parseVEntryTraced (new true true) 7 colouredTokens).2 = [5, 6, 7] :=
  (token_accesses_in_bounds (new true true) 7 colouredTokens (by decide)).2.2.1
    (by decide) |>.2.2.2
    ((parseVEntry (new true true) 7 colouredTokens).stateD (new true true))
    (by decide) rfl (by decide)

end Helion
